import Mathlib

/-!
# The growable block queue of `dab/types/queue.h`

A shallow embedding of `dab::internal::queue<ValueType, BlockSize, GroupSize>`.

* The three counters `m_capacity`, `m_current`, `m_size` are `std::size_t`; they are
  natural numbers here and every arithmetic operation the source performs on them is
  written with its wrap-around modulo `size_mod = 2 ^ 64` (`sz_add`, `sz_sub`, `sz_mul`).
* The backing store is a list of slots, one per element. A slot is `none` while no object is
  constructed in it and `some v` while it holds the object `v`. `allocate` requests
  `element_size * elements` bytes, a `std::size_t` product that wraps modulo `2 ^ 64`; the
  store it yields has one unconstructed slot for every whole element that fits into that
  many bytes, and the request always succeeds. Placement-new and `memcpy` fill a slot, an
  explicit destructor call empties it. The byte counts handed to `memcpy` and `memmove` are
  those of objects that exist (a vector, the live range) and are kept as element counts.
* `ValueType` is the type parameter `α`. The compile-time test
  `std::is_trivially_copyable<ValueType>` that selects between the `memcpy`/`memmove`
  overloads and the element-wise overloads is the field `trivially_copyable` of `params`,
  and `sizeof(ValueType)` is its field `element_size`.
* The mutex is dropped (every public operation is one atomic step). The condition-variable
  wait of the blocking `dequeue` is the guard of the step: the blocking operations return
  `none` when the wait predicate does not hold.
* Reading a slot that holds no object, or writing outside the store, is outside the contract
  of the C++ code. The embedding is total there: such a read leaves its destination as it
  was, such a write is dropped.
* The theorems about enqueueing assume `0 < alloc_size` (otherwise the store never grows) and
  `fits`: the capacity the call may request is a `std::size_t` value, so that the request
  does not wrap. What they say about the slots of the store is said under `bytes_fit` or
  `store_fits`: the byte count of the store is a `std::size_t` value too, so that the store
  really has `m_capacity` slots. The statements about the three counters alone need neither.

The file also embeds the binary literal of `dab/literals/binary_literal.h`, the member
functions `build_header` and `build` of `msc_data_group_generator.cpp` (the declarations they
take from headers outside the sources are the fields of `msc_declarations`), and the
descriptors of `dab/types/transmission_mode.h` and `dab/constants/transmission_modes.h`,
whose members are computed with the conversions to their fixed-width types.
-/

namespace dab

/-- The number of values of `std::size_t`. -/
def size_mod : Nat := 2 ^ 64

/-- Addition of two `std::size_t` values. -/
def sz_add (a b : Nat) : Nat := (a + b) % size_mod

/-- Subtraction of two `std::size_t` values. -/
def sz_sub (a b : Nat) : Nat := (a + (size_mod - b % size_mod)) % size_mod

/-- Multiplication of two `std::size_t` values. -/
def sz_mul (a b : Nat) : Nat := (a * b) % size_mod

/-- The constant `kQueueDefaultBlockSize`. -/
def kQueueDefaultBlockSize : Nat := 8

/-- The constant `kQueueDefaultGroupSize`. -/
def kQueueDefaultGroupSize : Nat := 4

/-- The template arguments of `queue` other than the element type itself, and what the
code asks of the element type: whether it is trivially copyable and its size in bytes, the
static member `element_size = sizeof(value_type)`. -/
structure params where
  BlockSize : Nat
  GroupSize : Nat
  trivially_copyable : Bool
  element_size : Nat
deriving DecidableEq

/-- The default template arguments, for an element type of the given kind and size. -/
def default_params (trivially_copyable : Bool) (element_size : Nat) : params :=
  { BlockSize := kQueueDefaultBlockSize, GroupSize := kQueueDefaultGroupSize,
    trivially_copyable := trivially_copyable, element_size := element_size }

/-- The template arguments `P` with an element type for which
`std::is_trivially_copyable` holds: the `memcpy`/`memmove` overloads are selected. -/
def bulk_path (P : params) : params := { P with trivially_copyable := true }

/-- The template arguments `P` with an element type for which
`std::is_trivially_copyable` does not hold: the element-wise overloads are selected. -/
def element_path (P : params) : params := { P with trivially_copyable := false }

/-- The data members of `queue` (without the mutex and the condition variable). -/
structure queue (α : Type) where
  m_capacity : Nat
  m_current : Nat
  m_size : Nat
  m_backingStore : List (Option α)
deriving DecidableEq

section store

variable {α : Type}

/-- Copy the slots `vals` into `store`, starting at slot `start`. -/
def write_slots : List (Option α) → Nat → List (Option α) → List (Option α)
  | store, _, [] => store
  | store, start, v :: vals => write_slots (store.set start v) (start + 1) vals

/-- The `n` slots of `store` from slot `start` on. -/
def read_slots (store : List (Option α)) (start n : Nat) : List (Option α) :=
  (List.range n).map (fun i => store.getD (start + i) none)

/-- The call `std::memcpy(dst + dstIdx, src + srcIdx, n * element_size)` on slots; with
`dst = src` it is `std::memmove`, which reads the whole source range before writing. -/
def memcpy (dst : List (Option α)) (dstIdx : Nat) (src : List (Option α)) (srcIdx n : Nat) :
    List (Option α) :=
  write_slots dst dstIdx (read_slots src srcIdx n)

/-- The object in slot `i`, to be assigned to a variable that holds `fallback`. -/
def slot_value (store : List (Option α)) (i : Nat) (fallback : α) : α :=
  match store.getD i none with
  | some v => v
  | none => fallback

/-- The call `std::memcpy(block.data(), store + srcIdx, block.size() * sizeof(ValueType))`. -/
def memcpy_out (store : List (Option α)) : Nat → List α → List α
  | _, [] => []
  | srcIdx, entry :: rest => slot_value store srcIdx entry :: memcpy_out store (srcIdx + 1) rest

/-- The loop of the element-wise `do_enqueue_block_impl`:
`for(auto && entry : block) new (target++) value_type{std::move(entry)};`. -/
def enqueue_each : List (Option α) → Nat → List α → List (Option α)
  | store, _, [] => store
  | store, target, entry :: rest => enqueue_each (store.set target (some entry)) (target + 1) rest

/-- The loop of the element-wise `do_dequeue_block_impl`:
`for(auto & entry : block) { entry = std::move(*source); (source++)->~value_type(); }`.
It returns the store and the block. -/
def dequeue_each : List (Option α) → Nat → List α → List (Option α) × List α
  | store, _, [] => (store, [])
  | store, source, entry :: rest =>
    let moved := slot_value store source entry
    let r := dequeue_each (store.set source none) (source + 1) rest
    (r.1, moved :: r.2)

/-- The loop of the element-wise `shift_down_impl`, with `n` iterations left:
`new (base_pointer() + idx) value_type{std::move(*sourcePointer)}; sourcePointer->~value_type();`
where `sourcePointer = dequeue_pointer() + idx`. -/
def shift_each (current : Nat) : Nat → Nat → List (Option α) → List (Option α)
  | 0, _, store => store
  | n + 1, idx, store =>
    let constructed := store.set idx (store.getD (current + idx) none)
    let destroyed := constructed.set (current + idx) none
    shift_each current n (idx + 1) destroyed

/-- The loop of the element-wise `transfer`, with `n` iterations left; it returns the old
store and the target store. -/
def transfer_each (current : Nat) :
    Nat → Nat → List (Option α) → List (Option α) → List (Option α) × List (Option α)
  | 0, _, store, target => (store, target)
  | n + 1, idx, store, target =>
    let constructed := target.set idx (store.getD (current + idx) none)
    let destroyed := store.set (current + idx) none
    transfer_each current n (idx + 1) destroyed constructed

end store

namespace queue

variable {α : Type}

/-- The static member `alloc_size = block_size * group_size`. -/
def alloc_size (P : params) : Nat := sz_mul P.BlockSize P.GroupSize

/-- The member `allocate`: `new char[element_size * elements]`, raw storage with no element
constructed. The byte count is a `std::size_t` product; the store has a slot for every whole
element that fits into that many bytes, so it has `elements` slots only if the product does
not wrap. -/
def allocate (P : params) (elements : Nat) : List (Option α) :=
  List.replicate (sz_mul P.element_size elements / P.element_size) none

/-- The constructor `queue(nofInitialGroups)`. -/
def construct (P : params) (nofInitialGroups : Nat) : queue α :=
  let capacity := sz_mul nofInitialGroups (alloc_size P)
  { m_capacity := capacity, m_current := 0, m_size := 0, m_backingStore := allocate P capacity }

/-- The member `size`. -/
def size (q : queue α) : Nat := q.m_size

/-- The member `approximate_size`. -/
def approximate_size (q : queue α) : Nat := q.m_size

/-- The member `dequeue_pointer`, as a slot index. -/
def dequeue_pointer (q : queue α) : Nat := q.m_current

/-- The member `enqueue_pointer`, as a slot index. -/
def enqueue_pointer (q : queue α) : Nat := q.dequeue_pointer + q.m_size

/-- The member `available`: `m_capacity - m_current - m_size`. -/
def available (q : queue α) : Nat := sz_sub (sz_sub q.m_capacity q.m_current) q.m_size

/-- The member `transfer`, both overloads; it returns the filled target store. -/
def transfer (P : params) (q : queue α) (targetStore : List (Option α)) : List (Option α) :=
  if P.trivially_copyable then
    memcpy targetStore 0 q.m_backingStore q.dequeue_pointer q.m_size
  else
    (transfer_each q.dequeue_pointer q.m_size 0 q.m_backingStore targetStore).2

/-- The member `resize`. -/
def resize (P : params) (q : queue α) (elements : Nat) : queue α :=
  let newBackingStore := transfer P q (allocate P elements)
  { m_backingStore := newBackingStore, m_current := 0, m_capacity := elements, m_size := q.m_size }

/-- The member `shift_down_impl`, both overloads. -/
def shift_down_impl (P : params) (q : queue α) : queue α :=
  if P.trivially_copyable then
    { q with m_backingStore := memcpy q.m_backingStore 0 q.m_backingStore q.dequeue_pointer q.m_size }
  else
    { q with m_backingStore := shift_each q.dequeue_pointer q.m_size 0 q.m_backingStore }

/-- The member `shift_down`. -/
def shift_down (P : params) (q : queue α) : queue α :=
  { shift_down_impl P q with m_current := 0 }

/-- The member `do_enqueue`. -/
def do_enqueue (P : params) (q : queue α) (element : α) : queue α :=
  let q1 := if q.available = 0 then resize P q (sz_add q.m_capacity (alloc_size P)) else q
  let q2 := { q1 with m_backingStore := q1.m_backingStore.set q1.enqueue_pointer (some element) }
  { q2 with m_size := sz_add q2.m_size 1 }

/-- The member `do_enqueue_block_impl`, both overloads. -/
def do_enqueue_block_impl (P : params) (q : queue α) (block : List α) : queue α :=
  if P.trivially_copyable then
    { q with m_backingStore :=
        memcpy q.m_backingStore q.enqueue_pointer (block.map some) 0 block.length }
  else
    { q with m_backingStore := enqueue_each q.m_backingStore (q.dequeue_pointer + q.m_size) block }

/-- The member `do_enqueue_block`. -/
def do_enqueue_block (P : params) (q : queue α) (block : List α) : queue α :=
  let blockSize := block.length
  let availableSlots := q.available
  let q1 :=
    if blockSize ≥ availableSlots then
      let factor := sz_add (sz_sub blockSize availableSlots / alloc_size P) 1
      resize P q (sz_add q.m_capacity (sz_mul factor (alloc_size P)))
    else q
  let q2 := do_enqueue_block_impl P q1 block
  { q2 with m_size := sz_add q2.m_size blockSize }

/-- The member `do_dequeue`; it returns the queue and the new value of `target`. -/
def do_dequeue (P : params) (q : queue α) (target : α) : queue α × α :=
  let moved := slot_value q.m_backingStore q.dequeue_pointer target
  let q1 := { q with m_backingStore := q.m_backingStore.set q.dequeue_pointer none }
  let q2 := { q1 with m_size := sz_sub q1.m_size 1 }
  let q3 := { q2 with m_current := sz_add q2.m_current 1 }
  (if q3.m_current > q3.m_capacity / 2 then shift_down P q3 else q3, moved)

/-- The member `do_dequeue_block_impl`, both overloads; it returns the queue and the block. -/
def do_dequeue_block_impl (P : params) (q : queue α) (block : List α) : queue α × List α :=
  if P.trivially_copyable then
    (q, memcpy_out q.m_backingStore q.dequeue_pointer block)
  else
    let r := dequeue_each q.m_backingStore q.dequeue_pointer block
    ({ q with m_backingStore := r.1 }, r.2)

/-- The member `do_dequeue_block`; it returns the queue and the new contents of `block`. -/
def do_dequeue_block (P : params) (q : queue α) (block : List α) : queue α × List α :=
  let r := do_dequeue_block_impl P q block
  let q1 : queue α := { r.1 with m_size := sz_sub r.1.m_size r.2.length }
  let q2 : queue α := { q1 with m_current := sz_add q1.m_current r.2.length }
  (if q2.m_current > q2.m_capacity / 2 then shift_down P q2 else q2, r.2)

/-- The member `enqueue(ValueType)`, both overloads. -/
def enqueue (P : params) (q : queue α) (elem : α) : queue α := do_enqueue P q elem

/-- The member `enqueue(std::vector<ValueType>)`, both overloads. -/
def enqueue_block (P : params) (q : queue α) (block : List α) : queue α :=
  do_enqueue_block P q block

/-- The member `dequeue(ValueType &)`: `none` while the wait predicate `m_size > 0` is false. -/
def dequeue (P : params) (q : queue α) (target : α) : Option (queue α × α) :=
  if q.m_size > 0 then some (do_dequeue P q target) else none

/-- The member `dequeue(std::vector<ValueType> &)`: `none` while the wait predicate
`m_size >= block.size()` is false. -/
def dequeue_block (P : params) (q : queue α) (block : List α) : Option (queue α × List α) :=
  if q.m_size ≥ block.length then some (do_dequeue_block P q block) else none

/-- The member `try_dequeue(ValueType &)`: the flag, the queue and the new value of `target`. -/
def try_dequeue (P : params) (q : queue α) (target : α) : Bool × queue α × α :=
  if q.m_size = 0 then (false, q, target)
  else
    let r := do_dequeue P q target
    (true, r.1, r.2)

/-- The member `try_dequeue(std::vector<ValueType> &)`: the flag, the queue and the new
contents of `block`. -/
def try_dequeue_block (P : params) (q : queue α) (block : List α) : Bool × queue α × List α :=
  if q.m_size < block.length then (false, q, block)
  else
    let r := do_dequeue_block P q block
    (true, r.1, r.2)

/-- The member `clear`. -/
def clear (q : queue α) : queue α := { q with m_size := 0, m_current := 0 }

/-- The live elements: the store slots `[m_current, m_current + m_size)` in index order. -/
def contents (q : queue α) : List (Option α) :=
  (q.m_backingStore.drop q.m_current).take q.m_size

/-- The store has `m_capacity` slots, the live range lies inside it, the capacity is a
`std::size_t` value and every slot of the live range holds an object. -/
structure well_formed (q : queue α) : Prop where
  store_length : q.m_backingStore.length = q.m_capacity
  bounds : q.m_current + q.m_size ≤ q.m_capacity
  capacity_lt : q.m_capacity < size_mod
  live : ∀ i, q.m_current ≤ i → i < q.m_current + q.m_size → ∃ v, q.m_backingStore[i]? = some (some v)

/-- The two counters of the live range are consistent with the capacity, and the capacity
is a `std::size_t` value. Nothing is said about the store. -/
structure counters_ok (q : queue α) : Prop where
  bounds : q.m_current + q.m_size ≤ q.m_capacity
  capacity_lt : q.m_capacity < size_mod

/-- An enqueue of `n` elements can be served as far as the counters go: the capacity it may
request is a `std::size_t` value, so the request does not wrap. -/
def fits (P : params) (q : queue α) (n : Nat) : Prop :=
  q.m_capacity + n + alloc_size P < size_mod

instance (P : params) (q : queue α) (n : Nat) : Decidable (fits P q n) :=
  inferInstanceAs (Decidable (q.m_capacity + n + alloc_size P < size_mod))

/-- The byte count `element_size * elements` that `allocate(elements)` requests is a
`std::size_t` value (and `sizeof(ValueType)` is positive, as it is for every type): the
product does not wrap, and the store has `elements` slots. -/
def bytes_fit (P : params) (elements : Nat) : Prop :=
  0 < P.element_size ∧ P.element_size * elements < size_mod

instance (P : params) (elements : Nat) : Decidable (bytes_fit P elements) :=
  inferInstanceAs (Decidable (0 < P.element_size ∧ P.element_size * elements < size_mod))

/-- The store that an enqueue of `n` elements may request has a byte count that is a
`std::size_t` value: `bytes_fit` for the largest capacity the call may ask for. -/
def store_fits (P : params) (q : queue α) (n : Nat) : Prop :=
  bytes_fit P (q.m_capacity + n + alloc_size P)

instance (P : params) (q : queue α) (n : Nat) : Decidable (store_fits P q n) :=
  inferInstanceAs (Decidable (bytes_fit P (q.m_capacity + n + alloc_size P)))

/-- The states a queue goes through: construction followed by any sequence of public
operations, the blocking ones taken when their wait predicate holds. -/
inductive reachable (P : params) : queue α → Prop
  | construct (nofInitialGroups : Nat) : reachable P (construct P nofInitialGroups)
  | enqueue {q : queue α} (elem : α) :
      reachable P q → fits P q 1 → reachable P (enqueue P q elem)
  | enqueue_block {q : queue α} (block : List α) :
      reachable P q → fits P q block.length → reachable P (enqueue_block P q block)
  | dequeue {q r : queue α} (target out : α) :
      reachable P q → dequeue P q target = some (r, out) → reachable P r
  | dequeue_block {q r : queue α} (block out : List α) :
      reachable P q → dequeue_block P q block = some (r, out) → reachable P r
  | try_dequeue {q : queue α} (target : α) :
      reachable P q → reachable P (try_dequeue P q target).2.1
  | try_dequeue_block {q : queue α} (block : List α) :
      reachable P q → reachable P (try_dequeue_block P q block).2.1
  | clear {q : queue α} : reachable P q → reachable P (clear q)

/-- One call of `enqueue(ValueType)` per element of `xs`, in order. -/
def enqueue_all (P : params) (q : queue α) (xs : List α) : queue α :=
  xs.foldl (enqueue P) q

/-- Calls `dequeue(target)` `n` times in a row on the same variable `target` and collects
the value of `target` after each call; `none` if one of the calls has to wait. -/
def dequeue_n (P : params) : Nat → queue α → α → Option (queue α × List α)
  | 0, q, _ => some (q, [])
  | n + 1, q, target =>
    match dequeue P q target with
    | none => none
    | some (q1, v) =>
      match dequeue_n P n q1 v with
      | none => none
      | some (q2, vs) => some (q2, v :: vs)

/-- One call of a single-element operation: `enqueue(elem)` or the blocking `dequeue(target)`. -/
inductive single_call (α : Type) where
  | enqueue (elem : α) : single_call α
  | dequeue (target : α) : single_call α
deriving DecidableEq

/-- The queue after one single-element call; `none` if the call is a `dequeue` that has to
wait. -/
def call_single (P : params) (q : queue α) : single_call α → Option (queue α)
  | single_call.enqueue elem => some (enqueue P q elem)
  | single_call.dequeue target => (dequeue P q target).map Prod.fst

/-- During the calls `calls`, made one after the other from the state `q` on (up to a call
that has to wait), the live count `m_size` never exceeds `bound`: neither in `q` nor after
any of the calls. -/
def count_stays_within (P : params) (bound : Nat) : queue α → List (single_call α) → Bool
  | q, [] => decide (q.m_size ≤ bound)
  | q, c :: cs =>
    decide (q.m_size ≤ bound) &&
      match call_single P q c with
      | none => true
      | some q1 => count_stays_within P bound q1 cs

/-- During the calls `calls`, made one after the other from the state `q` on (up to a call
that has to wait), `m_capacity` equals `capacity`: in `q` and after every one of the calls. -/
def capacity_stays (P : params) (capacity : Nat) : queue α → List (single_call α) → Bool
  | q, [] => decide (q.m_capacity = capacity)
  | q, c :: cs =>
    decide (q.m_capacity = capacity) &&
      match call_single P q c with
      | none => true
      | some q1 => capacity_stays P capacity q1 cs

/-- The states a queue goes through from the state `q0` on, by any sequence of public
operations; calls of `clear` are part of the sequences only if `with_clear` is set. -/
inductive reachable_from (P : params) (with_clear : Bool) (q0 : queue α) : queue α → Prop
  | start : reachable_from P with_clear q0 q0
  | enqueue {q : queue α} (elem : α) :
      reachable_from P with_clear q0 q → fits P q 1 →
      reachable_from P with_clear q0 (enqueue P q elem)
  | enqueue_block {q : queue α} (block : List α) :
      reachable_from P with_clear q0 q → fits P q block.length →
      reachable_from P with_clear q0 (enqueue_block P q block)
  | dequeue {q r : queue α} (target out : α) :
      reachable_from P with_clear q0 q → dequeue P q target = some (r, out) →
      reachable_from P with_clear q0 r
  | dequeue_block {q r : queue α} (block out : List α) :
      reachable_from P with_clear q0 q → dequeue_block P q block = some (r, out) →
      reachable_from P with_clear q0 r
  | try_dequeue {q : queue α} (target : α) :
      reachable_from P with_clear q0 q →
      reachable_from P with_clear q0 (try_dequeue P q target).2.1
  | try_dequeue_block {q : queue α} (block : List α) :
      reachable_from P with_clear q0 q →
      reachable_from P with_clear q0 (try_dequeue_block P q block).2.1
  | clear {q : queue α} :
      with_clear = true → reachable_from P with_clear q0 q →
      reachable_from P with_clear q0 (clear q)

/-- No slot outside the live range `[m_current, m_current + m_size)` holds an object. -/
def dead_outside_live (q : queue α) : Prop :=
  ∀ i v, q.m_backingStore[i]? = some (some v) → q.m_current ≤ i ∧ i < q.m_current + q.m_size

/-- Exactly the slots of the live range `[m_current, m_current + m_size)` hold an object. -/
def constructed_exactly_live (q : queue α) : Prop :=
  ∀ i, i < q.m_backingStore.length →
    ((∃ v, q.m_backingStore[i]? = some (some v)) ↔
      (q.m_current ≤ i ∧ i < q.m_current + q.m_size))

/-- The implicitly defined destructor `~queue()`: the source declares none, so destroying a
queue only destroys its data members, and the deleter of `std::unique_ptr<char[]>` releases
the bytes of the store with `delete[]`. The result is the store as it is at that moment; a
slot that is still `some v` then holds an object whose destructor is never run. -/
def implicit_destructor (q : queue α) : List (Option α) := q.m_backingStore

end queue

namespace literals

/-- The number of values of `unsigned long long`. -/
def ull_mod : Nat := 2 ^ 64

namespace impl

/-- The function `impl::two_to`: `power ? 2ull * two_to(power - 1) : 1ull`. -/
def two_to : Nat → Nat
  | 0 => 1
  | power + 1 => (2 * two_to power) % ull_mod

/-- The member `value` of `impl::parse_binary<Digits...>`: the specialisations for a leading
`'0'`, for a leading `'1'` and for the empty pack. The primary template is only declared, so
any other leading character has no `value` (the program does not compile): `none`. -/
def parse_binary : List Char → Option Nat
  | [] => some 0
  | c :: digits =>
    if c = '0' then parse_binary digits
    else if c = '1' then
      (parse_binary digits).map (fun value => (two_to digits.length + value) % ull_mod)
    else none

end impl

/-- The literal operator template `operator"" _b<Digits...>()`. -/
def _b (digits : List Char) : Option Nat := impl.parse_binary digits

/-- The digit string consists of the characters `'0'` and `'1'` only. -/
def binary_digits (digits : List Char) : Prop := ∀ c ∈ digits, c = '0' ∨ c = '1'

/-- The number whose binary representation is the digit string `d_(n-1) ... d_0`: the sum of
`d_i * 2 ^ i`, the first character being the most significant digit. -/
def binary_value : List Char → Nat
  | [] => 0
  | c :: digits => (if c = '1' then 1 else 0) * 2 ^ digits.length + binary_value digits

end literals

/-- The declarations that `msc_data_group_generator.cpp` takes from headers that are not
part of the sources at hand: the width in bits of the unsigned integer type of the members
`m_continuity_index` and `m_repetition_index` (8 for `std::uint8_t`), the constant
`constants::kDataGroupTypes[0]`, and the helpers `concat_vectors_inplace` and `genCRC16`.
`concat_vectors_inplace` receives both vectors by reference and yields the two vectors as
they are after the call; `genCRC16` yields the vector it returns. -/
structure msc_declarations where
  index_bits : Nat
  kDataGroupTypes_0 : Nat
  concat_vectors_inplace : List Nat → List Nat → List Nat × List Nat
  genCRC16 : List Nat → List Nat

/-- The data members of `msc_data_group_generator`; a `byte_vector_t` is a list of bytes. -/
structure msc_data_group_generator where
  m_continuity_index : Nat
  m_repetition_index : Nat
  m_last_ip_datagram : List Nat
deriving DecidableEq

namespace msc_data_group_generator

/-- Conversion of a value to `std::uint8_t`, the element type of `byte_vector_t`. -/
def to_byte (x : Nat) : Nat := x % 256

/-- Conversion of a value to the type of the two index members. -/
def to_index (E : msc_declarations) (x : Nat) : Nat := x % 2 ^ E.index_bits

/-- The member `build_header`. -/
def build_header (E : msc_declarations) (g : msc_data_group_generator) : List Nat :=
  let h0 := to_byte (0 <<< 7)
  let h0 := to_byte (h0 ||| (1 <<< 6))
  let h0 := to_byte (h0 ||| (0 <<< 5))
  let h0 := to_byte (h0 ||| (0 <<< 4))
  let h1 := to_byte E.kDataGroupTypes_0
  let h1 := to_byte (h1 ||| (g.m_continuity_index <<< 4))
  let h1 := to_byte (h1 ||| g.m_repetition_index)
  [h0, h1]

/-- The member `build`: the generator after the call, the returned data group, and the
argument `ip_datagram` (passed by reference) as it is after the call. The sum
`m_continuity_index + 1` is formed without wrap-around: in `int` for an index type narrower
than `int`, and for a wider unsigned type a wrap at `2 ^ index_bits` does not change the
remainder modulo 16. -/
def build (E : msc_declarations) (g : msc_data_group_generator) (ip_datagram : List Nat) :
    msc_data_group_generator × List Nat × List Nat :=
  let g1 : msc_data_group_generator :=
    if ip_datagram ≠ g.m_last_ip_datagram then
      { g with m_continuity_index := to_index E ((g.m_continuity_index + 1) % 16),
               m_repetition_index := to_index E 0 }
    else
      { g with m_repetition_index :=
          if g.m_repetition_index > 0 then g.m_repetition_index - 1 else to_index E 0 }
  let g2 : msc_data_group_generator := { g1 with m_last_ip_datagram := ip_datagram }
  let header := build_header E g2
  let appended := E.concat_vectors_inplace header ip_datagram
  let header := appended.1
  let ip_datagram := appended.2
  let crc := E.genCRC16 header
  let header := (E.concat_vectors_inplace header crc).1
  (g2, header, ip_datagram)

end msc_data_group_generator

namespace types

/-- Conversion of an `int` or `std::size_t` value to `std::uint8_t`. -/
def to_uint8 (x : Int) : Nat := (x % 256).toNat

/-- Conversion of an `int` or `std::size_t` value to `std::uint16_t`. -/
def to_uint16 (x : Int) : Nat := (x % 65536).toNat

/-- Conversion of an `int` value to `std::uint32_t`. -/
def to_uint32 (x : Int) : Nat := (x % 4294967296).toNat

namespace impl

/-- The function `next_power_of_two(value, start)`. The first argument bounds the number of
recursive calls the evaluation may make; the result is `none` when it would need more. The
product `start * 2` is a `std::size_t` product. -/
def next_power_of_two : Nat → Nat → Nat → Option Nat
  | 0, value, start => if start > value then some start else none
  | calls + 1, value, start =>
    if start > value then some start else next_power_of_two calls value (sz_mul start 2)

end impl

/-- The data members of `transmission_mode`, in the order of their declaration. -/
structure transmission_mode where
  id : Nat
  carriers : Nat
  frame_symbols : Nat
  fic_symbols : Nat
  frame_fibs : Nat
  frame_cifs : Nat
  frame_duration : Nat
  guard_duration : Nat
  useful_duration : Nat
  null_duration : Nat
  symbol_duration : Nat
  msc_symbols : Nat
  fib_codeword_bits : Nat
  punctured_codeword_size : Nat
  symbol_bits : Nat
  fft_length : Nat
deriving DecidableEq

namespace transmission_mode

/-- The constructor of `transmission_mode` followed by the default member initializers. The
arguments are converted to the parameter types; the arithmetic of the initializers is `int`
arithmetic on promoted operands (no `int` overflow is possible for operands of 8 and 16
bits), converted to the type of the member. The result is `none` when `frame_cifs` is 0
(division by zero) or when `next_power_of_two` does not return within 64 recursive calls. -/
def construct (id carriers frame_symbols fic_symbols frame_fibs frame_cifs frame_duration
    guard_duration useful_duration null_duration : Nat) : Option transmission_mode :=
  let p_id := to_uint8 id
  let p_carriers := to_uint16 carriers
  let p_frame_symbols := to_uint8 frame_symbols
  let p_fic_symbols := to_uint8 fic_symbols
  let p_frame_fibs := to_uint8 frame_fibs
  let p_frame_cifs := to_uint8 frame_cifs
  let p_frame_duration := to_uint32 frame_duration
  let p_guard_duration := to_uint16 guard_duration
  let p_useful_duration := to_uint16 useful_duration
  let p_null_duration := to_uint16 null_duration
  let m_frame_symbols := to_uint8 ((p_frame_symbols : Int) - 1)
  let m_symbol_duration := to_uint16 ((p_useful_duration : Int) + (p_guard_duration : Int))
  let m_msc_symbols := to_uint8 ((m_frame_symbols : Int) - (p_fic_symbols : Int))
  if p_frame_cifs = 0 then none
  else
    let m_fib_codeword_bits :=
      to_uint16 (Int.tdiv ((p_frame_fibs : Int) * 256) (p_frame_cifs : Int))
    let m_punctured_codeword_size := to_uint16 ((m_fib_codeword_bits : Int) * 3)
    let m_symbol_bits := to_uint16 ((p_carriers : Int) * 2)
    match impl.next_power_of_two 64 p_carriers 1 with
    | none => none
    | some power =>
      some
        { id := p_id, carriers := p_carriers, frame_symbols := m_frame_symbols,
          fic_symbols := p_fic_symbols, frame_fibs := p_frame_fibs,
          frame_cifs := p_frame_cifs, frame_duration := p_frame_duration,
          guard_duration := p_guard_duration, useful_duration := p_useful_duration,
          null_duration := p_null_duration, symbol_duration := m_symbol_duration,
          msc_symbols := m_msc_symbols, fib_codeword_bits := m_fib_codeword_bits,
          punctured_codeword_size := m_punctured_codeword_size,
          symbol_bits := m_symbol_bits, fft_length := to_uint16 (power : Int) }

end transmission_mode

end types

/-- The descriptor `kTransmissionMode1`. -/
def kTransmissionMode1 : Option types.transmission_mode :=
  types.transmission_mode.construct 1 1536 76 3 12 4 196608 504 2048 2656

/-- The descriptor `kTransmissionMode2`. -/
def kTransmissionMode2 : Option types.transmission_mode :=
  types.transmission_mode.construct 2 384 76 3 3 1 49152 126 512 664

/-- The descriptor `kTransmissionMode3`. -/
def kTransmissionMode3 : Option types.transmission_mode :=
  types.transmission_mode.construct 3 192 153 8 4 1 49152 63 256 345

/-- The descriptor `kTransmissionMode4`. -/
def kTransmissionMode4 : Option types.transmission_mode :=
  types.transmission_mode.construct 4 768 76 3 6 2 98304 252 1024 1328

end dab

/-! ## Arithmetic on `std::size_t` and the slot operations -/

namespace dab

section store_lemmas
variable {α : Type}

theorem size_mod_eq : size_mod = 18446744073709551616 := by decide

theorem sz_add_eq {a b : Nat} (h : a + b < size_mod) : sz_add a b = a + b := by
  unfold sz_add; exact Nat.mod_eq_of_lt h

theorem sz_sub_eq {a b : Nat} (hb : b ≤ a) (ha : a < size_mod) : sz_sub a b = a - b := by
  unfold sz_sub; rw [size_mod_eq] at *; omega

theorem sz_mul_eq {a b : Nat} (h : a * b < size_mod) : sz_mul a b = a * b := by
  unfold sz_mul; exact Nat.mod_eq_of_lt h

theorem length_write_slots (vals : List (Option α)) (store : List (Option α)) (start : Nat) :
    (write_slots store start vals).length = store.length := by
  induction vals generalizing store start with
  | nil => rfl
  | cons v vals ih => simp [write_slots, ih]

theorem getElem?_write_slots (vals : List (Option α)) (store : List (Option α)) (start j : Nat) :
    (write_slots store start vals)[j]? =
      if start ≤ j ∧ j < start + vals.length ∧ j < store.length then vals[j - start]? else store[j]? := by
  induction vals generalizing store start with
  | nil =>
    simp only [write_slots, List.length_nil]
    rw [if_neg (by omega)]
  | cons v vals ih =>
    simp only [write_slots, ih, List.length_set, List.length_cons, List.getElem?_set]
    by_cases hj : j = start
    · subst hj
      by_cases hl : j < store.length
      · simp [hl]
      · have : store[j]? = none := List.getElem?_eq_none (by omega)
        simp [hl, this]
    · by_cases hlt : start < j
      · obtain ⟨k, rfl⟩ : ∃ k, j = start + 1 + k := ⟨j - start - 1, by omega⟩
        have e1 : start + 1 + k - (start + 1) = k := by omega
        have e2 : start + 1 + k - start = k + 1 := by omega
        rw [e1, e2, List.getElem?_cons_succ]
        have h3 : ¬ start = start + 1 + k := by omega
        simp only [h3, if_false]
        by_cases hc : start + 1 + k < start + 1 + vals.length ∧ start + 1 + k < store.length
        · have c1 : start + 1 ≤ start + 1 + k ∧ start + 1 + k < start + 1 + vals.length ∧ start + 1 + k < store.length := by omega
          have c2 : start ≤ start + 1 + k ∧ start + 1 + k < start + (vals.length + 1) ∧ start + 1 + k < store.length := by omega
          rw [if_pos c1, if_pos c2]
        · have c1 : ¬ (start + 1 ≤ start + 1 + k ∧ start + 1 + k < start + 1 + vals.length ∧ start + 1 + k < store.length) := by omega
          have c2 : ¬ (start ≤ start + 1 + k ∧ start + 1 + k < start + (vals.length + 1) ∧ start + 1 + k < store.length) := by omega
          rw [if_neg c1, if_neg c2]
      · have h1 : ¬ (start + 1 ≤ j ∧ j < start + 1 + vals.length ∧ j < store.length) := by omega
        have h2 : ¬ (start ≤ j ∧ j < start + (vals.length + 1) ∧ j < store.length) := by omega
        have h3 : ¬ start = j := by omega
        rw [if_neg h1, if_neg h2, if_neg h3]

theorem length_read_slots (store : List (Option α)) (start n : Nat) :
    (read_slots store start n).length = n := by
  simp [read_slots]

theorem getElem?_read_slots (store : List (Option α)) (start n j : Nat) :
    (read_slots store start n)[j]? = if j < n then some (store.getD (start + j) none) else none := by
  unfold read_slots
  by_cases h : j < n
  · simp [h, List.getElem?_range]
  · rw [if_neg h]; exact List.getElem?_eq_none (by simp; omega)


theorem enqueue_each_eq (block : List α) (store : List (Option α)) (target : Nat) :
    enqueue_each store target block = write_slots store target (block.map some) := by
  induction block generalizing store target with
  | nil => rfl
  | cons entry rest ih => simp [enqueue_each, write_slots, ih]

theorem read_slots_map_some (block : List α) :
    read_slots (block.map some) 0 block.length = block.map some := by
  apply List.ext_getElem?
  intro j
  rw [getElem?_read_slots]
  by_cases h : j < block.length
  · simp [h, List.getD_eq_getElem?_getD]
  · rw [if_neg h]; exact (List.getElem?_eq_none (by simp; omega)).symm

theorem memcpy_block_eq (block : List α) (store : List (Option α)) (target : Nat) :
    memcpy store target (block.map some) 0 block.length = write_slots store target (block.map some) := by
  unfold memcpy; rw [read_slots_map_some]

theorem getElem?_take_drop {β : Type} (s : List β) (a n j : Nat) :
    ((s.drop a).take n)[j]? = if j < n then s[a + j]? else none := by
  rw [List.getElem?_take, List.getElem?_drop]

theorem take_drop_eq_of_getElem? {β : Type} (s t : List β) (a b n : Nat)
    (h : ∀ j, j < n → s[a + j]? = t[b + j]?) :
    (s.drop a).take n = (t.drop b).take n := by
  apply List.ext_getElem?
  intro j
  rw [getElem?_take_drop, getElem?_take_drop]
  by_cases hj : j < n
  · rw [if_pos hj, if_pos hj, h j hj]
  · rw [if_neg hj, if_neg hj]

theorem live_of_mem {s : List (Option α)} {a n : Nat} (hlen : a + n ≤ s.length)
    (h : ∀ x ∈ (s.drop a).take n, ∃ v, x = some v) :
    ∀ i, a ≤ i → i < a + n → ∃ v, s[i]? = some (some v) := by
  intro i h1 h2
  obtain ⟨j, rfl⟩ : ∃ j, i = a + j := ⟨i - a, by omega⟩
  have hj : j < n := by omega
  have hlt : a + j < s.length := by omega
  have e : ((s.drop a).take n)[j]? = some (s[a + j]) := by
    rw [getElem?_take_drop, if_pos hj, List.getElem?_eq_getElem hlt]
  obtain ⟨v, hv⟩ := h _ (List.getElem?_mem e)
  exact ⟨v, by rw [List.getElem?_eq_getElem hlt, hv]⟩

theorem mem_of_live {s : List (Option α)} {a n : Nat}
    (h : ∀ i, a ≤ i → i < a + n → ∃ v, s[i]? = some (some v)) :
    ∀ x ∈ (s.drop a).take n, ∃ v, x = some v := by
  intro x hx
  obtain ⟨j, hj⟩ := List.mem_iff_getElem?.1 hx
  rw [getElem?_take_drop] at hj
  by_cases hjn : j < n
  · rw [if_pos hjn] at hj
    obtain ⟨v, hv⟩ := h (a + j) (by omega) (by omega)
    rw [hv] at hj
    exact ⟨v, (Option.some.inj hj).symm⟩
  · rw [if_neg hjn] at hj; cases hj

theorem length_memcpy_out (store : List (Option α)) (block : List α) (srcIdx : Nat) :
    (memcpy_out store srcIdx block).length = block.length := by
  induction block generalizing srcIdx with
  | nil => rfl
  | cons entry rest ih => simp [memcpy_out, ih]

theorem slot_value_set_ne (store : List (Option α)) (i j : Nat) (x : Option α) (fallback : α)
    (h : i ≠ j) : slot_value (store.set i x) j fallback = slot_value store j fallback := by
  unfold slot_value
  rw [List.getD_eq_getElem?_getD, List.getD_eq_getElem?_getD, List.getElem?_set, if_neg h]

theorem memcpy_out_set_lt (block : List α) (store : List (Option α)) (i srcIdx : Nat)
    (x : Option α) (h : i < srcIdx) :
    memcpy_out (store.set i x) srcIdx block = memcpy_out store srcIdx block := by
  induction block generalizing srcIdx with
  | nil => rfl
  | cons entry rest ih =>
    simp only [memcpy_out]
    rw [slot_value_set_ne _ _ _ _ _ (by omega), ih (srcIdx + 1) (by omega)]

theorem dequeue_each_snd (block : List α) (store : List (Option α)) (source : Nat) :
    (dequeue_each store source block).2 = memcpy_out store source block := by
  induction block generalizing store source with
  | nil => rfl
  | cons entry rest ih =>
    simp only [dequeue_each, memcpy_out]
    rw [ih, memcpy_out_set_lt _ _ _ _ _ (by omega)]

theorem length_dequeue_each (block : List α) (store : List (Option α)) (source : Nat) :
    (dequeue_each store source block).1.length = store.length := by
  induction block generalizing store source with
  | nil => rfl
  | cons entry rest ih => simp [dequeue_each, ih]

theorem getElem?_dequeue_each_ge (block : List α) (store : List (Option α)) (source j : Nat)
    (h : source + block.length ≤ j) :
    (dequeue_each store source block).1[j]? = store[j]? := by
  induction block generalizing store source with
  | nil => rfl
  | cons entry rest ih =>
    simp only [dequeue_each]
    simp only [List.length_cons] at h
    rw [ih _ _ (by omega), List.getElem?_set, if_neg (by omega)]

theorem map_some_memcpy_out (block : List α) (store : List (Option α)) (srcIdx : Nat)
    (h : ∀ i, srcIdx ≤ i → i < srcIdx + block.length → ∃ v, store[i]? = some (some v)) :
    (memcpy_out store srcIdx block).map some = (store.drop srcIdx).take block.length := by
  induction block generalizing srcIdx with
  | nil => simp [memcpy_out]
  | cons entry rest ih =>
    obtain ⟨v, hv⟩ := h srcIdx (Nat.le_refl _) (by simp)
    have hlt : srcIdx < store.length := by
      by_contra hc
      rw [List.getElem?_eq_none (by omega)] at hv
      cases hv
    have hd : store.drop srcIdx = some v :: store.drop (srcIdx + 1) := by
      rw [List.drop_eq_getElem_cons hlt]
      rw [List.getElem?_eq_getElem hlt] at hv
      rw [Option.some.inj hv]
    have hs : slot_value store srcIdx entry = v := by
      unfold slot_value
      rw [List.getD_eq_getElem?_getD, hv]
      rfl
    simp only [memcpy_out, List.map_cons, List.length_cons, hd, List.take_succ_cons, hs]
    rw [ih (srcIdx + 1) (fun i h1 h2 => h i (by omega) (by simp only [List.length_cons]; omega))]


theorem some_getD_eq_getElem? (s : List (Option α)) (j : Nat) (h : j < s.length) :
    some (s.getD j none) = s[j]? := by
  rw [List.getD_eq_getElem?_getD, List.getElem?_eq_getElem h]; rfl

theorem getD_set_ne (s : List (Option α)) (i j : Nat) (x : Option α) (h : i ≠ j) :
    (s.set i x).getD j none = s.getD j none := by
  rw [List.getD_eq_getElem?_getD, List.getD_eq_getElem?_getD, List.getElem?_set, if_neg h]

theorem length_shift_each (current n idx : Nat) (store : List (Option α)) :
    (shift_each current n idx store).length = store.length := by
  induction n generalizing idx store with
  | zero => rfl
  | succ n ih => simp [shift_each, ih]

theorem getElem?_shift_each_lt (current n idx j : Nat) (store : List (Option α))
    (hj : j < idx) :
    (shift_each current n idx store)[j]? = store[j]? := by
  induction n generalizing idx store with
  | zero => rfl
  | succ n ih =>
    simp only [shift_each]
    rw [ih (idx + 1) _ (by omega), List.getElem?_set, if_neg (by omega), List.getElem?_set,
      if_neg (by omega)]

theorem getElem?_shift_each (current n idx j : Nat) (store : List (Option α))
    (hc : idx + n ≤ current) (h1 : idx ≤ j) (h2 : j < idx + n) :
    (shift_each current n idx store)[j]? =
      if j < store.length then some (store.getD (current + j) none) else none := by
  induction n generalizing idx store with
  | zero => omega
  | succ n ih =>
    simp only [shift_each]
    by_cases hj : j = idx
    · subst hj
      rw [getElem?_shift_each_lt _ _ _ _ _ (by omega), List.getElem?_set, if_neg (by omega),
        List.getElem?_set, if_pos rfl]
    · rw [ih (idx + 1) _ (by omega) (by omega) (by omega), List.length_set, List.length_set,
        getD_set_ne _ _ _ _ (by omega), getD_set_ne _ _ _ _ (by omega)]

theorem length_transfer_each (current n idx : Nat) (store target : List (Option α)) :
    (transfer_each current n idx store target).2.length = target.length := by
  induction n generalizing idx store target with
  | zero => rfl
  | succ n ih => simp [transfer_each, ih]

theorem getElem?_transfer_each_lt (current n idx j : Nat) (store target : List (Option α))
    (hj : j < idx) :
    (transfer_each current n idx store target).2[j]? = target[j]? := by
  induction n generalizing idx store target with
  | zero => rfl
  | succ n ih =>
    simp only [transfer_each]
    rw [ih (idx + 1) _ _ (by omega), List.getElem?_set, if_neg (by omega)]

theorem getElem?_transfer_each (current n idx j : Nat) (store target : List (Option α))
    (h1 : idx ≤ j) (h2 : j < idx + n) :
    (transfer_each current n idx store target).2[j]? =
      if j < target.length then some (store.getD (current + j) none) else none := by
  induction n generalizing idx store target with
  | zero => omega
  | succ n ih =>
    simp only [transfer_each]
    by_cases hj : j = idx
    · subst hj
      rw [getElem?_transfer_each_lt _ _ _ _ _ _ (by omega), List.getElem?_set, if_pos rfl]
    · rw [ih (idx + 1) _ _ (by omega) (by omega), List.length_set,
        getD_set_ne _ _ _ _ (by omega)]

theorem getElem?_transfer_each_ge (current n idx j : Nat) (store target : List (Option α))
    (h : idx + n ≤ j) :
    (transfer_each current n idx store target).2[j]? = target[j]? := by
  induction n generalizing idx store target with
  | zero => rfl
  | succ n ih =>
    simp only [transfer_each]
    rw [ih (idx + 1) _ _ (by omega), List.getElem?_set, if_neg (by omega)]

theorem getElem?_memcpy (dst src : List (Option α)) (srcIdx n j : Nat) (h : j < n) :
    (memcpy dst 0 src srcIdx n)[j]? =
      if j < dst.length then some (src.getD (srcIdx + j) none) else none := by
  unfold memcpy
  rw [getElem?_write_slots, length_read_slots, getElem?_read_slots]
  by_cases hl : j < dst.length
  · rw [if_pos (by omega), if_pos hl, Nat.sub_zero, if_pos h]
  · rw [if_neg (by omega), if_neg hl]; exact List.getElem?_eq_none (by omega)

theorem length_memcpy (dst src : List (Option α)) (dstIdx srcIdx n : Nat) :
    (memcpy dst dstIdx src srcIdx n).length = dst.length := by
  unfold memcpy; rw [length_write_slots]

end store_lemmas

/-! ## Growth and compaction -/

namespace queue
section queue_lemmas
variable {α : Type}

theorem length_contents {q : queue α} (hq : well_formed q) : (contents q).length = q.m_size := by
  unfold contents
  rw [List.length_take, List.length_drop, hq.store_length]
  have := hq.bounds
  omega

theorem contents_all_some {q : queue α} (hq : well_formed q) :
    ∀ x ∈ contents q, ∃ v, x = some v :=
  mem_of_live hq.live

theorem well_formed_of_contents {q : queue α} (h1 : q.m_backingStore.length = q.m_capacity)
    (h2 : q.m_current + q.m_size ≤ q.m_capacity) (h3 : q.m_capacity < size_mod)
    (h4 : ∀ x ∈ contents q, ∃ v, x = some v) : well_formed q :=
  ⟨h1, h2, h3, live_of_mem (by omega) h4⟩

theorem counters_of_well_formed {q : queue α} (hq : well_formed q) : counters_ok q :=
  ⟨hq.bounds, hq.capacity_lt⟩

theorem bytes_fit_mono (P : params) {m n : Nat} (h : m ≤ n) (hb : bytes_fit P n) :
    bytes_fit P m :=
  ⟨hb.1, Nat.lt_of_le_of_lt (Nat.mul_le_mul_left _ h) hb.2⟩

theorem bytes_fit_lt (P : params) {n : Nat} (hb : bytes_fit P n) : n < size_mod := by
  have h1 := hb.1
  have h2 := hb.2
  have h3 : 1 * n ≤ P.element_size * n := Nat.mul_le_mul_right n h1
  omega

theorem length_allocate (P : params) {elements : Nat} (hb : bytes_fit P elements) :
    (allocate P elements : List (Option α)).length = elements := by
  unfold allocate
  rw [List.length_replicate, sz_mul_eq hb.2, Nat.mul_div_cancel_left _ hb.1]

theorem getElem?_allocate (P : params) (elements i : Nat) (v : α) :
    (allocate P elements : List (Option α))[i]? ≠ some (some v) := by
  unfold allocate
  rw [List.getElem?_replicate]
  intro h
  split at h <;> cases h

theorem available_eq {q : queue α} (hq : counters_ok q) :
    available q = q.m_capacity - q.m_current - q.m_size := by
  have h1 := hq.bounds
  have h2 := hq.capacity_lt
  unfold available
  rw [sz_sub_eq (by omega) h2, sz_sub_eq (by omega) (by omega)]

theorem length_transfer (P : params) (q : queue α) (target : List (Option α)) :
    (transfer P q target).length = target.length := by
  unfold transfer
  split
  · exact length_memcpy _ _ _ _ _
  · exact length_transfer_each _ _ _ _ _

theorem transfer_bulk_element (P : params) (q : queue α) (target : List (Option α)) :
    transfer (bulk_path P) q target = transfer (element_path P) q target := by
  apply List.ext_getElem?
  intro j
  show (memcpy target 0 q.m_backingStore q.dequeue_pointer q.m_size)[j]? =
    (transfer_each q.dequeue_pointer q.m_size 0 q.m_backingStore target).2[j]?
  by_cases h : j < q.m_size
  · rw [getElem?_memcpy _ _ _ _ _ h,
      getElem?_transfer_each _ _ _ _ _ _ (Nat.zero_le _) (by omega)]
  · rw [getElem?_transfer_each_ge _ _ _ _ _ _ (by omega)]
    unfold memcpy
    rw [getElem?_write_slots, length_read_slots, if_neg (by omega)]

theorem getElem?_transfer (P : params) {q : queue α} (hq : well_formed q)
    (target : List (Option α)) (j : Nat) (h1 : j < q.m_size) (h2 : j < target.length) :
    (transfer P q target)[j]? = q.m_backingStore[q.m_current + j]? := by
  have hb := hq.bounds
  have hl := hq.store_length
  have e : some (q.m_backingStore.getD (q.m_current + j) none) = q.m_backingStore[q.m_current + j]? :=
    some_getD_eq_getElem? _ _ (by omega)
  unfold transfer dequeue_pointer
  split
  · rw [getElem?_memcpy _ _ _ _ _ h1, if_pos h2, e]
  · rw [getElem?_transfer_each _ _ _ _ _ _ (Nat.zero_le _) (by omega), if_pos h2, e]

theorem resize_capacity (P : params) (q : queue α) (elements : Nat) :
    (resize P q elements).m_capacity = elements := rfl

theorem resize_current (P : params) (q : queue α) (elements : Nat) :
    (resize P q elements).m_current = 0 := rfl

theorem resize_size (P : params) (q : queue α) (elements : Nat) :
    (resize P q elements).m_size = q.m_size := rfl

theorem resize_store (P : params) (q : queue α) (elements : Nat) :
    (resize P q elements).m_backingStore = transfer P q (allocate P elements) := rfl

theorem resize_bulk_element (P : params) (q : queue α) (elements : Nat) :
    resize (bulk_path P) q elements = resize (element_path P) q elements := by
  have ha : (allocate (bulk_path P) elements : List (Option α)) =
      allocate (element_path P) elements := rfl
  unfold resize
  rw [transfer_bulk_element, ha]

theorem resize_contents (P : params) {q : queue α} (hq : well_formed q) (elements : Nat)
    (h : q.m_size ≤ elements) (hbytes : bytes_fit P elements) :
    contents (resize P q elements) = contents q := by
  unfold contents
  rw [resize_size, resize_current, resize_store]
  apply take_drop_eq_of_getElem?
  intro j hj
  rw [Nat.zero_add]
  exact getElem?_transfer P hq _ j hj (by rw [length_allocate P hbytes]; omega)

theorem resize_well_formed (P : params) {q : queue α} (hq : well_formed q) (elements : Nat)
    (h1 : q.m_size ≤ elements) (hbytes : bytes_fit P elements) :
    well_formed (resize P q elements) := by
  apply well_formed_of_contents
  · rw [resize_store, resize_capacity, length_transfer, length_allocate P hbytes]
  · rw [resize_current, resize_size, resize_capacity]; omega
  · exact bytes_fit_lt P hbytes
  · rw [resize_contents P hq elements h1 hbytes]; exact contents_all_some hq

theorem shift_down_capacity (P : params) (q : queue α) :
    (shift_down P q).m_capacity = q.m_capacity := by
  unfold shift_down shift_down_impl; split <;> rfl

theorem shift_down_size (P : params) (q : queue α) : (shift_down P q).m_size = q.m_size := by
  unfold shift_down shift_down_impl; split <;> rfl

theorem shift_down_current (P : params) (q : queue α) : (shift_down P q).m_current = 0 := rfl

theorem shift_down_length (P : params) (q : queue α) :
    (shift_down P q).m_backingStore.length = q.m_backingStore.length := by
  unfold shift_down shift_down_impl
  split
  · exact length_memcpy _ _ _ _ _
  · exact length_shift_each _ _ _ _

theorem getElem?_shift_down (P : params) {q : queue α} (hq : well_formed q)
    (h : q.m_size ≤ q.m_current) (j : Nat) (hj : j < q.m_size) :
    (shift_down P q).m_backingStore[j]? = q.m_backingStore[q.m_current + j]? := by
  have hb := hq.bounds
  have hl := hq.store_length
  have e : some (q.m_backingStore.getD (q.m_current + j) none) = q.m_backingStore[q.m_current + j]? :=
    some_getD_eq_getElem? _ _ (by omega)
  unfold shift_down shift_down_impl dequeue_pointer
  split
  · show (memcpy _ 0 _ _ _)[j]? = _
    rw [getElem?_memcpy _ _ _ _ _ hj, if_pos (by omega), e]
  · show (shift_each _ _ 0 _)[j]? = _
    rw [getElem?_shift_each _ _ _ _ _ (by omega) (Nat.zero_le _) (by omega), if_pos (by omega), e]

theorem shift_down_contents (P : params) {q : queue α} (hq : well_formed q)
    (h : q.m_size ≤ q.m_current) : contents (shift_down P q) = contents q := by
  unfold contents
  rw [shift_down_size, shift_down_current]
  apply take_drop_eq_of_getElem?
  intro j hj
  rw [Nat.zero_add]
  exact getElem?_shift_down P hq h j hj

theorem shift_down_well_formed (P : params) {q : queue α} (hq : well_formed q)
    (h : q.m_size ≤ q.m_current) : well_formed (shift_down P q) := by
  have hb := hq.bounds
  apply well_formed_of_contents
  · rw [shift_down_length, shift_down_capacity]; exact hq.store_length
  · rw [shift_down_current, shift_down_size, shift_down_capacity]; omega
  · rw [shift_down_capacity]; exact hq.capacity_lt
  · rw [shift_down_contents P hq h]; exact contents_all_some hq

/-! ## The enqueue operations -/


theorem do_enqueue_block_impl_eq (P : params) (q : queue α) (block : List α) :
    do_enqueue_block_impl P q block =
      { q with m_backingStore :=
          write_slots q.m_backingStore (q.m_current + q.m_size) (block.map some) } := by
  unfold do_enqueue_block_impl enqueue_pointer dequeue_pointer
  split
  · rw [memcpy_block_eq]
  · rw [enqueue_each_eq]

theorem do_enqueue_block_bulk_element (P : params) (q : queue α) (block : List α) :
    do_enqueue_block (bulk_path P) q block = do_enqueue_block (element_path P) q block := by
  have h1 : ∀ e, resize (bulk_path P) q e = resize (element_path P) q e :=
    resize_bulk_element P q
  have h2 : ∀ q1 : queue α, do_enqueue_block_impl (bulk_path P) q1 block =
      do_enqueue_block_impl (element_path P) q1 block := fun q1 => by
    rw [do_enqueue_block_impl_eq, do_enqueue_block_impl_eq]
  unfold do_enqueue_block
  simp only [h1, h2]
  rfl

theorem contents_push (q : queue α) (block : List α) (hq : well_formed q)
    (hroom : q.m_current + q.m_size + block.length ≤ q.m_capacity) :
    contents ({ q with
        m_backingStore := write_slots q.m_backingStore (q.m_current + q.m_size) (block.map some),
        m_size := q.m_size + block.length } : queue α) = contents q ++ block.map some := by
  have hl := hq.store_length
  apply List.ext_getElem?
  intro j
  show ((List.drop q.m_current (write_slots _ _ _)).take (q.m_size + block.length))[j]? = _
  rw [getElem?_take_drop, getElem?_write_slots, List.getElem?_append, length_contents hq,
    List.length_map]
  unfold contents
  rw [getElem?_take_drop]
  by_cases h1 : j < q.m_size
  · rw [if_pos (by omega), if_neg (by omega), if_pos h1, if_pos h1]
  · rw [if_neg h1]
    by_cases h2 : j < q.m_size + block.length
    · rw [if_pos h2, if_pos (by omega), Nat.add_sub_add_left]
    · rw [if_neg h2]
      exact (List.getElem?_eq_none (by rw [List.length_map]; omega)).symm

theorem well_formed_push (q : queue α) (block : List α) (hq : well_formed q)
    (hroom : q.m_current + q.m_size + block.length ≤ q.m_capacity) :
    well_formed ({ q with
        m_backingStore := write_slots q.m_backingStore (q.m_current + q.m_size) (block.map some),
        m_size := q.m_size + block.length } : queue α) := by
  apply well_formed_of_contents
  · show (write_slots _ _ _).length = q.m_capacity
    rw [length_write_slots]; exact hq.store_length
  · show q.m_current + (q.m_size + block.length) ≤ q.m_capacity
    omega
  · exact hq.capacity_lt
  · rw [contents_push q block hq hroom]
    intro x hx
    rcases List.mem_append.1 hx with h | h
    · exact contents_all_some hq x h
    · obtain ⟨v, _, hv⟩ := List.mem_map.1 h
      exact ⟨v, hv.symm⟩


theorem do_enqueue_eq_push (P : params) (q : queue α) (element : α) (q1 : queue α)
    (h1 : (if q.available = 0 then resize P q (sz_add q.m_capacity (alloc_size P)) else q) = q1)
    (h2 : q1.m_size + 1 < size_mod) :
    do_enqueue P q element = { q1 with
        m_backingStore := write_slots q1.m_backingStore (q1.m_current + q1.m_size) ([element].map some),
        m_size := q1.m_size + [element].length } := by
  unfold do_enqueue
  simp only [h1]
  rw [sz_add_eq h2]
  rfl

theorem do_enqueue_block_eq_push (P : params) (q : queue α) (block : List α) (q1 : queue α)
    (h1 : (if block.length ≥ q.available then
        resize P q (sz_add q.m_capacity
          (sz_mul (sz_add (sz_sub block.length q.available / alloc_size P) 1) (alloc_size P)))
        else q) = q1)
    (h2 : q1.m_size + block.length < size_mod) :
    do_enqueue_block P q block = { q1 with
        m_backingStore := write_slots q1.m_backingStore (q1.m_current + q1.m_size) (block.map some),
        m_size := q1.m_size + block.length } := by
  unfold do_enqueue_block
  simp only [h1]
  rw [do_enqueue_block_impl_eq]
  simp only []
  rw [sz_add_eq h2]


theorem push_spec (q q1 r : queue α) (block : List α) (hq1 : well_formed q1)
    (hc : contents q1 = contents q) (hs : q1.m_size = q.m_size)
    (hroom : q1.m_current + q1.m_size + block.length ≤ q1.m_capacity)
    (hr : r = { q1 with
        m_backingStore := write_slots q1.m_backingStore (q1.m_current + q1.m_size) (block.map some),
        m_size := q1.m_size + block.length }) :
    well_formed r ∧ contents r = contents q ++ block.map some ∧
      r.m_size = q.m_size + block.length ∧ r.m_capacity = q1.m_capacity ∧
      r.m_current = q1.m_current := by
  subst hr
  refine ⟨well_formed_push q1 block hq1 hroom, ?_, ?_, rfl, rfl⟩
  · rw [contents_push q1 block hq1 hroom, hc]
  · show q1.m_size + block.length = _
    rw [hs]

theorem do_enqueue_spec (P : params) {q : queue α} (hq : well_formed q) (element : α)
    (hpos : 0 < alloc_size P)
    (hfit : q.m_current + q.m_size = q.m_capacity → bytes_fit P (q.m_capacity + alloc_size P)) :
    well_formed (do_enqueue P q element) ∧
      contents (do_enqueue P q element) = contents q ++ [some element] ∧
      (do_enqueue P q element).m_size = q.m_size + 1 ∧
      (do_enqueue P q element).m_capacity =
        (if q.m_current + q.m_size = q.m_capacity then q.m_capacity + alloc_size P
          else q.m_capacity) ∧
      (do_enqueue P q element).m_current =
        (if q.m_current + q.m_size = q.m_capacity then 0 else q.m_current) := by
  have hb := hq.bounds
  have hcap := hq.capacity_lt
  have hav := available_eq (counters_of_well_formed hq)
  by_cases hfull : q.m_current + q.m_size = q.m_capacity
  · have hbytes := hfit hfull
    have hfit := bytes_fit_lt P hbytes
    have h1 : (if q.available = 0 then resize P q (sz_add q.m_capacity (alloc_size P)) else q)
        = resize P q (q.m_capacity + alloc_size P) := by
      rw [if_pos (by omega), sz_add_eq (by omega)]
    have hq1 := resize_well_formed P hq (q.m_capacity + alloc_size P) (by omega) hbytes
    have h := push_spec q _ _ [element] hq1 (resize_contents P hq _ (by omega) hbytes)
      (resize_size P q _)
      (by rw [resize_current, resize_size, resize_capacity]; simp only [List.length_singleton]; omega)
      (do_enqueue_eq_push P q element _ h1 (by rw [resize_size]; omega))
    rw [if_pos hfull, if_pos hfull]
    exact h
  · have h1 : (if q.available = 0 then resize P q (sz_add q.m_capacity (alloc_size P)) else q)
        = q := by
      rw [if_neg (by omega)]
    have h := push_spec q _ _ [element] hq rfl rfl
      (by simp only [List.length_singleton]; omega)
      (do_enqueue_eq_push P q element _ h1 (by omega))
    rw [if_neg hfull, if_neg hfull]
    exact h

theorem growth_arith (n a d : Nat) (hd : 0 < d) :
    (n - a) / d * d ≤ n - a ∧ n - a < ((n - a) / d + 1) * d ∧
      ((n - a) / d + 1) * d = (n - a) / d * d + d := by
  have h1 := Nat.div_mul_le_self (n - a) d
  have h2 := Nat.div_add_mod (n - a) d
  have h3 := Nat.mod_lt (n - a) hd
  have h4 : ((n - a) / d + 1) * d = (n - a) / d * d + d := by ring
  have h5 : d * ((n - a) / d) = (n - a) / d * d := Nat.mul_comm _ _
  refine ⟨h1, ?_, h4⟩
  rw [h4]
  omega

theorem do_enqueue_block_spec (P : params) {q : queue α} (hq : well_formed q) (block : List α)
    (hpos : 0 < alloc_size P) (hbytes : store_fits P q block.length) :
    well_formed (do_enqueue_block P q block) ∧
      contents (do_enqueue_block P q block) = contents q ++ block.map some ∧
      (do_enqueue_block P q block).m_size = q.m_size + block.length ∧
      (do_enqueue_block P q block).m_capacity =
        (if block.length ≥ q.m_capacity - q.m_current - q.m_size then
          q.m_capacity +
            ((block.length - (q.m_capacity - q.m_current - q.m_size)) / alloc_size P + 1) *
              alloc_size P
          else q.m_capacity) ∧
      (do_enqueue_block P q block).m_current =
        (if block.length ≥ q.m_capacity - q.m_current - q.m_size then 0 else q.m_current) := by
  have hb := hq.bounds
  have hcap := hq.capacity_lt
  have hav := available_eq (counters_of_well_formed hq)
  have hfit : q.m_capacity + block.length + alloc_size P < size_mod := bytes_fit_lt P hbytes
  by_cases hgrow : block.length ≥ q.m_capacity - q.m_current - q.m_size
  · obtain ⟨g1, g2, g3⟩ :=
      growth_arith block.length (q.m_capacity - q.m_current - q.m_size) (alloc_size P) hpos
    have h1 : (if block.length ≥ q.available then
        resize P q (sz_add q.m_capacity
          (sz_mul (sz_add (sz_sub block.length q.available / alloc_size P) 1) (alloc_size P)))
        else q) = resize P q (q.m_capacity +
          ((block.length - (q.m_capacity - q.m_current - q.m_size)) / alloc_size P + 1) *
            alloc_size P) := by
      have hk := Nat.div_le_self (block.length - (q.m_capacity - q.m_current - q.m_size))
        (alloc_size P)
      have e1 : sz_sub block.length (q.m_capacity - q.m_current - q.m_size) =
          block.length - (q.m_capacity - q.m_current - q.m_size) := sz_sub_eq hgrow (by omega)
      have e2 : sz_add ((block.length - (q.m_capacity - q.m_current - q.m_size)) / alloc_size P) 1
          = (block.length - (q.m_capacity - q.m_current - q.m_size)) / alloc_size P + 1 :=
        sz_add_eq (by omega)
      have e3 : sz_mul ((block.length - (q.m_capacity - q.m_current - q.m_size)) / alloc_size P + 1)
          (alloc_size P) =
          ((block.length - (q.m_capacity - q.m_current - q.m_size)) / alloc_size P + 1) *
            alloc_size P := sz_mul_eq (by omega)
      rw [hav, if_pos hgrow, e1, e2, e3, sz_add_eq (by omega)]
    have hnew : bytes_fit P (q.m_capacity +
          ((block.length - (q.m_capacity - q.m_current - q.m_size)) / alloc_size P + 1) *
            alloc_size P) := bytes_fit_mono P (by omega) hbytes
    have hq1 := resize_well_formed P hq (q.m_capacity +
          ((block.length - (q.m_capacity - q.m_current - q.m_size)) / alloc_size P + 1) *
            alloc_size P) (by omega) hnew
    have h := push_spec q _ _ block hq1 (resize_contents P hq _ (by omega) hnew)
      (resize_size P q _)
      (by rw [resize_current, resize_size, resize_capacity]; omega)
      (do_enqueue_block_eq_push P q block _ h1 (by rw [resize_size]; omega))
    rw [if_pos hgrow, if_pos hgrow]
    exact h
  · have h1 : (if block.length ≥ q.available then
        resize P q (sz_add q.m_capacity
          (sz_mul (sz_add (sz_sub block.length q.available / alloc_size P) 1) (alloc_size P)))
        else q) = q := by
      rw [hav, if_neg hgrow]
    have h := push_spec q _ _ block hq rfl rfl (by omega)
      (do_enqueue_block_eq_push P q block _ h1 (by omega))
    rw [if_neg hgrow, if_neg hgrow]
    exact h

theorem do_enqueue_counters (P : params) {q : queue α} (hq : counters_ok q) (element : α)
    (hpos : 0 < alloc_size P)
    (hfit : q.m_current + q.m_size = q.m_capacity → q.m_capacity + alloc_size P < size_mod) :
    counters_ok (do_enqueue P q element) ∧
      (do_enqueue P q element).m_size = q.m_size + 1 ∧
      (do_enqueue P q element).m_capacity =
        (if q.m_current + q.m_size = q.m_capacity then q.m_capacity + alloc_size P
          else q.m_capacity) ∧
      (do_enqueue P q element).m_current =
        (if q.m_current + q.m_size = q.m_capacity then 0 else q.m_current) := by
  have hb := hq.bounds
  have hcap := hq.capacity_lt
  have hav := available_eq hq
  by_cases hfull : q.m_current + q.m_size = q.m_capacity
  · have hfit := hfit hfull
    have h1 : (if q.available = 0 then resize P q (sz_add q.m_capacity (alloc_size P)) else q)
        = resize P q (q.m_capacity + alloc_size P) := by
      rw [if_pos (by omega), sz_add_eq (by omega)]
    rw [do_enqueue_eq_push P q element _ h1 (by rw [resize_size]; omega), if_pos hfull,
      if_pos hfull]
    refine ⟨⟨?_, hfit⟩, rfl, rfl, rfl⟩
    show 0 + (q.m_size + 1) ≤ q.m_capacity + alloc_size P
    omega
  · have h1 : (if q.available = 0 then resize P q (sz_add q.m_capacity (alloc_size P)) else q)
        = q := by
      rw [if_neg (by omega)]
    rw [do_enqueue_eq_push P q element _ h1 (by omega), if_neg hfull, if_neg hfull]
    refine ⟨⟨?_, hcap⟩, rfl, rfl, rfl⟩
    show q.m_current + (q.m_size + 1) ≤ q.m_capacity
    omega

theorem do_enqueue_block_counters (P : params) {q : queue α} (hq : counters_ok q)
    (block : List α) (hpos : 0 < alloc_size P) (hfit : fits P q block.length) :
    counters_ok (do_enqueue_block P q block) ∧
      (do_enqueue_block P q block).m_size = q.m_size + block.length ∧
      (do_enqueue_block P q block).m_capacity =
        (if block.length ≥ q.m_capacity - q.m_current - q.m_size then
          q.m_capacity +
            ((block.length - (q.m_capacity - q.m_current - q.m_size)) / alloc_size P + 1) *
              alloc_size P
          else q.m_capacity) ∧
      (do_enqueue_block P q block).m_current =
        (if block.length ≥ q.m_capacity - q.m_current - q.m_size then 0 else q.m_current) := by
  have hb := hq.bounds
  have hcap := hq.capacity_lt
  have hav := available_eq hq
  unfold fits at hfit
  by_cases hgrow : block.length ≥ q.m_capacity - q.m_current - q.m_size
  · obtain ⟨g1, g2, g3⟩ :=
      growth_arith block.length (q.m_capacity - q.m_current - q.m_size) (alloc_size P) hpos
    have h1 : (if block.length ≥ q.available then
        resize P q (sz_add q.m_capacity
          (sz_mul (sz_add (sz_sub block.length q.available / alloc_size P) 1) (alloc_size P)))
        else q) = resize P q (q.m_capacity +
          ((block.length - (q.m_capacity - q.m_current - q.m_size)) / alloc_size P + 1) *
            alloc_size P) := by
      have hk := Nat.div_le_self (block.length - (q.m_capacity - q.m_current - q.m_size))
        (alloc_size P)
      have e1 : sz_sub block.length (q.m_capacity - q.m_current - q.m_size) =
          block.length - (q.m_capacity - q.m_current - q.m_size) := sz_sub_eq hgrow (by omega)
      have e2 : sz_add ((block.length - (q.m_capacity - q.m_current - q.m_size)) / alloc_size P) 1
          = (block.length - (q.m_capacity - q.m_current - q.m_size)) / alloc_size P + 1 :=
        sz_add_eq (by omega)
      have e3 : sz_mul ((block.length - (q.m_capacity - q.m_current - q.m_size)) / alloc_size P + 1)
          (alloc_size P) =
          ((block.length - (q.m_capacity - q.m_current - q.m_size)) / alloc_size P + 1) *
            alloc_size P := sz_mul_eq (by omega)
      rw [hav, if_pos hgrow, e1, e2, e3, sz_add_eq (by omega)]
    rw [do_enqueue_block_eq_push P q block _ h1 (by rw [resize_size]; omega), if_pos hgrow,
      if_pos hgrow]
    refine ⟨⟨?_, ?_⟩, rfl, rfl, rfl⟩
    · show 0 + (q.m_size + block.length) ≤ q.m_capacity +
        ((block.length - (q.m_capacity - q.m_current - q.m_size)) / alloc_size P + 1) *
          alloc_size P
      omega
    · show q.m_capacity +
        ((block.length - (q.m_capacity - q.m_current - q.m_size)) / alloc_size P + 1) *
          alloc_size P < size_mod
      omega
  · have h1 : (if block.length ≥ q.available then
        resize P q (sz_add q.m_capacity
          (sz_mul (sz_add (sz_sub block.length q.available / alloc_size P) 1) (alloc_size P)))
        else q) = q := by
      rw [hav, if_neg hgrow]
    rw [do_enqueue_block_eq_push P q block _ h1 (by omega), if_neg hgrow, if_neg hgrow]
    refine ⟨⟨?_, hcap⟩, rfl, rfl, rfl⟩
    show q.m_current + (q.m_size + block.length) ≤ q.m_capacity
    omega

/-! ## The dequeue operations -/


theorem contents_pop (q : queue α) (n : Nat) (store : List (Option α)) (hq : well_formed q)
    (hn : n ≤ q.m_size) (hs : ∀ j, q.m_current + n ≤ j → store[j]? = q.m_backingStore[j]?) :
    contents q = (q.m_backingStore.drop q.m_current).take n ++
      contents ({ m_capacity := q.m_capacity, m_current := q.m_current + n,
                  m_size := q.m_size - n, m_backingStore := store } : queue α) := by
  have hl := hq.store_length
  have hb := hq.bounds
  apply List.ext_getElem?
  intro j
  have hlen : ((q.m_backingStore.drop q.m_current).take n).length = n := by
    rw [List.length_take, List.length_drop]; omega
  rw [List.getElem?_append, hlen]
  unfold contents
  dsimp only
  rw [getElem?_take_drop, getElem?_take_drop, getElem?_take_drop]
  by_cases h1 : j < n
  · rw [if_pos (by omega), if_pos h1, if_pos h1]
  · rw [if_neg h1]
    by_cases h2 : j < q.m_size
    · have e : q.m_current + n + (j - n) = q.m_current + j := by omega
      rw [if_pos h2, if_pos (by omega), hs _ (by omega), e]
    · rw [if_neg h2, if_neg (by omega)]

theorem well_formed_pop (q : queue α) (n : Nat) (store : List (Option α)) (hq : well_formed q)
    (hn : n ≤ q.m_size) (hlen : store.length = q.m_backingStore.length)
    (hs : ∀ j, q.m_current + n ≤ j → store[j]? = q.m_backingStore[j]?) :
    well_formed ({ m_capacity := q.m_capacity, m_current := q.m_current + n,
                   m_size := q.m_size - n, m_backingStore := store } : queue α) := by
  have hb := hq.bounds
  apply well_formed_of_contents
  · exact hlen.trans hq.store_length
  · show q.m_current + n + (q.m_size - n) ≤ q.m_capacity
    omega
  · exact hq.capacity_lt
  · intro x hx
    apply contents_all_some hq x
    rw [contents_pop q n store hq hn hs]
    exact List.mem_append_right _ hx

theorem maybe_shift_spec (P : params) {q : queue α} (hq : well_formed q) :
    well_formed (if q.m_current > q.m_capacity / 2 then shift_down P q else q) ∧
      contents (if q.m_current > q.m_capacity / 2 then shift_down P q else q) = contents q ∧
      (if q.m_current > q.m_capacity / 2 then shift_down P q else q).m_size = q.m_size ∧
      (if q.m_current > q.m_capacity / 2 then shift_down P q else q).m_capacity = q.m_capacity ∧
      (if q.m_current > q.m_capacity / 2 then shift_down P q else q).m_current =
        (if q.m_current > q.m_capacity / 2 then 0 else q.m_current) := by
  have hb := hq.bounds
  by_cases h : q.m_current > q.m_capacity / 2
  · rw [if_pos h, if_pos h]
    have hle : q.m_size ≤ q.m_current := by omega
    exact ⟨shift_down_well_formed P hq hle, shift_down_contents P hq hle, shift_down_size P q,
      shift_down_capacity P q, shift_down_current P q⟩
  · rw [if_neg h, if_neg h]
    exact ⟨hq, rfl, rfl, rfl, rfl⟩

theorem do_dequeue_block_impl_spec (P : params) (q : queue α) (block : List α) :
    (do_dequeue_block_impl P q block).2 = memcpy_out q.m_backingStore q.m_current block ∧
      (do_dequeue_block_impl P q block).1.m_capacity = q.m_capacity ∧
      (do_dequeue_block_impl P q block).1.m_current = q.m_current ∧
      (do_dequeue_block_impl P q block).1.m_size = q.m_size ∧
      (do_dequeue_block_impl P q block).1.m_backingStore.length = q.m_backingStore.length ∧
      ∀ j, q.m_current + block.length ≤ j →
        (do_dequeue_block_impl P q block).1.m_backingStore[j]? = q.m_backingStore[j]? := by
  unfold do_dequeue_block_impl dequeue_pointer
  split
  · exact ⟨rfl, rfl, rfl, rfl, rfl, fun _ _ => rfl⟩
  · exact ⟨dequeue_each_snd _ _ _, rfl, rfl, rfl, length_dequeue_each _ _ _,
      fun j hj => getElem?_dequeue_each_ge _ _ _ _ hj⟩

theorem do_dequeue_block_spec (P : params) {q : queue α} (hq : well_formed q) (block : List α)
    (hn : block.length ≤ q.m_size) :
    well_formed (do_dequeue_block P q block).1 ∧
      contents q = (do_dequeue_block P q block).2.map some ++ contents (do_dequeue_block P q block).1 ∧
      (do_dequeue_block P q block).2 = memcpy_out q.m_backingStore q.m_current block ∧
      (do_dequeue_block P q block).1.m_size = q.m_size - block.length ∧
      (do_dequeue_block P q block).1.m_capacity = q.m_capacity ∧
      (do_dequeue_block P q block).1.m_current =
        (if q.m_current + block.length > q.m_capacity / 2 then 0
          else q.m_current + block.length) := by
  have hb := hq.bounds
  have hcap := hq.capacity_lt
  obtain ⟨i1, i2, i3, i4, i5, i6⟩ := do_dequeue_block_impl_spec P q block
  have hlen : (do_dequeue_block_impl P q block).2.length = block.length := by
    rw [i1, length_memcpy_out]
  have hq2 := well_formed_pop q block.length _ hq hn i5 i6
  have hc2 := contents_pop q block.length _ hq hn i6
  obtain ⟨m1, m2, m3, m4, m5⟩ := maybe_shift_spec P hq2
  have e : do_dequeue_block P q block =
      (if q.m_current + block.length > q.m_capacity / 2 then
          shift_down P {
            m_capacity := q.m_capacity, m_current := q.m_current + block.length,
            m_size := q.m_size - block.length,
            m_backingStore := (do_dequeue_block_impl P q block).1.m_backingStore }
        else {
            m_capacity := q.m_capacity, m_current := q.m_current + block.length,
            m_size := q.m_size - block.length,
            m_backingStore := (do_dequeue_block_impl P q block).1.m_backingStore },
        memcpy_out q.m_backingStore q.m_current block) := by
    unfold do_dequeue_block
    simp only [i2, i3, i4, i1, length_memcpy_out]
    rw [sz_sub_eq hn (by omega), sz_add_eq (by omega)]
  rw [e]
  refine ⟨m1, ?_, rfl, m3, m4, m5⟩
  rw [m2]
  rw [map_some_memcpy_out block _ _ (fun i h1 h2 => hq.live i h1 (by omega))]
  exact hc2


theorem do_dequeue_spec (P : params) {q : queue α} (hq : well_formed q) (target : α)
    (hn : 0 < q.m_size) :
    well_formed (do_dequeue P q target).1 ∧
      contents q = some (do_dequeue P q target).2 :: contents (do_dequeue P q target).1 ∧
      q.m_backingStore[q.m_current]? = some (some (do_dequeue P q target).2) ∧
      (do_dequeue P q target).1.m_size = q.m_size - 1 ∧
      (do_dequeue P q target).1.m_capacity = q.m_capacity ∧
      (do_dequeue P q target).1.m_current =
        (if q.m_current + 1 > q.m_capacity / 2 then 0 else q.m_current + 1) := by
  have hb := hq.bounds
  have hcap := hq.capacity_lt
  have hset : ∀ j, q.m_current + 1 ≤ j →
      (q.m_backingStore.set q.m_current none)[j]? = q.m_backingStore[j]? := by
    intro j hj
    rw [List.getElem?_set, if_neg (by omega)]
  have hq2 := well_formed_pop q 1 _ hq hn (List.length_set _ _ _) hset
  have hc2 := contents_pop q 1 _ hq hn hset
  obtain ⟨m1, m2, m3, m4, m5⟩ := maybe_shift_spec P hq2
  have hm := map_some_memcpy_out [target] q.m_backingStore q.m_current
    (fun i h1 h2 => hq.live i h1 (by simp only [List.length_singleton] at h2; omega))
  simp only [memcpy_out, List.map_cons, List.map_nil, List.length_singleton] at hm
  have e : do_dequeue P q target =
      (if q.m_current + 1 > q.m_capacity / 2 then
          shift_down P {
            m_capacity := q.m_capacity, m_current := q.m_current + 1,
            m_size := q.m_size - 1,
            m_backingStore := q.m_backingStore.set q.m_current none }
        else {
            m_capacity := q.m_capacity, m_current := q.m_current + 1,
            m_size := q.m_size - 1,
            m_backingStore := q.m_backingStore.set q.m_current none },
        slot_value q.m_backingStore q.m_current target) := by
    unfold do_dequeue dequeue_pointer
    simp only []
    rw [sz_sub_eq hn (by omega), sz_add_eq (by omega)]
  rw [e]
  refine ⟨m1, ?_, ?_, m3, m4, m5⟩
  · rw [m2, hc2, ← hm]; rfl
  · have h0 : ((q.m_backingStore.drop q.m_current).take 1)[0]? =
        some (some (slot_value q.m_backingStore q.m_current target)) := by
      rw [← hm]; rfl
    rw [getElem?_take_drop, if_pos (by omega)] at h0
    exact h0

theorem do_dequeue_eq (P : params) {q : queue α} (hq : counters_ok q) (target : α)
    (hn : 0 < q.m_size) :
    (do_dequeue P q target).1 =
      (if q.m_current + 1 > q.m_capacity / 2 then
          shift_down P {
            m_capacity := q.m_capacity, m_current := q.m_current + 1,
            m_size := q.m_size - 1,
            m_backingStore := q.m_backingStore.set q.m_current none }
        else {
            m_capacity := q.m_capacity, m_current := q.m_current + 1,
            m_size := q.m_size - 1,
            m_backingStore := q.m_backingStore.set q.m_current none }) := by
  have hb := hq.bounds
  have hcap := hq.capacity_lt
  unfold do_dequeue dequeue_pointer
  simp only []
  rw [sz_sub_eq hn (by omega), sz_add_eq (by omega)]

theorem do_dequeue_block_eq (P : params) {q : queue α} (hq : counters_ok q) (block : List α)
    (hn : block.length ≤ q.m_size) :
    (do_dequeue_block P q block).1 =
      (if q.m_current + block.length > q.m_capacity / 2 then
          shift_down P {
            m_capacity := q.m_capacity, m_current := q.m_current + block.length,
            m_size := q.m_size - block.length,
            m_backingStore := (do_dequeue_block_impl P q block).1.m_backingStore }
        else {
            m_capacity := q.m_capacity, m_current := q.m_current + block.length,
            m_size := q.m_size - block.length,
            m_backingStore := (do_dequeue_block_impl P q block).1.m_backingStore }) := by
  have hb := hq.bounds
  have hcap := hq.capacity_lt
  obtain ⟨i1, i2, i3, i4, _, _⟩ := do_dequeue_block_impl_spec P q block
  unfold do_dequeue_block
  simp only [i2, i3, i4, i1, length_memcpy_out]
  rw [sz_sub_eq hn (by omega), sz_add_eq (by omega)]

theorem do_dequeue_counters (P : params) {q : queue α} (hq : counters_ok q) (target : α)
    (hn : 0 < q.m_size) :
    counters_ok (do_dequeue P q target).1 ∧
      (do_dequeue P q target).1.m_size = q.m_size - 1 ∧
      (do_dequeue P q target).1.m_capacity = q.m_capacity ∧
      (do_dequeue P q target).1.m_current =
        (if q.m_current + 1 > q.m_capacity / 2 then 0 else q.m_current + 1) := by
  have hb := hq.bounds
  have hcap := hq.capacity_lt
  rw [do_dequeue_eq P hq target hn]
  by_cases h : q.m_current + 1 > q.m_capacity / 2
  · rw [if_pos h, if_pos h]
    refine ⟨⟨?_, ?_⟩, shift_down_size P _, shift_down_capacity P _, shift_down_current P _⟩
    · rw [shift_down_current, shift_down_size, shift_down_capacity]
      show 0 + (q.m_size - 1) ≤ q.m_capacity
      omega
    · rw [shift_down_capacity]; exact hcap
  · rw [if_neg h, if_neg h]
    refine ⟨⟨?_, hcap⟩, rfl, rfl, rfl⟩
    show q.m_current + 1 + (q.m_size - 1) ≤ q.m_capacity
    omega

theorem do_dequeue_block_counters (P : params) {q : queue α} (hq : counters_ok q)
    (block : List α) (hn : block.length ≤ q.m_size) :
    counters_ok (do_dequeue_block P q block).1 ∧
      (do_dequeue_block P q block).1.m_size = q.m_size - block.length ∧
      (do_dequeue_block P q block).1.m_capacity = q.m_capacity ∧
      (do_dequeue_block P q block).1.m_current =
        (if q.m_current + block.length > q.m_capacity / 2 then 0
          else q.m_current + block.length) := by
  have hb := hq.bounds
  have hcap := hq.capacity_lt
  rw [do_dequeue_block_eq P hq block hn]
  by_cases h : q.m_current + block.length > q.m_capacity / 2
  · rw [if_pos h, if_pos h]
    refine ⟨⟨?_, ?_⟩, shift_down_size P _, shift_down_capacity P _, shift_down_current P _⟩
    · rw [shift_down_current, shift_down_size, shift_down_capacity]
      show 0 + (q.m_size - block.length) ≤ q.m_capacity
      omega
    · rw [shift_down_capacity]; exact hcap
  · rw [if_neg h, if_neg h]
    refine ⟨⟨?_, hcap⟩, rfl, rfl, rfl⟩
    show q.m_current + block.length + (q.m_size - block.length) ≤ q.m_capacity
    omega

theorem clear_counters {q : queue α} (hq : counters_ok q) : counters_ok (clear q) :=
  ⟨Nat.zero_le _, hq.capacity_lt⟩

theorem try_dequeue_counters (P : params) {q : queue α} (hq : counters_ok q) (target : α) :
    counters_ok (try_dequeue P q target).2.1 := by
  unfold try_dequeue
  split
  · exact hq
  · exact (do_dequeue_counters P hq target (by omega)).1

theorem try_dequeue_block_counters (P : params) {q : queue α} (hq : counters_ok q)
    (block : List α) : counters_ok (try_dequeue_block P q block).2.1 := by
  unfold try_dequeue_block
  split
  · exact hq
  · exact (do_dequeue_block_counters P hq block (by omega)).1

theorem try_dequeue_capacity (P : params) {q : queue α} (hq : counters_ok q) (target : α) :
    (try_dequeue P q target).2.1.m_capacity = q.m_capacity := by
  unfold try_dequeue
  split
  · rfl
  · exact (do_dequeue_counters P hq target (by omega)).2.2.1

theorem try_dequeue_block_capacity (P : params) {q : queue α} (hq : counters_ok q)
    (block : List α) : (try_dequeue_block P q block).2.1.m_capacity = q.m_capacity := by
  unfold try_dequeue_block
  split
  · rfl
  · exact (do_dequeue_block_counters P hq block (by omega)).2.2.1

theorem construct_counters (P : params) (nofInitialGroups : Nat) :
    counters_ok (construct P nofInitialGroups : queue α) :=
  ⟨Nat.zero_le _, Nat.mod_lt _ (by decide)⟩

theorem construct_well_formed (P : params) (nofInitialGroups : Nat)
    (hbytes : bytes_fit P (construct P nofInitialGroups : queue α).m_capacity) :
    well_formed (construct P nofInitialGroups : queue α) := by
  refine ⟨?_, ?_, ?_, ?_⟩
  · exact length_allocate P hbytes
  · simp [construct]
  · exact Nat.mod_lt _ (by decide)
  · intro i h1 h2
    simp only [construct] at h1 h2
    omega

theorem clear_well_formed {q : queue α} (hq : well_formed q) : well_formed (clear q) :=
  ⟨hq.store_length, Nat.zero_le _, hq.capacity_lt, fun i h1 h2 => by
    simp only [clear] at h1 h2; omega⟩

theorem try_dequeue_well_formed (P : params) {q : queue α} (hq : well_formed q) (target : α) :
    well_formed (try_dequeue P q target).2.1 := by
  unfold try_dequeue
  split
  · exact hq
  · exact (do_dequeue_spec P hq target (by omega)).1

theorem try_dequeue_block_well_formed (P : params) {q : queue α} (hq : well_formed q)
    (block : List α) : well_formed (try_dequeue_block P q block).2.1 := by
  unfold try_dequeue_block
  split
  · exact hq
  · exact (do_dequeue_block_spec P hq block (by omega)).1

theorem fits_mono (P : params) (q : queue α) {m n : Nat} (h : m ≤ n) (hf : fits P q n) :
    fits P q m := by
  unfold fits at *; omega

theorem push_block_well_formed (P : params) {q : queue α} (hq : well_formed q)
    (block : List α) (hpos : 0 < alloc_size P) (hfit : fits P q block.length)
    (hbytes : bytes_fit P (do_enqueue_block P q block).m_capacity) :
    well_formed (do_enqueue_block P q block) := by
  have hb := hq.bounds
  have hcap := hq.capacity_lt
  have hav := available_eq (counters_of_well_formed hq)
  obtain ⟨_, _, e4, _⟩ := do_enqueue_block_counters P (counters_of_well_formed hq) block hpos hfit
  rw [e4] at hbytes
  unfold fits at hfit
  by_cases hgrow : block.length ≥ q.m_capacity - q.m_current - q.m_size
  · rw [if_pos hgrow] at hbytes
    obtain ⟨g1, g2, g3⟩ :=
      growth_arith block.length (q.m_capacity - q.m_current - q.m_size) (alloc_size P) hpos
    have h1 : (if block.length ≥ q.available then
        resize P q (sz_add q.m_capacity
          (sz_mul (sz_add (sz_sub block.length q.available / alloc_size P) 1) (alloc_size P)))
        else q) = resize P q (q.m_capacity +
          ((block.length - (q.m_capacity - q.m_current - q.m_size)) / alloc_size P + 1) *
            alloc_size P) := by
      have hk := Nat.div_le_self (block.length - (q.m_capacity - q.m_current - q.m_size))
        (alloc_size P)
      have e1 : sz_sub block.length (q.m_capacity - q.m_current - q.m_size) =
          block.length - (q.m_capacity - q.m_current - q.m_size) := sz_sub_eq hgrow (by omega)
      have e2 : sz_add ((block.length - (q.m_capacity - q.m_current - q.m_size)) / alloc_size P) 1
          = (block.length - (q.m_capacity - q.m_current - q.m_size)) / alloc_size P + 1 :=
        sz_add_eq (by omega)
      have e3 : sz_mul ((block.length - (q.m_capacity - q.m_current - q.m_size)) / alloc_size P + 1)
          (alloc_size P) =
          ((block.length - (q.m_capacity - q.m_current - q.m_size)) / alloc_size P + 1) *
            alloc_size P := sz_mul_eq (by omega)
      rw [hav, if_pos hgrow, e1, e2, e3, sz_add_eq (by omega)]
    have hq1 := resize_well_formed P hq _ (by omega) hbytes
    exact (push_spec q _ _ block hq1 (resize_contents P hq _ (by omega) hbytes)
      (resize_size P q _)
      (by rw [resize_current, resize_size, resize_capacity]; omega)
      (do_enqueue_block_eq_push P q block _ h1 (by rw [resize_size]; omega))).1
  · have h1 : (if block.length ≥ q.available then
        resize P q (sz_add q.m_capacity
          (sz_mul (sz_add (sz_sub block.length q.available / alloc_size P) 1) (alloc_size P)))
        else q) = q := by
      rw [hav, if_neg hgrow]
    exact (push_spec q _ _ block hq rfl rfl (by omega)
      (do_enqueue_block_eq_push P q block _ h1 (by omega))).1

theorem reachable_counters (P : params) (hpos : 0 < alloc_size P) {q : queue α}
    (h : reachable P q) : counters_ok q := by
  induction h with
  | construct n => exact construct_counters P n
  | enqueue elem _ hfit ih =>
    exact (do_enqueue_counters P ih elem hpos (fun _ => by unfold fits at hfit; omega)).1
  | enqueue_block block _ hfit ih => exact (do_enqueue_block_counters P ih block hpos hfit).1
  | dequeue target out _ hd ih =>
    unfold dequeue at hd
    split at hd
    · next hs =>
      have := (do_dequeue_counters P ih target hs).1
      rw [Option.some.inj hd] at this
      exact this
    · cases hd
  | dequeue_block block out _ hd ih =>
    unfold dequeue_block at hd
    split at hd
    · next hs =>
      have := (do_dequeue_block_counters P ih block hs).1
      rw [Option.some.inj hd] at this
      exact this
    · cases hd
  | try_dequeue target _ ih => exact try_dequeue_counters P ih target
  | try_dequeue_block block _ ih => exact try_dequeue_block_counters P ih block
  | clear _ ih => exact clear_counters ih

theorem reachable_well_formed (P : params) (hpos : 0 < alloc_size P) {q : queue α}
    (h : reachable P q) (hbytes : bytes_fit P q.m_capacity) : well_formed q := by
  induction h with
  | construct n => exact construct_well_formed P n hbytes
  | enqueue elem hr hfit ih =>
    have hc := reachable_counters P hpos hr
    obtain ⟨_, _, e4, _⟩ :=
      do_enqueue_counters P hc elem hpos (fun _ => by unfold fits at hfit; omega)
    have hbytes2 : bytes_fit P (do_enqueue P _ elem).m_capacity := hbytes
    rw [e4] at hbytes2
    refine (do_enqueue_spec P (ih (bytes_fit_mono P ?_ hbytes2)) elem hpos ?_).1
    · split <;> omega
    · intro hfull
      rw [if_pos hfull] at hbytes2
      exact hbytes2
  | enqueue_block block hr hfit ih =>
    have hc := reachable_counters P hpos hr
    have hb := hc.bounds
    obtain ⟨_, _, e4, _⟩ := do_enqueue_block_counters P hc block hpos hfit
    have hbytes2 : bytes_fit P (do_enqueue_block P _ block).m_capacity := hbytes
    rw [e4] at hbytes2
    have hw := ih (bytes_fit_mono P (by split <;> omega) hbytes2)
    exact push_block_well_formed P hw block hpos hfit (by rw [e4]; exact hbytes2)
  | dequeue target out hr hd ih =>
    have hc := reachable_counters P hpos hr
    unfold dequeue at hd
    split at hd
    · next hs =>
      have hcap := (do_dequeue_counters P hc target hs).2.2.1
      have hr1 := congrArg Prod.fst (Option.some.inj hd)
      simp only at hr1
      rw [← hr1, hcap] at hbytes
      have := (do_dequeue_spec P (ih hbytes) target hs).1
      rw [hr1] at this
      exact this
    · cases hd
  | dequeue_block block out hr hd ih =>
    have hc := reachable_counters P hpos hr
    unfold dequeue_block at hd
    split at hd
    · next hs =>
      have hcap := (do_dequeue_block_counters P hc block hs).2.2.1
      have hr1 := congrArg Prod.fst (Option.some.inj hd)
      simp only at hr1
      rw [← hr1, hcap] at hbytes
      have := (do_dequeue_block_spec P (ih hbytes) block hs).1
      rw [hr1] at this
      exact this
    · cases hd
  | try_dequeue target hr ih =>
    have hc := reachable_counters P hpos hr
    rw [try_dequeue_capacity P hc target] at hbytes
    exact try_dequeue_well_formed P (ih hbytes) target
  | try_dequeue_block block hr ih =>
    have hc := reachable_counters P hpos hr
    rw [try_dequeue_block_capacity P hc block] at hbytes
    exact try_dequeue_block_well_formed P (ih hbytes) block
  | clear _ ih => exact clear_well_formed (ih hbytes)

/-! ## Sequences of calls -/


theorem enqueue_all_cons (P : params) (q : queue α) (x : α) (xs : List α) :
    enqueue_all P q (x :: xs) = enqueue_all P (enqueue P q x) xs := rfl

theorem enqueue_all_counters (P : params) (hpos : 0 < alloc_size P) (xs : List α)
    {q : queue α} (hq : counters_ok q)
    (hfit : q.m_current + q.m_size + xs.length + alloc_size P ≤ size_mod) :
    counters_ok (enqueue_all P q xs) ∧
      (enqueue_all P q xs).m_size = q.m_size + xs.length := by
  induction xs generalizing q with
  | nil => exact ⟨hq, rfl⟩
  | cons x xs ih =>
    simp only [List.length_cons] at hfit
    obtain ⟨e1, e3, e4, e5⟩ := do_enqueue_counters P hq x hpos (fun h => by omega)
    have hcur : (do_enqueue P q x).m_current ≤ q.m_current := by
      rw [e5]; split <;> omega
    obtain ⟨i1, i3⟩ := @ih (do_enqueue P q x) e1 (by rw [e3]; omega)
    rw [enqueue_all_cons]
    unfold enqueue
    refine ⟨i1, ?_⟩
    rw [i3, e3, List.length_cons]; omega

theorem enqueue_all_spec (P : params) (hpos : 0 < alloc_size P) (xs : List α) {q : queue α}
    (hq : well_formed q)
    (hbytes : bytes_fit P (q.m_current + q.m_size + xs.length - 1 + alloc_size P)) :
    well_formed (enqueue_all P q xs) ∧
      contents (enqueue_all P q xs) = contents q ++ xs.map some ∧
      (enqueue_all P q xs).m_size = q.m_size + xs.length := by
  induction xs generalizing q with
  | nil => exact ⟨hq, by simp [enqueue_all], rfl⟩
  | cons x xs ih =>
    simp only [List.length_cons] at hbytes
    obtain ⟨e1, e2, e3, e4, e5⟩ := do_enqueue_spec P hq x hpos
      (fun h => bytes_fit_mono P (by omega) hbytes)
    have hcur : (do_enqueue P q x).m_current ≤ q.m_current := by
      rw [e5]; split <;> omega
    obtain ⟨i1, i2, i3⟩ := @ih (do_enqueue P q x) e1
      (bytes_fit_mono P (by rw [e3]; omega) hbytes)
    rw [enqueue_all_cons]
    unfold enqueue
    refine ⟨i1, ?_, ?_⟩
    · rw [i2, e2]; simp
    · rw [i3, e3, List.length_cons]; omega

theorem dequeue_eq_some (P : params) (q : queue α) (target : α) (h : 0 < q.m_size) :
    dequeue P q target = some (do_dequeue P q target) := by
  unfold dequeue; rw [if_pos h]

theorem dequeue_block_eq_some (P : params) (q : queue α) (block : List α)
    (h : block.length ≤ q.m_size) :
    dequeue_block P q block = some (do_dequeue_block P q block) := by
  unfold dequeue_block; rw [if_pos h]

theorem dequeue_n_counters (P : params) (n : Nat) {q : queue α} (hq : counters_ok q)
    (target : α) (hn : n ≤ q.m_size) :
    ∃ r vs, dequeue_n P n q target = some (r, vs) ∧ counters_ok r ∧ vs.length = n ∧
      r.m_size = q.m_size - n ∧ r.m_capacity = q.m_capacity := by
  induction n generalizing q target with
  | zero => exact ⟨q, [], rfl, hq, rfl, rfl, rfl⟩
  | succ n ih =>
    obtain ⟨d1, d4, d5, _⟩ := do_dequeue_counters P hq target (by omega)
    obtain ⟨r, vs, i1, i2, i4, i5, i6⟩ :=
      @ih (do_dequeue P q target).1 d1 (do_dequeue P q target).2 (by rw [d4]; omega)
    refine ⟨r, (do_dequeue P q target).2 :: vs, ?_, i2, ?_, ?_, ?_⟩
    · simp only [dequeue_n, dequeue_eq_some P q target (by omega), i1]
    · rw [List.length_cons, i4]
    · rw [i5, d4]; omega
    · rw [i6, d5]

theorem dequeue_n_spec (P : params) (n : Nat) {q : queue α} (hq : well_formed q) (target : α)
    (hn : n ≤ q.m_size) :
    ∃ r vs, dequeue_n P n q target = some (r, vs) ∧ well_formed r ∧
      contents q = vs.map some ++ contents r ∧ vs.length = n ∧ r.m_size = q.m_size - n ∧
      r.m_capacity = q.m_capacity := by
  induction n generalizing q target with
  | zero => exact ⟨q, [], rfl, hq, rfl, rfl, rfl, rfl⟩
  | succ n ih =>
    obtain ⟨d1, d2, _, d4, d5, _⟩ := do_dequeue_spec P hq target (by omega)
    obtain ⟨r, vs, i1, i2, i3, i4, i5, i6⟩ :=
      @ih (do_dequeue P q target).1 d1 (do_dequeue P q target).2 (by rw [d4]; omega)
    refine ⟨r, (do_dequeue P q target).2 :: vs, ?_, i2, ?_, ?_, ?_, ?_⟩
    · simp only [dequeue_n, dequeue_eq_some P q target (by omega), i1]
    · rw [d2, i3]; rfl
    · rw [List.length_cons, i4]
    · rw [i5, d4]; omega
    · rw [i6, d5]

theorem contents_eq_nil {q : queue α} (h : q.m_size = 0) : contents q = [] := by
  unfold contents; rw [h, List.take_zero]

theorem map_some_injective {xs ys : List α} (h : xs.map some = ys.map some) : xs = ys :=
  List.map_injective_iff.2 (Option.some_injective α) h


theorem enqueue_all_append (P : params) (q : queue α) (xs ys : List α) :
    enqueue_all P q (xs ++ ys) = enqueue_all P (enqueue_all P q xs) ys := by
  unfold enqueue_all; rw [List.foldl_append]

theorem enqueue_all_no_growth (P : params) (hpos : 0 < alloc_size P) (xs : List α)
    {q : queue α} (hq : counters_ok q)
    (h : q.m_current + q.m_size + xs.length ≤ q.m_capacity) :
    (enqueue_all P q xs).m_capacity = q.m_capacity ∧
      (enqueue_all P q xs).m_current = q.m_current := by
  induction xs generalizing q with
  | nil => exact ⟨rfl, rfl⟩
  | cons x xs ih =>
    simp only [List.length_cons] at h
    have hne : ¬ q.m_current + q.m_size = q.m_capacity := by omega
    obtain ⟨e1, e3, e4, e5⟩ := do_enqueue_counters P hq x hpos (fun hf => absurd hf hne)
    rw [if_neg hne] at e4 e5
    obtain ⟨i1, i2⟩ := @ih (do_enqueue P q x) e1 (by rw [e3, e4, e5]; omega)
    rw [enqueue_all_cons]
    unfold enqueue
    exact ⟨i1.trans e4, i2.trans e5⟩

theorem alloc_size_default (tc : Bool) (es : Nat) : alloc_size (default_params tc es) = 32 :=
  rfl

theorem round_trip (P : params) (hpos : 0 < alloc_size P) (xs : List α) (target : α)
    {q : queue α} (hq : well_formed q) (hempty : q.m_size = 0)
    (hbytes : bytes_fit P (q.m_current + q.m_size + xs.length - 1 + alloc_size P)) :
    ∃ r, dequeue_n P xs.length (enqueue_all P q xs) target = some (r, xs) := by
  have hb := hq.bounds
  obtain ⟨e1, e2, e3⟩ := enqueue_all_spec P hpos xs hq hbytes
  obtain ⟨r, vs, d1, _, d3, _, d5, _⟩ := dequeue_n_spec P xs.length e1 target (by rw [e3]; omega)
  have hr : contents r = [] := contents_eq_nil (by rw [d5, e3]; omega)
  rw [e2, contents_eq_nil hempty, hr, List.nil_append, List.append_nil] at d3
  exact ⟨r, by rw [d1, map_some_injective d3]⟩

/-! ## The claims -/


/-- C1, as stated, fails: with the default constants, an element type of 8 bytes and
`nofInitialGroups = 2 ^ 58`, the constructor sets `m_capacity = 2 ^ 63` and `allocate`
requests `8 * 2 ^ 63` bytes, a product that wraps to 0: the store has no slot at all. The
`enqueue` of 7 finds free capacity, does not resize and writes slot 0, outside the store; the
`dequeue` that follows does not yield 7. -/
theorem fifo_order_counterexample :
    0 < alloc_size (default_params true 8) ∧
      fits (default_params true 8)
        (construct (default_params true 8) 288230376151711744 : queue Nat) [7].length ∧
      (construct (default_params true 8) 288230376151711744 : queue Nat).m_capacity =
        9223372036854775808 ∧
      (construct (default_params true 8) 288230376151711744 : queue Nat).m_backingStore = [] ∧
      (construct (default_params true 8) 288230376151711744 : queue Nat).enqueue_pointer = 0 ∧
      ¬ ∃ r, dequeue_n (default_params true 8) [7].length
        (enqueue_all (default_params true 8)
          (construct (default_params true 8) 288230376151711744) [7]) 0 = some (r, [7]) :=
  ⟨by decide, by decide, by decide, by decide, by decide, by
    intro ⟨r, h⟩
    have h2 := congrArg (Option.map Prod.snd) h
    simp only [Option.map_some'] at h2
    exact absurd h2 (by decide)⟩

/-- C1, amended (FIFO order): on a freshly constructed queue (positive `alloc_size`) for
which the largest store the calls may request has a byte count below `2 ^ 64`
(`store_fits`: `element_size * (m_capacity + N + alloc_size)` does not wrap), one `enqueue`
call per element of `xs` followed by `xs.length` calls of the blocking `dequeue` never waits
and yields exactly `xs`, in order; growth and compaction on the way do not matter. -/
theorem fifo_order (P : params) (nofInitialGroups : Nat) (xs : List α) (target : α)
    (hpos : 0 < alloc_size P)
    (hbytes : store_fits P (construct P nofInitialGroups : queue α) xs.length) :
    ∃ r, dequeue_n P xs.length (enqueue_all P (construct P nofInitialGroups) xs) target =
      some (r, xs) := by
  have hq := construct_well_formed (α := α) P nofInitialGroups
    (bytes_fit_mono P (by omega) hbytes)
  have hb := hq.bounds
  have hs0 : (construct P nofInitialGroups : queue α).m_size = 0 := rfl
  obtain ⟨e1, e2, e3⟩ := enqueue_all_spec P hpos xs hq (bytes_fit_mono P (by omega) hbytes)
  obtain ⟨r, vs, d1, _, d3, _, d5, _⟩ := dequeue_n_spec P xs.length e1 target (by rw [e3]; omega)
  refine ⟨r, ?_⟩
  have hr : contents r = [] := contents_eq_nil (by rw [d5, e3]; omega)
  have hc : contents (construct P nofInitialGroups : queue α) = [] := contents_eq_nil rfl
  rw [e2, hc, hr, List.nil_append, List.append_nil] at d3
  rw [d1, map_some_injective d3]

/-- Witness of `fifo_order`: forty values through a default queue of 32 slots, which grows
once and compacts on the way out. -/
theorem fifo_order_witness :
    0 < alloc_size (default_params false 8) ∧
      store_fits (default_params false 8) (construct (default_params false 8) 1 : queue Nat)
        (List.range 40).length ∧
      ∃ r, dequeue_n (default_params false 8) (List.range 40).length
        (enqueue_all (default_params false 8) (construct (default_params false 8) 1)
          (List.range 40)) 0 = some (r, List.range 40) :=
  ⟨by decide, by decide,
    fifo_order (default_params false 8) 1 (List.range 40) 0 (by decide) (by decide)⟩

/-- C3 (growth correctness): with the default constants 8 and 4, `construct(1)` has capacity
32; after 33 single enqueues the capacity is 64, hence at least 64, and `m_size` is 33; 33
blocking dequeues then return the 33 values in their original order, for every element type
for which the 64 slots do not exceed the range of `std::size_t` in bytes. It holds for either
kind of element type and every element size. -/
theorem growth_correctness (tc : Bool) (es : Nat) (xs : List α) (target : α)
    (hlen : xs.length = 33) :
    (construct (default_params tc es) 1 : queue α).m_capacity = 32 ∧
      64 ≤ (enqueue_all (default_params tc es) (construct (default_params tc es) 1) xs).m_capacity ∧
      (enqueue_all (default_params tc es) (construct (default_params tc es) 1) xs).m_capacity = 64 ∧
      (enqueue_all (default_params tc es) (construct (default_params tc es) 1) xs).m_size = 33 ∧
      (bytes_fit (default_params tc es) 64 →
        ∃ r, dequeue_n (default_params tc es) 33
          (enqueue_all (default_params tc es) (construct (default_params tc es) 1) xs) target =
            some (r, xs)) := by
  have ha := alloc_size_default tc es
  have hpos : 0 < alloc_size (default_params tc es) := by rw [ha]; decide
  have hc0 : (construct (default_params tc es) 1 : queue α).m_capacity = 32 := rfl
  have hq := construct_counters (α := α) (default_params tc es) 1
  have hs0 : (construct (default_params tc es) 1 : queue α).m_size = 0 := rfl
  have hcur0 : (construct (default_params tc es) 1 : queue α).m_current = 0 := rfl
  have hcap : (enqueue_all (default_params tc es) (construct (default_params tc es) 1) xs).m_capacity
      = 64 := by
    have hsplit : xs = xs.take 32 ++ xs.drop 32 := (List.take_append_drop 32 xs).symm
    have hl1 : (xs.take 32).length = 32 := by rw [List.length_take, hlen]; rfl
    have hl2 : (xs.drop 32).length = 1 := by rw [List.length_drop, hlen]
    obtain ⟨x, hx⟩ := List.length_eq_one.1 hl2
    obtain ⟨a1, a3⟩ := enqueue_all_counters (default_params tc es) hpos (xs.take 32) hq
      (by rw [hs0, hcur0, hl1, ha]; decide)
    obtain ⟨b1, b2⟩ := enqueue_all_no_growth (default_params tc es) hpos (xs.take 32) hq
      (by rw [hs0, hcur0, hl1, hc0])
    have hfull : (enqueue_all (default_params tc es) (construct (default_params tc es) 1)
        (xs.take 32)).m_current + (enqueue_all (default_params tc es)
        (construct (default_params tc es) 1) (xs.take 32)).m_size = (enqueue_all (default_params tc es)
        (construct (default_params tc es) 1) (xs.take 32)).m_capacity := by
      rw [b1, b2, a3, hs0, hcur0, hl1, hc0]
    obtain ⟨_, _, e4, _⟩ := do_enqueue_counters (default_params tc es) a1 x hpos
      (fun _ => by rw [b1, hc0, ha]; decide)
    rw [if_pos hfull, b1, hc0, ha] at e4
    rw [hsplit, enqueue_all_append, hx]
    exact e4
  obtain ⟨e1, e3⟩ := enqueue_all_counters (default_params tc es) hpos xs hq
    (by rw [hs0, hcur0, hlen, ha]; decide)
  refine ⟨hc0, by omega, hcap, by rw [e3, hs0, hlen], fun hbytes => ?_⟩
  have hw := construct_well_formed (α := α) (default_params tc es) 1
    (bytes_fit_mono _ (by rw [hc0]; decide) hbytes)
  obtain ⟨r, hr⟩ := round_trip (default_params tc es) hpos xs target hw hs0
    (bytes_fit_mono _ (by rw [hs0, hcur0, hlen, ha]) hbytes)
  exact ⟨r, by rw [← hlen]; exact hr⟩

/-- Witness of `growth_correctness`: the values 0 to 32 through a queue of a trivially
copyable element type. -/
theorem growth_correctness_witness :
    (List.range 33).length = 33 ∧
      (enqueue_all (default_params true 8) (construct (default_params true 8) 1)
        (List.range 33)).m_capacity = 64 ∧
      ∃ r, dequeue_n (default_params true 8) 33
        (enqueue_all (default_params true 8) (construct (default_params true 8) 1) (List.range 33)) 0 =
          some (r, List.range 33) :=
  ⟨by decide, (growth_correctness true 8 (List.range 33) 0 (by decide)).2.2.1,
    (growth_correctness true 8 (List.range 33) 0 (by decide)).2.2.2.2 (by decide)⟩


/-- C4, as stated, fails: with `BlockSize = 2 ^ 61 - 2`, `GroupSize = 1`, an element type of
8 bytes and `nofInitialGroups = 7 * 2 ^ 60 - 1` the constructor builds a queue of capacity 2
(the product wraps) with a store of two slots. Two single `enqueue` calls fill the two slots
without a resize. `enqueue(block)` of the same two values finds `blockSize >= availableSlots`
and resizes to `2 + (2 ^ 61 - 2) = 2 ^ 61` elements first: `allocate` requests `8 * 2 ^ 61`
bytes, which wraps to 0, and the block is written outside the new store. The live slots of
the two results differ. Likewise, with the default constants, the block `[7]` enqueued into
the reachable empty queue `construct(2 ^ 58)` (capacity `2 ^ 63`, store of 0 bytes) does not
come back from a block dequeue of the same length. -/
theorem block_single_equivalence_counterexample :
    reachable
        { BlockSize := 2305843009213693950, GroupSize := 1, trivially_copyable := true,
          element_size := 8 }
        (construct
          { BlockSize := 2305843009213693950, GroupSize := 1, trivially_copyable := true,
            element_size := 8 }
          8070450532247928831 : queue Nat) ∧
      fits
        { BlockSize := 2305843009213693950, GroupSize := 1, trivially_copyable := true,
          element_size := 8 }
        (construct
          { BlockSize := 2305843009213693950, GroupSize := 1, trivially_copyable := true,
            element_size := 8 }
          8070450532247928831 : queue Nat) [1, 2].length ∧
      (enqueue_all
        { BlockSize := 2305843009213693950, GroupSize := 1, trivially_copyable := true,
          element_size := 8 }
        (construct
          { BlockSize := 2305843009213693950, GroupSize := 1, trivially_copyable := true,
            element_size := 8 }
          8070450532247928831 : queue Nat) [1, 2]).m_backingStore = [some 1, some 2] ∧
      (enqueue_block
        { BlockSize := 2305843009213693950, GroupSize := 1, trivially_copyable := true,
          element_size := 8 }
        (construct
          { BlockSize := 2305843009213693950, GroupSize := 1, trivially_copyable := true,
            element_size := 8 }
          8070450532247928831 : queue Nat) [1, 2]).m_backingStore = [] ∧
      (enqueue_block
        { BlockSize := 2305843009213693950, GroupSize := 1, trivially_copyable := true,
          element_size := 8 }
        (construct
          { BlockSize := 2305843009213693950, GroupSize := 1, trivially_copyable := true,
            element_size := 8 }
          8070450532247928831 : queue Nat) [1, 2]).m_size =
        (enqueue_all
        { BlockSize := 2305843009213693950, GroupSize := 1, trivially_copyable := true,
          element_size := 8 }
        (construct
          { BlockSize := 2305843009213693950, GroupSize := 1, trivially_copyable := true,
            element_size := 8 }
          8070450532247928831 : queue Nat) [1, 2]).m_size ∧
      contents (enqueue_block
        { BlockSize := 2305843009213693950, GroupSize := 1, trivially_copyable := true,
          element_size := 8 }
        (construct
          { BlockSize := 2305843009213693950, GroupSize := 1, trivially_copyable := true,
            element_size := 8 }
          8070450532247928831 : queue Nat) [1, 2]) ≠
        contents (enqueue_all
        { BlockSize := 2305843009213693950, GroupSize := 1, trivially_copyable := true,
          element_size := 8 }
        (construct
          { BlockSize := 2305843009213693950, GroupSize := 1, trivially_copyable := true,
            element_size := 8 }
          8070450532247928831 : queue Nat) [1, 2]) ∧
      reachable (default_params true 8)
        (construct (default_params true 8) 288230376151711744 : queue Nat) ∧
      fits (default_params true 8)
        (construct (default_params true 8) 288230376151711744 : queue Nat) [7].length ∧
      (construct (default_params true 8) 288230376151711744 : queue Nat).m_size = 0 ∧
      (construct (default_params true 8) 288230376151711744 : queue Nat).m_backingStore = [] ∧
      ¬ ∃ r, dequeue_block (default_params true 8)
        (enqueue_block (default_params true 8)
          (construct (default_params true 8) 288230376151711744) [7]) [0] = some (r, [7]) :=
  ⟨reachable.construct _, by decide, by decide, by decide, by decide, by decide,
    reachable.construct _, by decide, by decide, by decide, by
    intro ⟨r, h⟩
    have h2 := congrArg (Option.map Prod.snd) h
    simp only [Option.map_some'] at h2
    exact absurd h2 (by decide)⟩

/-- C4, amended (block/single equivalence): in every reachable state, `enqueue(block)` leaves
the same `m_size` as one `enqueue` call per element and, when the store it may request has a
byte count below `2 ^ 64` (`store_fits`), the same live element sequence; when the byte
count of the store of the state is below `2 ^ 64` (`bytes_fit`), a block `dequeue` into a
destination of length `n` (with `n` elements present) returns the same values in the same
order as `n` single `dequeue` calls and leaves the same live elements; under `store_fits` a
block enqueued into an empty queue comes back unchanged from a block dequeue of the same
length. -/
theorem block_single_equivalence (P : params) (hpos : 0 < alloc_size P) (q : queue α)
    (hq : reachable P q) :
    (∀ xs : List α, fits P q xs.length →
      (enqueue_block P q xs).m_size = (enqueue_all P q xs).m_size ∧
      (store_fits P q xs.length →
        contents (enqueue_block P q xs) = contents (enqueue_all P q xs))) ∧
    (bytes_fit P q.m_capacity → ∀ (block : List α) (target : α), block.length ≤ q.m_size →
      ∃ r1 r2 out, dequeue_block P q block = some (r1, out) ∧
        dequeue_n P block.length q target = some (r2, out) ∧
        contents r1 = contents r2 ∧ r1.m_size = r2.m_size) ∧
    (∀ xs block : List α, store_fits P q xs.length → q.m_size = 0 →
      block.length = xs.length →
      ∃ r, dequeue_block P (enqueue_block P q xs) block = some (r, xs)) := by
  have hc := reachable_counters P hpos hq
  have hb := hc.bounds
  refine ⟨?_, ?_, ?_⟩
  · intro xs hfit
    obtain ⟨_, b3, _, _⟩ := do_enqueue_block_counters P hc xs hpos hfit
    obtain ⟨_, a3⟩ := enqueue_all_counters P hpos xs hc (by unfold fits at hfit; omega)
    unfold enqueue_block
    refine ⟨by rw [b3, a3], fun hbytes => ?_⟩
    have hw := reachable_well_formed P hpos hq (bytes_fit_mono P (by omega) hbytes)
    obtain ⟨_, b2, _, _, _⟩ := do_enqueue_block_spec P hw xs hpos hbytes
    obtain ⟨_, a2, _⟩ := enqueue_all_spec P hpos xs hw (bytes_fit_mono P (by omega) hbytes)
    rw [b2, a2]
  · intro hbytes block target hn
    have hw := reachable_well_formed P hpos hq hbytes
    obtain ⟨_, b2, b3, b4, _, _⟩ := do_dequeue_block_spec P hw block hn
    obtain ⟨r2, vs, d1, _, d3, d4, d5, _⟩ := dequeue_n_spec P block.length hw target hn
    have hlen : ((do_dequeue_block P q block).2.map some).length = (vs.map some).length := by
      rw [List.length_map, List.length_map, b3, length_memcpy_out, d4]
    have happ := List.append_inj (b2.symm.trans d3) hlen
    refine ⟨(do_dequeue_block P q block).1, r2, vs, ?_, d1, happ.2, by rw [b4, d5]⟩
    rw [dequeue_block_eq_some P q block hn, ← map_some_injective happ.1]
  · intro xs block hbytes hempty hlen
    have hw := reachable_well_formed P hpos hq (bytes_fit_mono P (by omega) hbytes)
    obtain ⟨e1, e2, e3, _, _⟩ := do_enqueue_block_spec P hw xs hpos hbytes
    have hn : block.length ≤ (do_enqueue_block P q xs).m_size := by rw [e3, hlen]; omega
    obtain ⟨_, b2, b3, b4, _, _⟩ := do_dequeue_block_spec P e1 block hn
    have hr : contents (do_dequeue_block P (do_enqueue_block P q xs) block).1 = [] :=
      contents_eq_nil (by rw [b4, e3, hlen]; omega)
    rw [e2, contents_eq_nil hempty, hr, List.nil_append, List.append_nil] at b2
    unfold enqueue_block
    refine ⟨(do_dequeue_block P (do_enqueue_block P q xs) block).1, ?_⟩
    rw [dequeue_block_eq_some P _ block hn]
    exact congrArg some (Prod.ext rfl (map_some_injective b2).symm)

/-- Witness of `block_single_equivalence`: the vector `[10, 20, 30]` enqueued into a fresh
queue and dequeued into a destination of three elements. -/
theorem block_single_equivalence_witness :
    0 < alloc_size (default_params false 8) ∧
      reachable (default_params false 8) (construct (default_params false 8) 1 : queue Nat) ∧
      ∃ r, dequeue_block (default_params false 8)
        (enqueue_block (default_params false 8) (construct (default_params false 8) 1) [10, 20, 30])
        [0, 0, 0] = some (r, [10, 20, 30]) :=
  ⟨by decide, reachable.construct 1,
    (block_single_equivalence (default_params false 8) (by decide) _ (reachable.construct 1)).2.2
      [10, 20, 30] [0, 0, 0] (by decide) rfl rfl⟩


/-- C5, as stated, fails: with the default constants and an element type of 8 bytes, the
queue built by `construct(2 ^ 58)` is reachable, with `m_capacity = 2 ^ 63` and a store of no
slot (`allocate` requested `8 * 2 ^ 63` bytes, which wraps to 0). `enqueue(7)` writes slot 0,
outside the store, so the live slots do not hold the old contents followed by 7; and
`resize` to `2 ^ 61` elements, whose byte count wraps to 0 as well, loses the two live
elements of a four-slot store. -/
theorem refines_list_fifo_counterexample :
    reachable (default_params true 8)
        (construct (default_params true 8) 288230376151711744 : queue Nat) ∧
      fits (default_params true 8)
        (construct (default_params true 8) 288230376151711744 : queue Nat) 1 ∧
      (construct (default_params true 8) 288230376151711744 : queue Nat).m_backingStore = [] ∧
      contents (enqueue (default_params true 8)
          (construct (default_params true 8) 288230376151711744 : queue Nat) 7) ≠
        contents (construct (default_params true 8) 288230376151711744 : queue Nat) ++
          [some 7] ∧
      contents (resize (default_params true 8)
          ({ m_capacity := 4, m_current := 1, m_size := 2,
             m_backingStore := [none, some 5, some 6, none] } : queue Nat)
          2305843009213693952) ≠
        contents ({ m_capacity := 4, m_current := 1, m_size := 2,
                    m_backingStore := [none, some 5, some 6, none] } : queue Nat) :=
  ⟨reachable.construct _, by decide, by decide, by decide, by decide⟩

/-- C5, amended (refinement of a list FIFO): with `contents` the slots
`[m_current, m_current + m_size)` in index order, in every reachable state: when the store
the call may request has a byte count below `2 ^ 64` (`store_fits`), `enqueue(v)` appends `v`
and `enqueue(block)` appends the block; when the byte count of the store of the state is
below `2 ^ 64` (`bytes_fit`), `dequeue` returns the head and leaves the tail and a block
`dequeue` of length `n <= m_size` returns the first `n` elements in order and leaves the
rest; and wherever the operations call them, on any well-formed intermediate state, `resize`
(to at least `m_size` elements, with a byte count below `2 ^ 64`) and `shift_down` (once
`m_current > m_capacity / 2`) leave `contents` as it is. -/
theorem refines_list_fifo (P : params) (hpos : 0 < alloc_size P) (q : queue α)
    (hq : reachable P q) :
    (∀ v : α, store_fits P q 1 → contents (enqueue P q v) = contents q ++ [some v]) ∧
    (∀ block : List α, store_fits P q block.length →
      contents (enqueue_block P q block) = contents q ++ block.map some) ∧
    (bytes_fit P q.m_capacity → ∀ target : α, 0 < q.m_size →
      ∃ r out, dequeue P q target = some (r, out) ∧ contents q = some out :: contents r) ∧
    (bytes_fit P q.m_capacity → ∀ block : List α, block.length ≤ q.m_size →
      ∃ r out, dequeue_block P q block = some (r, out) ∧ out.length = block.length ∧
        contents q = out.map some ++ contents r) ∧
    (∀ s : queue α, well_formed s → ∀ elements, s.m_size ≤ elements →
      bytes_fit P elements → contents (resize P s elements) = contents s) ∧
    (∀ s : queue α, well_formed s → s.m_current > s.m_capacity / 2 →
      contents (shift_down P s) = contents s) := by
  have hc := reachable_counters P hpos hq
  have hb := hc.bounds
  refine ⟨?_, ?_, ?_, ?_, ?_, ?_⟩
  · intro v hbytes
    have hw := reachable_well_formed P hpos hq (bytes_fit_mono P (by omega) hbytes)
    exact (do_enqueue_spec P hw v hpos (fun _ => bytes_fit_mono P (by omega) hbytes)).2.1
  · intro block hbytes
    have hw := reachable_well_formed P hpos hq (bytes_fit_mono P (by omega) hbytes)
    exact (do_enqueue_block_spec P hw block hpos hbytes).2.1
  · intro hbytes target hs
    have hw := reachable_well_formed P hpos hq hbytes
    exact ⟨(do_dequeue P q target).1, (do_dequeue P q target).2,
      dequeue_eq_some P q target hs, (do_dequeue_spec P hw target hs).2.1⟩
  · intro hbytes block hn
    have hw := reachable_well_formed P hpos hq hbytes
    obtain ⟨_, b2, b3, _⟩ := do_dequeue_block_spec P hw block hn
    exact ⟨(do_dequeue_block P q block).1, (do_dequeue_block P q block).2,
      dequeue_block_eq_some P q block hn, by rw [b3, length_memcpy_out], b2⟩
  · intro s hs elements he hbytes
    exact resize_contents P hs elements he hbytes
  · intro s hs hc
    have hb := hs.bounds
    exact shift_down_contents P hs (by omega)

/-- Witness of `refines_list_fifo`: a queue holding `[1, 2, 3]` receives `4`. -/
theorem refines_list_fifo_witness :
    0 < alloc_size (default_params false 8) ∧
      reachable (default_params false 8)
        (enqueue_block (default_params false 8) (construct (default_params false 8) 1) [1, 2, 3]) ∧
      contents (enqueue (default_params false 8)
        (enqueue_block (default_params false 8) (construct (default_params false 8) 1) [1, 2, 3]) 4) =
        contents (enqueue_block (default_params false 8) (construct (default_params false 8) 1)
          [1, 2, 3]) ++ [some 4] :=
  ⟨by decide, reachable.enqueue_block [1, 2, 3] (reachable.construct 1) (by decide),
    (refines_list_fifo (default_params false 8) (by decide) _
      (reachable.enqueue_block [1, 2, 3] (reachable.construct 1) (by decide))).1 4 (by decide)⟩

/-- C8, as stated, fails: with `BlockSize = 2 ^ 61 - 2`, `GroupSize = 1`, an element type of
8 bytes and `nofInitialGroups = 7 * 2 ^ 60 - 1` the constructor builds a queue of capacity 2
(the product wraps). After `enqueue(1)` and `enqueue(2)` the queue is full, and `enqueue(3)`
resizes to `2 + (2 ^ 61 - 2) = 2 ^ 61` elements: `allocate` requests `8 * 2 ^ 61` bytes, which
wraps to 0, so the new store has no slot and the two live elements are not in it. The count
becomes 3, the previously live elements are gone. -/
theorem enqueue_count_postcondition_counterexample :
    reachable
        { BlockSize := 2305843009213693950, GroupSize := 1, trivially_copyable := true,
          element_size := 8 }
        (enqueue
          { BlockSize := 2305843009213693950, GroupSize := 1, trivially_copyable := true,
            element_size := 8 }
          (enqueue
            { BlockSize := 2305843009213693950, GroupSize := 1, trivially_copyable := true,
              element_size := 8 }
            (construct
              { BlockSize := 2305843009213693950, GroupSize := 1, trivially_copyable := true,
                element_size := 8 }
              8070450532247928831 : queue Nat) 1) 2) ∧
      fits
        { BlockSize := 2305843009213693950, GroupSize := 1, trivially_copyable := true,
          element_size := 8 }
        (enqueue
          { BlockSize := 2305843009213693950, GroupSize := 1, trivially_copyable := true,
            element_size := 8 }
          (enqueue
            { BlockSize := 2305843009213693950, GroupSize := 1, trivially_copyable := true,
              element_size := 8 }
            (construct
              { BlockSize := 2305843009213693950, GroupSize := 1, trivially_copyable := true,
                element_size := 8 }
              8070450532247928831 : queue Nat) 1) 2) 1 ∧
      contents (enqueue
          { BlockSize := 2305843009213693950, GroupSize := 1, trivially_copyable := true,
            element_size := 8 }
          (enqueue
            { BlockSize := 2305843009213693950, GroupSize := 1, trivially_copyable := true,
              element_size := 8 }
            (construct
              { BlockSize := 2305843009213693950, GroupSize := 1, trivially_copyable := true,
                element_size := 8 }
              8070450532247928831 : queue Nat) 1) 2) = [some 1, some 2] ∧
      (enqueue
          { BlockSize := 2305843009213693950, GroupSize := 1, trivially_copyable := true,
            element_size := 8 }
          (enqueue
            { BlockSize := 2305843009213693950, GroupSize := 1, trivially_copyable := true,
              element_size := 8 }
            (enqueue
              { BlockSize := 2305843009213693950, GroupSize := 1, trivially_copyable := true,
                element_size := 8 }
              (construct
                { BlockSize := 2305843009213693950, GroupSize := 1,
                  trivially_copyable := true, element_size := 8 }
                8070450532247928831 : queue Nat) 1) 2) 3).m_capacity =
        2305843009213693952 ∧
      (contents (enqueue
          { BlockSize := 2305843009213693950, GroupSize := 1, trivially_copyable := true,
            element_size := 8 }
          (enqueue
            { BlockSize := 2305843009213693950, GroupSize := 1, trivially_copyable := true,
              element_size := 8 }
            (enqueue
              { BlockSize := 2305843009213693950, GroupSize := 1, trivially_copyable := true,
                element_size := 8 }
              (construct
                { BlockSize := 2305843009213693950, GroupSize := 1,
                  trivially_copyable := true, element_size := 8 }
                8070450532247928831 : queue Nat) 1) 2) 3)).take 2 = [] :=
  ⟨reachable.enqueue 2 (reachable.enqueue 1 (reachable.construct _) (by decide)) (by decide),
    by decide, by decide, by decide, by decide⟩

/-- C8, amended (enqueue count postcondition): in every reachable state `enqueue(v)` raises
`m_size` by exactly 1 and `enqueue(block)` by exactly `block.size()` (0 for an empty block),
whether the store grows or not; and, when the store the call may request has a byte count
below `2 ^ 64` (`store_fits`), the previously live elements stay, with their values and
order, at the front of the live range. -/
theorem enqueue_count_postcondition (P : params) (hpos : 0 < alloc_size P) (q : queue α)
    (hq : reachable P q) :
    (∀ v : α, fits P q 1 →
      (enqueue P q v).m_size = q.m_size + 1 ∧
      (store_fits P q 1 → (contents (enqueue P q v)).take q.m_size = contents q)) ∧
    (∀ block : List α, fits P q block.length →
      (enqueue_block P q block).m_size = q.m_size + block.length ∧
      (store_fits P q block.length →
        (contents (enqueue_block P q block)).take q.m_size = contents q)) ∧
    (fits P q 0 → (enqueue_block P q []).m_size = q.m_size) := by
  have hc := reachable_counters P hpos hq
  have hb := hc.bounds
  refine ⟨?_, ?_, ?_⟩
  · intro v hfit
    obtain ⟨_, e3, _, _⟩ :=
      do_enqueue_counters P hc v hpos (fun _ => by unfold fits at hfit; omega)
    unfold enqueue
    refine ⟨e3, fun hbytes => ?_⟩
    have hw := reachable_well_formed P hpos hq (bytes_fit_mono P (by omega) hbytes)
    have e2 := (do_enqueue_spec P hw v hpos (fun _ => bytes_fit_mono P (by omega) hbytes)).2.1
    rw [e2, ← length_contents hw, List.take_left]
  · intro block hfit
    obtain ⟨_, e3, _, _⟩ := do_enqueue_block_counters P hc block hpos hfit
    unfold enqueue_block
    refine ⟨e3, fun hbytes => ?_⟩
    have hw := reachable_well_formed P hpos hq (bytes_fit_mono P (by omega) hbytes)
    have e2 := (do_enqueue_block_spec P hw block hpos hbytes).2.1
    rw [e2, ← length_contents hw, List.take_left]
  · intro hfit
    exact (do_enqueue_block_counters P hc [] hpos hfit).2.1

/-- Witness of `enqueue_count_postcondition`: a full queue of 32 elements grows on the next
`enqueue` and its size becomes 33. -/
theorem enqueue_count_postcondition_witness :
    0 < alloc_size (default_params false 8) ∧
      reachable (default_params false 8)
        (enqueue_block (default_params false 8) (construct (default_params false 8) 1)
          (List.range 32)) ∧
      (enqueue (default_params false 8)
        (enqueue_block (default_params false 8) (construct (default_params false 8) 1)
          (List.range 32)) 99).m_size =
        (enqueue_block (default_params false 8) (construct (default_params false 8) 1)
          (List.range 32)).m_size + 1 :=
  ⟨by decide, reachable.enqueue_block (List.range 32) (reachable.construct 1) (by decide),
    ((enqueue_count_postcondition (default_params false 8) (by decide) _
      (reachable.enqueue_block (List.range 32) (reachable.construct 1) (by decide))).1 99
      (by decide)).1⟩

/-- C9 (non-blocking failure is atomic): `try_dequeue(target)` on a queue with `m_size = 0`
and `try_dequeue(block)` on a queue with `m_size < block.size()` return `false` and leave the
whole queue (capacity, cursor, size and every slot of the store) and the destination as they
were. It holds in every state, reachable or not. -/
theorem try_dequeue_failure_atomic (P : params) (q : queue α) :
    (∀ target : α, q.m_size = 0 → try_dequeue P q target = (false, q, target)) ∧
    (∀ block : List α, q.m_size < block.length →
      try_dequeue_block P q block = (false, q, block)) := by
  refine ⟨?_, ?_⟩
  · intro target h
    unfold try_dequeue
    rw [if_pos h]
  · intro block h
    unfold try_dequeue_block
    rw [if_pos h]

/-- Witness of `try_dequeue_failure_atomic`: a block of three asked from a queue of two. -/
theorem try_dequeue_failure_atomic_witness :
    (enqueue_block (default_params true 8) (construct (default_params true 8) 1) [1, 2]).m_size <
        [0, 0, 0].length ∧
      try_dequeue_block (default_params true 8)
        (enqueue_block (default_params true 8) (construct (default_params true 8) 1) [1, 2])
        [0, 0, 0] =
        (false, enqueue_block (default_params true 8) (construct (default_params true 8) 1) [1, 2],
          [0, 0, 0]) :=
  ⟨by decide, (try_dequeue_failure_atomic (default_params true 8) _).2 [0, 0, 0] (by decide)⟩

/-- C10 (`try_dequeue` succeeds exactly when enough elements exist): `try_dequeue(target)`
returns `true` iff `m_size >= 1` and `try_dequeue(block)` returns `true` iff
`m_size >= block.size()`; whenever it returns `true`, the blocking `dequeue` in the same
state does not wait and yields the same queue and the same destination. -/
theorem try_dequeue_iff (P : params) (q : queue α) :
    (∀ target : α, ((try_dequeue P q target).1 = true ↔ 1 ≤ q.m_size) ∧
      ((try_dequeue P q target).1 = true →
        dequeue P q target = some ((try_dequeue P q target).2.1, (try_dequeue P q target).2.2))) ∧
    (∀ block : List α, ((try_dequeue_block P q block).1 = true ↔ block.length ≤ q.m_size) ∧
      ((try_dequeue_block P q block).1 = true →
        dequeue_block P q block =
          some ((try_dequeue_block P q block).2.1, (try_dequeue_block P q block).2.2))) := by
  refine ⟨?_, ?_⟩
  · intro target
    unfold try_dequeue dequeue
    by_cases h : q.m_size = 0
    · rw [if_pos h]
      exact ⟨⟨fun hf => (by cases hf), fun hs => (by omega)⟩, fun hf => (by cases hf)⟩
    · rw [if_neg h, if_pos (by omega)]
      exact ⟨⟨fun _ => (by omega), fun _ => rfl⟩, fun _ => rfl⟩
  · intro block
    unfold try_dequeue_block dequeue_block
    by_cases h : q.m_size < block.length
    · rw [if_pos h]
      exact ⟨⟨fun hf => (by cases hf), fun hs => (by omega)⟩, fun hf => (by cases hf)⟩
    · rw [if_neg h, if_pos (by omega)]
      exact ⟨⟨fun _ => (by omega), fun _ => rfl⟩, fun _ => rfl⟩

/-- Witness of `try_dequeue_iff`: on a queue holding `[1, 2]` the non-blocking call succeeds
and agrees with the blocking one. -/
theorem try_dequeue_iff_witness :
    (try_dequeue (default_params false 8)
        (enqueue_block (default_params false 8) (construct (default_params false 8) 1) [1, 2]) 0).1 =
        true ∧
      dequeue (default_params false 8)
        (enqueue_block (default_params false 8) (construct (default_params false 8) 1) [1, 2]) 0 =
        some ((try_dequeue (default_params false 8)
            (enqueue_block (default_params false 8) (construct (default_params false 8) 1) [1, 2])
            0).2.1,
          (try_dequeue (default_params false 8)
            (enqueue_block (default_params false 8) (construct (default_params false 8) 1) [1, 2])
            0).2.2) :=
  ⟨by decide, ((try_dequeue_iff (default_params false 8)
    (enqueue_block (default_params false 8) (construct (default_params false 8) 1) [1, 2])).1 0).2
    (by decide)⟩

/-! ## Capacity under single calls -/

theorem do_enqueue_size_eq (P : params) (q : queue α) (element : α) :
    (do_enqueue P q element).m_size = sz_add q.m_size 1 := by
  unfold do_enqueue
  dsimp only
  split <;> rfl

theorem count_stays_within_head (P : params) (bound : Nat) (q : queue α)
    (calls : List (single_call α)) (h : count_stays_within P bound q calls = true) :
    q.m_size ≤ bound := by
  cases calls with
  | nil => simpa [count_stays_within] using h
  | cons c cs =>
    simp only [count_stays_within, Bool.and_eq_true, decide_eq_true_eq] at h
    exact h.1

theorem capacity_stays_of_half (P : params) (hpos : 0 < alloc_size P) (capacity : Nat)
    (calls : List (single_call α)) {q : queue α} (hq : counters_ok q)
    (hcap : q.m_capacity = capacity) (hcur : q.m_current ≤ capacity / 2)
    (h : count_stays_within P (capacity - capacity / 2) q calls = true) :
    capacity_stays P capacity q calls = true := by
  induction calls generalizing q with
  | nil => simpa [capacity_stays] using hcap
  | cons c cs ih =>
    simp only [count_stays_within, Bool.and_eq_true, decide_eq_true_eq] at h
    simp only [capacity_stays, Bool.and_eq_true, decide_eq_true_eq]
    refine ⟨hcap, ?_⟩
    obtain ⟨h1, h2⟩ := h
    have hb := hq.bounds
    have hlt := hq.capacity_lt
    cases c with
    | enqueue elem =>
      simp only [call_single] at h2 ⊢
      have h3 := count_stays_within_head P _ _ _ h2
      unfold enqueue at h3
      rw [do_enqueue_size_eq, sz_add, size_mod_eq] at h3
      rw [size_mod_eq] at hlt
      have hne : ¬ q.m_current + q.m_size = q.m_capacity := by omega
      obtain ⟨e1, _, e4, e5⟩ := do_enqueue_counters P hq elem hpos (fun hf => absurd hf hne)
      rw [if_neg hne] at e4 e5
      exact ih e1 (e4.trans hcap) (by unfold enqueue; rw [e5]; exact hcur) h2
    | dequeue target =>
      simp only [call_single] at h2 ⊢
      unfold dequeue at h2 ⊢
      by_cases hs : q.m_size > 0
      · rw [if_pos hs] at h2 ⊢
        simp only [Option.map_some'] at h2 ⊢
        obtain ⟨d1, _, d5, d6⟩ := do_dequeue_counters P hq target hs
        refine ih d1 (d5.trans hcap) ?_ h2
        rw [d6, hcap]
        split <;> omega
      · rw [if_neg hs]
        rfl

/-- C11, as stated, fails: on a default queue of capacity 32, after 32 single enqueues and one
single dequeue the next single enqueue finds no free slot behind the live range
(`m_current = 1`, `m_size = 31`) and grows the store to 64, although the live count never
exceeded the original capacity 32. -/
theorem idempotent_capacity_counterexample :
    count_stays_within (default_params false 8)
        (construct (default_params false 8) 1 : queue Nat).m_capacity
        (construct (default_params false 8) 1)
        ((List.range 32).map single_call.enqueue ++
          [single_call.dequeue 0, single_call.enqueue 99]) = true ∧
      capacity_stays (default_params false 8)
        (construct (default_params false 8) 1 : queue Nat).m_capacity
        (construct (default_params false 8) 1)
        ((List.range 32).map single_call.enqueue ++
          [single_call.dequeue 0, single_call.enqueue 99]) = false := by
  decide

/-- C11, amended (idempotent capacity): for every sequence of single `enqueue` and single
`dequeue` calls on a freshly constructed queue during which the live count never exceeds
the original capacity minus half of it (`capacity - capacity / 2`), growth is never
triggered: `m_capacity` equals its value at construction after every call. -/
theorem idempotent_capacity_half (P : params) (hpos : 0 < alloc_size P)
    (nofInitialGroups : Nat) (calls : List (single_call α))
    (h : count_stays_within P
      ((construct P nofInitialGroups : queue α).m_capacity -
        (construct P nofInitialGroups : queue α).m_capacity / 2)
      (construct P nofInitialGroups) calls = true) :
    capacity_stays P (construct P nofInitialGroups : queue α).m_capacity
      (construct P nofInitialGroups) calls = true := by
  have hq := construct_counters (α := α) P nofInitialGroups
  have hcur : (construct P nofInitialGroups : queue α).m_current ≤
      (construct P nofInitialGroups : queue α).m_capacity / 2 := Nat.zero_le _
  exact capacity_stays_of_half P hpos _ calls hq rfl hcur h

/-- Witness of `idempotent_capacity_half`: sixteen elements go in, three come out and three
more go in; the live count stays within 16 and the capacity stays 32. -/
theorem idempotent_capacity_half_witness :
    0 < alloc_size (default_params false 8) ∧
      count_stays_within (default_params false 8)
        ((construct (default_params false 8) 1 : queue Nat).m_capacity -
          (construct (default_params false 8) 1 : queue Nat).m_capacity / 2)
        (construct (default_params false 8) 1)
        ((List.range 16).map single_call.enqueue ++
          [single_call.dequeue 0, single_call.dequeue 0, single_call.dequeue 0,
            single_call.enqueue 7, single_call.enqueue 8, single_call.enqueue 9]) = true ∧
      capacity_stays (default_params false 8)
        (construct (default_params false 8) 1 : queue Nat).m_capacity
        (construct (default_params false 8) 1)
        ((List.range 16).map single_call.enqueue ++
          [single_call.dequeue 0, single_call.dequeue 0, single_call.dequeue 0,
            single_call.enqueue 7, single_call.enqueue 8, single_call.enqueue 9]) = true :=
  ⟨by decide, by decide,
    idempotent_capacity_half (default_params false 8) (by decide) 1 _ (by decide)⟩

theorem alloc_size_bulk_path (P : params) : alloc_size (bulk_path P) = alloc_size P := rfl

theorem alloc_size_element_path (P : params) : alloc_size (element_path P) = alloc_size P := rfl

/-- C15 (transfer-path equivalence): the `memcpy`/`memmove` overloads (`bulk_path`) and the
element-wise overloads (`element_path`) agree. In every state the two `do_enqueue_block_impl`
leave the same queue and the two `do_dequeue_block_impl` the same destination. On every
well-formed state, block enqueue, block dequeue, `shift_down` (entered with
`m_current > m_capacity / 2`) and `resize` (to at least `m_size` elements) produce the same
counters, the same live element sequence and the same destination on both paths. -/
theorem transfer_path_equivalence (P : params) :
    (∀ (q : queue α) (block : List α),
      do_enqueue_block_impl (bulk_path P) q block =
        do_enqueue_block_impl (element_path P) q block) ∧
    (∀ (q : queue α) (block : List α),
      (do_dequeue_block_impl (bulk_path P) q block).2 =
        (do_dequeue_block_impl (element_path P) q block).2) ∧
    (∀ (q : queue α) (block : List α), well_formed q → 0 < alloc_size P →
      fits P q block.length →
      (enqueue_block (bulk_path P) q block).m_capacity =
        (enqueue_block (element_path P) q block).m_capacity ∧
      (enqueue_block (bulk_path P) q block).m_current =
        (enqueue_block (element_path P) q block).m_current ∧
      (enqueue_block (bulk_path P) q block).m_size =
        (enqueue_block (element_path P) q block).m_size ∧
      contents (enqueue_block (bulk_path P) q block) =
        contents (enqueue_block (element_path P) q block)) ∧
    (∀ (q : queue α) (block : List α), well_formed q → block.length ≤ q.m_size →
      (do_dequeue_block (bulk_path P) q block).2 =
        (do_dequeue_block (element_path P) q block).2 ∧
      (do_dequeue_block (bulk_path P) q block).1.m_capacity =
        (do_dequeue_block (element_path P) q block).1.m_capacity ∧
      (do_dequeue_block (bulk_path P) q block).1.m_current =
        (do_dequeue_block (element_path P) q block).1.m_current ∧
      (do_dequeue_block (bulk_path P) q block).1.m_size =
        (do_dequeue_block (element_path P) q block).1.m_size ∧
      contents (do_dequeue_block (bulk_path P) q block).1 =
        contents (do_dequeue_block (element_path P) q block).1) ∧
    (∀ s : queue α, well_formed s → s.m_capacity / 2 < s.m_current →
      (shift_down (bulk_path P) s).m_capacity = (shift_down (element_path P) s).m_capacity ∧
      (shift_down (bulk_path P) s).m_current = (shift_down (element_path P) s).m_current ∧
      (shift_down (bulk_path P) s).m_size = (shift_down (element_path P) s).m_size ∧
      contents (shift_down (bulk_path P) s) = contents (shift_down (element_path P) s)) ∧
    (∀ (s : queue α) (elements : Nat), well_formed s → s.m_size ≤ elements →
      (resize (bulk_path P) s elements).m_capacity =
        (resize (element_path P) s elements).m_capacity ∧
      (resize (bulk_path P) s elements).m_current =
        (resize (element_path P) s elements).m_current ∧
      (resize (bulk_path P) s elements).m_size = (resize (element_path P) s elements).m_size ∧
      contents (resize (bulk_path P) s elements) =
        contents (resize (element_path P) s elements)) := by
  refine ⟨?_, ?_, ?_, ?_, ?_, ?_⟩
  · intro q block
    rw [do_enqueue_block_impl_eq, do_enqueue_block_impl_eq]
  · intro q block
    rw [(do_dequeue_block_impl_spec (bulk_path P) q block).1,
      (do_dequeue_block_impl_spec (element_path P) q block).1]
  · intro q block _ _ _
    unfold enqueue_block
    rw [do_enqueue_block_bulk_element]
    exact ⟨rfl, rfl, rfl, rfl⟩
  · intro q block hq hn
    obtain ⟨_, b2, b3, b4, b5, b6⟩ := do_dequeue_block_spec (bulk_path P) hq block hn
    obtain ⟨_, e2, e3, e4, e5, e6⟩ := do_dequeue_block_spec (element_path P) hq block hn
    have hout := b3.trans e3.symm
    refine ⟨hout, b5.trans e5.symm, b6.trans e6.symm, b4.trans e4.symm, ?_⟩
    rw [hout] at b2
    exact List.append_cancel_left (b2.symm.trans e2)
  · intro s hs hc
    have hb := hs.bounds
    have hle : s.m_size ≤ s.m_current := by omega
    exact ⟨(shift_down_capacity _ s).trans (shift_down_capacity _ s).symm, rfl,
      (shift_down_size _ s).trans (shift_down_size _ s).symm,
      (shift_down_contents _ hs hle).trans (shift_down_contents _ hs hle).symm⟩
  · intro s elements _ _
    rw [resize_bulk_element]
    exact ⟨rfl, rfl, rfl, rfl⟩

/-- Witness of `transfer_path_equivalence`: a block dequeue of three elements that ends in
a compaction, on both paths. -/
theorem transfer_path_equivalence_witness :
    (do_dequeue_block (bulk_path (default_params false 8))
        ({ m_capacity := 4, m_current := 1, m_size := 3,
           m_backingStore := [none, some 5, some 6, some 7] } : queue Nat) [0, 0]).2 =
      (do_dequeue_block (element_path (default_params false 8))
        ({ m_capacity := 4, m_current := 1, m_size := 3,
           m_backingStore := [none, some 5, some 6, some 7] } : queue Nat) [0, 0]).2 ∧
      contents (do_dequeue_block (bulk_path (default_params false 8))
        ({ m_capacity := 4, m_current := 1, m_size := 3,
           m_backingStore := [none, some 5, some 6, some 7] } : queue Nat) [0, 0]).1 =
      contents (do_dequeue_block (element_path (default_params false 8))
        ({ m_capacity := 4, m_current := 1, m_size := 3,
           m_backingStore := [none, some 5, some 6, some 7] } : queue Nat) [0, 0]).1 :=
  have h := (transfer_path_equivalence (α := Nat) (default_params false 8)).2.2.2.1
    { m_capacity := 4, m_current := 1, m_size := 3,
      m_backingStore := [none, some 5, some 6, some 7] } [0, 0]
    ⟨rfl, by decide, by decide, fun i h1 h2 => by
      have h3 : i = 1 ∨ i = 2 ∨ i = 3 := by
        simp only at h1 h2; omega
      rcases h3 with rfl | rfl | rfl
      · exact ⟨5, rfl⟩
      · exact ⟨6, rfl⟩
      · exact ⟨7, rfl⟩⟩
    (by decide)
  ⟨h.1, h.2.2.2.2⟩

/-! ## `clear` -/

/-- C16 (code at the failing input): `clear` only resets the two counters. On a queue of a
non-trivially-copyable element type that holds the three elements 1, 2, 3, the call leaves
`m_size = 0` while the slots 0, 1, 2 still hold their objects: no destructor has run. In
general `clear` never touches the store. -/
theorem clear_leaves_elements_constructed :
    (clear (enqueue_block (default_params false 8) (construct (default_params false 8) 1)
        [1, 2, 3] : queue Nat)).m_size = 0 ∧
      (clear (enqueue_block (default_params false 8) (construct (default_params false 8) 1)
        [1, 2, 3] : queue Nat)).m_backingStore.take 3 = [some 1, some 2, some 3] ∧
      ∀ q : queue Nat, (clear q).m_backingStore = q.m_backingStore :=
  ⟨by decide, by decide, fun _ => rfl⟩

/-- C17 (code at the failing input): after `clear` on a queue of a non-trivially-copyable
element type holding 1, 2, 3, a state reachable by public operations, the live range is
empty but slot 0 still holds an object, so the constructed slots are not exactly the live
ones; the next `enqueue` does not resize and placement-constructs into that very slot. -/
theorem clear_breaks_constructed_slots :
    reachable (default_params false 8)
        (clear (enqueue_block (default_params false 8) (construct (default_params false 8) 1)
          [1, 2, 3] : queue Nat)) ∧
      ¬ constructed_exactly_live
        (clear (enqueue_block (default_params false 8) (construct (default_params false 8) 1)
          [1, 2, 3] : queue Nat)) ∧
      (clear (enqueue_block (default_params false 8) (construct (default_params false 8) 1)
          [1, 2, 3] : queue Nat)).available ≠ 0 ∧
      (clear (enqueue_block (default_params false 8) (construct (default_params false 8) 1)
          [1, 2, 3] : queue Nat)).m_backingStore[
        (clear (enqueue_block (default_params false 8) (construct (default_params false 8) 1)
          [1, 2, 3] : queue Nat)).enqueue_pointer]? = some (some 1) := by
  refine ⟨reachable.clear (reachable.enqueue_block [1, 2, 3] (reachable.construct 1)
    (by decide)), ?_, by decide, by decide⟩
  intro h
  have h0 := (h 0 (by decide)).1 ⟨1, by decide⟩
  exact absurd h0.2 (by decide)

/-- C18, as stated, fails: with the default constants and an element type of 8 bytes, the
queue built by `construct(2 ^ 58)` is reachable, with `m_capacity = 2 ^ 63` and a store of no
slot (`allocate` requested `8 * 2 ^ 63` bytes, which wraps to 0). After `clear` the
`enqueue` of 7 writes slot 0, outside the store, and the `dequeue` that follows does not
return 7. -/
theorem clear_resets_counters_counterexample :
    reachable (default_params true 8)
        (construct (default_params true 8) 288230376151711744 : queue Nat) ∧
      fits (default_params true 8)
        (clear (construct (default_params true 8) 288230376151711744 : queue Nat)) 1 ∧
      (clear (construct (default_params true 8) 288230376151711744 :
        queue Nat)).m_backingStore = [] ∧
      ¬ ∃ r, dequeue (default_params true 8)
        (enqueue (default_params true 8)
          (clear (construct (default_params true 8) 288230376151711744)) 7) 0 = some (r, 7) :=
  ⟨reachable.construct _, by decide, by decide, by
    intro ⟨r, h⟩
    have h2 := congrArg (Option.map Prod.snd) h
    simp only [Option.map_some'] at h2
    exact absurd h2 (by decide)⟩

/-- C18, amended (`clear` resets the counters): in every reachable state, after `clear` the
member `size` returns 0, `m_current` is 0 and `m_capacity` is unchanged; a following
`try_dequeue` returns `false` (for a single element and for every non-empty block) and
changes nothing; and, when the store the call may request has a byte count below `2 ^ 64`
(`store_fits`), a following `enqueue(v)` and `dequeue` return `v`. -/
theorem clear_resets_counters (P : params) (hpos : 0 < alloc_size P) (q : queue α)
    (hq : reachable P q) :
    size (clear q) = 0 ∧ (clear q).m_current = 0 ∧ (clear q).m_capacity = q.m_capacity ∧
    (∀ target : α, try_dequeue P (clear q) target = (false, clear q, target)) ∧
    (∀ block : List α, block ≠ [] →
      try_dequeue_block P (clear q) block = (false, clear q, block)) ∧
    (∀ v target : α, store_fits P (clear q) 1 →
      ∃ r, dequeue P (enqueue P (clear q) v) target = some (r, v)) := by
  have hs : (clear q).m_size = 0 := rfl
  refine ⟨rfl, rfl, rfl, ?_, ?_, ?_⟩
  · intro target
    unfold try_dequeue
    rw [if_pos hs]
  · intro block hne
    unfold try_dequeue_block
    rw [if_pos (by rw [hs]; exact List.length_pos.2 hne)]
  · intro v target hbytes
    have hbytes2 : bytes_fit P (q.m_capacity + 1 + alloc_size P) := hbytes
    have hw := clear_well_formed
      (reachable_well_formed P hpos hq (bytes_fit_mono P (by omega) hbytes2))
    obtain ⟨e1, e2, e3, _, _⟩ :=
      do_enqueue_spec P hw v hpos (fun _ => bytes_fit_mono P (by omega) hbytes)
    have hpos1 : 0 < (do_enqueue P (clear q) v).m_size := by rw [e3]; omega
    obtain ⟨_, d2, _, _, _, _⟩ := do_dequeue_spec P e1 target hpos1
    rw [e2, contents_eq_nil hs, List.nil_append] at d2
    have hv : v = (do_dequeue P (do_enqueue P (clear q) v) target).2 :=
      Option.some.inj (List.cons.inj d2).1
    unfold enqueue
    refine ⟨(do_dequeue P (do_enqueue P (clear q) v) target).1, ?_⟩
    rw [dequeue_eq_some P _ target hpos1]
    generalize do_dequeue P (do_enqueue P (clear q) v) target = d at hv
    rw [hv]

/-- Witness of `clear_resets_counters`: a cleared queue that held 1, 2, 3 takes 9 and gives
9 back. -/
theorem clear_resets_counters_witness :
    0 < alloc_size (default_params true 8) ∧
      reachable (default_params true 8)
        (enqueue_block (default_params true 8) (construct (default_params true 8) 1) [1, 2, 3]) ∧
      ∃ r, dequeue (default_params true 8)
        (enqueue (default_params true 8)
          (clear (enqueue_block (default_params true 8) (construct (default_params true 8) 1)
            [1, 2, 3])) 9) 0 = some (r, 9) :=
  ⟨by decide, reachable.enqueue_block [1, 2, 3] (reachable.construct 1) (by decide),
    (clear_resets_counters (default_params true 8) (by decide) _
      (reachable.enqueue_block [1, 2, 3] (reachable.construct 1) (by decide))).2.2.2.2.2
      9 0 (by decide)⟩

/-! ## Construction and the capacity -/

theorem construct_capacity_eq (P : params) (nofInitialGroups : Nat) :
    (construct P nofInitialGroups : queue α).m_capacity =
      (nofInitialGroups * P.BlockSize * P.GroupSize) % size_mod := by
  show sz_mul nofInitialGroups (sz_mul P.BlockSize P.GroupSize) = _
  unfold sz_mul
  rw [Nat.mul_mod, Nat.mod_mod, ← Nat.mul_mod, Nat.mul_assoc]

theorem reachable_from_counters (P : params) (hpos : 0 < alloc_size P) {c : Bool}
    {q0 q : queue α} (h0 : counters_ok q0) (h : reachable_from P c q0 q) : counters_ok q := by
  induction h with
  | start => exact h0
  | enqueue elem _ hfit ih =>
    exact (do_enqueue_counters P ih elem hpos (fun _ => by unfold fits at hfit; omega)).1
  | enqueue_block block _ hfit ih => exact (do_enqueue_block_counters P ih block hpos hfit).1
  | dequeue target out _ hd ih =>
    unfold dequeue at hd
    split at hd
    · next hs =>
      have := (do_dequeue_counters P ih target hs).1
      rw [Option.some.inj hd] at this
      exact this
    · cases hd
  | dequeue_block block out _ hd ih =>
    unfold dequeue_block at hd
    split at hd
    · next hs =>
      have := (do_dequeue_block_counters P ih block hs).1
      rw [Option.some.inj hd] at this
      exact this
    · cases hd
  | try_dequeue target _ ih => exact try_dequeue_counters P ih target
  | try_dequeue_block block _ ih => exact try_dequeue_block_counters P ih block
  | clear _ _ ih => exact clear_counters ih

theorem reachable_from_well_formed (P : params) (hpos : 0 < alloc_size P) {c : Bool}
    {q0 q : queue α} (h0 : well_formed q0) (h : reachable_from P c q0 q)
    (hbytes : bytes_fit P q.m_capacity) : well_formed q := by
  induction h with
  | start => exact h0
  | enqueue elem hr hfit ih =>
    have hc := reachable_from_counters P hpos (counters_of_well_formed h0) hr
    obtain ⟨_, _, e4, _⟩ :=
      do_enqueue_counters P hc elem hpos (fun _ => by unfold fits at hfit; omega)
    have hbytes2 : bytes_fit P (do_enqueue P _ elem).m_capacity := hbytes
    rw [e4] at hbytes2
    refine (do_enqueue_spec P (ih (bytes_fit_mono P ?_ hbytes2)) elem hpos ?_).1
    · split <;> omega
    · intro hfull
      rw [if_pos hfull] at hbytes2
      exact hbytes2
  | enqueue_block block hr hfit ih =>
    have hc := reachable_from_counters P hpos (counters_of_well_formed h0) hr
    have hb := hc.bounds
    obtain ⟨_, _, e4, _⟩ := do_enqueue_block_counters P hc block hpos hfit
    have hbytes2 : bytes_fit P (do_enqueue_block P _ block).m_capacity := hbytes
    rw [e4] at hbytes2
    have hw := ih (bytes_fit_mono P (by split <;> omega) hbytes2)
    exact push_block_well_formed P hw block hpos hfit (by rw [e4]; exact hbytes2)
  | dequeue target out hr hd ih =>
    have hc := reachable_from_counters P hpos (counters_of_well_formed h0) hr
    unfold dequeue at hd
    split at hd
    · next hs =>
      have hcap := (do_dequeue_counters P hc target hs).2.2.1
      have hr1 := congrArg Prod.fst (Option.some.inj hd)
      simp only at hr1
      rw [← hr1, hcap] at hbytes
      have := (do_dequeue_spec P (ih hbytes) target hs).1
      rw [hr1] at this
      exact this
    · cases hd
  | dequeue_block block out hr hd ih =>
    have hc := reachable_from_counters P hpos (counters_of_well_formed h0) hr
    unfold dequeue_block at hd
    split at hd
    · next hs =>
      have hcap := (do_dequeue_block_counters P hc block hs).2.2.1
      have hr1 := congrArg Prod.fst (Option.some.inj hd)
      simp only at hr1
      rw [← hr1, hcap] at hbytes
      have := (do_dequeue_block_spec P (ih hbytes) block hs).1
      rw [hr1] at this
      exact this
    · cases hd
  | try_dequeue target hr ih =>
    have hc := reachable_from_counters P hpos (counters_of_well_formed h0) hr
    rw [try_dequeue_capacity P hc target] at hbytes
    exact try_dequeue_well_formed P (ih hbytes) target
  | try_dequeue_block block hr ih =>
    have hc := reachable_from_counters P hpos (counters_of_well_formed h0) hr
    rw [try_dequeue_block_capacity P hc block] at hbytes
    exact try_dequeue_block_well_formed P (ih hbytes) block
  | clear _ _ ih => exact clear_well_formed (ih hbytes)

theorem reachable_from_construct (P : params) {q : queue α} (h : reachable P q) :
    ∃ n, reachable_from P true (construct P n) q := by
  induction h with
  | construct n => exact ⟨n, reachable_from.start⟩
  | enqueue elem _ hfit ih =>
    obtain ⟨n, hn⟩ := ih
    exact ⟨n, reachable_from.enqueue elem hn hfit⟩
  | enqueue_block block _ hfit ih =>
    obtain ⟨n, hn⟩ := ih
    exact ⟨n, reachable_from.enqueue_block block hn hfit⟩
  | dequeue target out _ hd ih =>
    obtain ⟨n, hn⟩ := ih
    exact ⟨n, reachable_from.dequeue target out hn hd⟩
  | dequeue_block block out _ hd ih =>
    obtain ⟨n, hn⟩ := ih
    exact ⟨n, reachable_from.dequeue_block block out hn hd⟩
  | try_dequeue target _ ih =>
    obtain ⟨n, hn⟩ := ih
    exact ⟨n, reachable_from.try_dequeue target hn⟩
  | try_dequeue_block block _ ih =>
    obtain ⟨n, hn⟩ := ih
    exact ⟨n, reachable_from.try_dequeue_block block hn⟩
  | clear _ ih =>
    obtain ⟨n, hn⟩ := ih
    exact ⟨n, reachable_from.clear rfl hn⟩

theorem reachable_of_reachable_from (P : params) {c : Bool} {n : Nat} {q : queue α}
    (h : reachable_from P c (construct P n) q) : reachable P q := by
  induction h with
  | start => exact reachable.construct n
  | enqueue elem _ hfit ih => exact reachable.enqueue elem ih hfit
  | enqueue_block block _ hfit ih => exact reachable.enqueue_block block ih hfit
  | dequeue target out _ hd ih => exact reachable.dequeue target out ih hd
  | dequeue_block block out _ hd ih => exact reachable.dequeue_block block out ih hd
  | try_dequeue target _ ih => exact reachable.try_dequeue target ih
  | try_dequeue_block block _ ih => exact reachable.try_dequeue_block block ih
  | clear _ _ ih => exact reachable.clear ih

theorem reachable_from_capacity (P : params) (hpos : 0 < alloc_size P) {c : Bool}
    {q0 q : queue α} (h0 : counters_ok q0) (h : reachable_from P c q0 q) :
    ∃ k, q.m_capacity = q0.m_capacity + k * alloc_size P := by
  induction h with
  | start => exact ⟨0, by omega⟩
  | enqueue elem hr hfit ih =>
    obtain ⟨k, hk⟩ := ih
    have hw := reachable_from_counters P hpos h0 hr
    obtain ⟨_, _, e4, _⟩ :=
      do_enqueue_counters P hw elem hpos (fun _ => by unfold fits at hfit; omega)
    unfold enqueue
    rw [e4]
    split
    · exact ⟨k + 1, by rw [hk, Nat.add_mul, Nat.one_mul, Nat.add_assoc]⟩
    · exact ⟨k, hk⟩
  | @enqueue_block q1 block hr hfit ih =>
    obtain ⟨k, hk⟩ := ih
    have hw := reachable_from_counters P hpos h0 hr
    obtain ⟨_, _, e4, _⟩ := do_enqueue_block_counters P hw block hpos hfit
    unfold enqueue_block
    rw [e4]
    split
    · refine ⟨k + ((block.length - (q1.m_capacity - q1.m_current - q1.m_size)) /
        alloc_size P + 1), ?_⟩
      generalize (block.length - (q1.m_capacity - q1.m_current - q1.m_size)) / alloc_size P = x
      rw [hk]
      ring
    · exact ⟨k, hk⟩
  | dequeue target out hr hd ih =>
    obtain ⟨k, hk⟩ := ih
    have hw := reachable_from_counters P hpos h0 hr
    unfold dequeue at hd
    split at hd
    · next hs =>
      have := (do_dequeue_counters P hw target hs).2.2.1
      rw [Option.some.inj hd] at this
      exact ⟨k, this.trans hk⟩
    · cases hd
  | dequeue_block block out hr hd ih =>
    obtain ⟨k, hk⟩ := ih
    have hw := reachable_from_counters P hpos h0 hr
    unfold dequeue_block at hd
    split at hd
    · next hs =>
      have := (do_dequeue_block_counters P hw block hs).2.2.1
      rw [Option.some.inj hd] at this
      exact ⟨k, this.trans hk⟩
    · cases hd
  | try_dequeue target hr ih =>
    obtain ⟨k, hk⟩ := ih
    exact ⟨k, (try_dequeue_capacity P (reachable_from_counters P hpos h0 hr) target).trans hk⟩
  | try_dequeue_block block hr ih =>
    obtain ⟨k, hk⟩ := ih
    exact ⟨k, (try_dequeue_block_capacity P (reachable_from_counters P hpos h0 hr)
      block).trans hk⟩
  | clear _ _ ih =>
    obtain ⟨k, hk⟩ := ih
    exact ⟨k, hk⟩

/-- C19, as stated, fails: the constructor computes `nofInitialGroups * alloc_size` in
`std::size_t`. With the default constants 8 and 4 and `nofInitialGroups = 2 ^ 59 + 1` the
product wraps and the queue is built with capacity 32, not `(2 ^ 59 + 1) * 8 * 4`. -/
theorem construct_capacity_counterexample :
    (construct (default_params false 8) 576460752303423489 : queue Nat).m_capacity = 32 ∧
      (construct (default_params false 8) 576460752303423489 : queue Nat).m_capacity ≠
        576460752303423489 * kQueueDefaultBlockSize * kQueueDefaultGroupSize := by
  decide

/-- C19, amended (construction postcondition): for every `n` whose product
`n * block_size * group_size` is a `std::size_t` value (below `2 ^ 64`), `construct(n)`
yields `m_capacity = n * block_size * group_size`, `m_size = 0` and `m_current = 0`; for
every `n` the capacity is that product modulo `2 ^ 64`. With the default constants 8 and 4
and the default `n = 1` the capacity is 32. -/
theorem construct_postcondition (P : params) (nofInitialGroups : Nat)
    (h : nofInitialGroups * P.BlockSize * P.GroupSize < size_mod) :
    (construct P nofInitialGroups : queue α).m_capacity =
        nofInitialGroups * P.BlockSize * P.GroupSize ∧
      (construct P nofInitialGroups : queue α).m_size = 0 ∧
      (construct P nofInitialGroups : queue α).m_current = 0 ∧
      (∀ n : Nat, (construct P n : queue α).m_capacity =
        (n * P.BlockSize * P.GroupSize) % size_mod) ∧
      ∀ (tc : Bool) (es : Nat), (construct (default_params tc es) 1 : queue α).m_capacity = 32 := by
  have hc : (construct P nofInitialGroups : queue α).m_capacity =
      nofInitialGroups * P.BlockSize * P.GroupSize := by
    rw [construct_capacity_eq, Nat.mod_eq_of_lt h]
  exact ⟨hc, rfl, rfl, fun n => construct_capacity_eq P n, fun _ _ => rfl⟩

/-- Witness of `construct_postcondition`: the default constants and the default
`nofInitialGroups = 1` give capacity 32. -/
theorem construct_postcondition_witness :
    1 * (default_params true 8).BlockSize * (default_params true 8).GroupSize < size_mod ∧
      (construct (default_params true 8) 1 : queue Nat).m_capacity = 32 ∧
      (construct (default_params true 8) 1 : queue Nat).m_size = 0 ∧
      (construct (default_params true 8) 1 : queue Nat).m_current = 0 :=
  ⟨by decide,
    (construct_postcondition (α := Nat) (default_params true 8) 1 (by decide)).1,
    (construct_postcondition (α := Nat) (default_params true 8) 1 (by decide)).2.1,
    (construct_postcondition (α := Nat) (default_params true 8) 1 (by decide)).2.2.1⟩

/-- C20, as stated, fails: with `BlockSize = 3`, `GroupSize = 1` and
`nofInitialGroups = (2 ^ 64 + 2) / 3` the constructor's product wraps to 2, so the freshly
constructed (hence reachable) queue has capacity 2, which is not a multiple of
`block_size * group_size = 3`. -/
theorem capacity_granularity_counterexample :
    reachable { BlockSize := 3, GroupSize := 1, trivially_copyable := false, element_size := 8 }
        (construct { BlockSize := 3, GroupSize := 1, trivially_copyable := false, element_size := 8 }
          6148914691236517206 : queue Nat) ∧
      (construct { BlockSize := 3, GroupSize := 1, trivially_copyable := false, element_size := 8 }
          6148914691236517206 : queue Nat).m_capacity = 2 ∧
      alloc_size { BlockSize := 3, GroupSize := 1, trivially_copyable := false, element_size := 8 } = 3 * 1 ∧
      ¬ (3 * 1 ∣ (construct { BlockSize := 3, GroupSize := 1, trivially_copyable := false, element_size := 8 }
          6148914691236517206 : queue Nat).m_capacity) :=
  ⟨reachable.construct _, by decide, by decide, by decide⟩

/-- C20, amended (capacity granularity): if the constructor's product
`nofInitialGroups * alloc_size` is a `std::size_t` value (it does not wrap), then in every
state reachable from `construct(nofInitialGroups)` by the public operations `m_capacity` is
a multiple of `alloc_size`: it is the initial `nofInitialGroups * alloc_size` plus a whole
number of `alloc_size` units. -/
theorem capacity_granularity (P : params) (hpos : 0 < alloc_size P) (nofInitialGroups : Nat)
    (hn : nofInitialGroups * alloc_size P < size_mod) (q : queue α)
    (hq : reachable_from P true (construct P nofInitialGroups) q) :
    alloc_size P ∣ q.m_capacity ∧
      ∃ k, q.m_capacity = nofInitialGroups * alloc_size P + k * alloc_size P := by
  have h0 : (construct P nofInitialGroups : queue α).m_capacity =
      nofInitialGroups * alloc_size P := sz_mul_eq hn
  obtain ⟨k, hk⟩ := reachable_from_capacity P hpos (construct_counters P nofInitialGroups) hq
  rw [h0] at hk
  exact ⟨⟨nofInitialGroups + k, by rw [hk]; ring⟩, k, hk⟩

/-- Witness of `capacity_granularity`: a default queue after growing once has capacity 64. -/
theorem capacity_granularity_witness :
    0 < alloc_size (default_params false 8) ∧
      1 * alloc_size (default_params false 8) < size_mod ∧
      reachable_from (default_params false 8) true (construct (default_params false 8) 1)
        (enqueue_block (default_params false 8) (construct (default_params false 8) 1 : queue Nat)
          (List.range 33)) ∧
      alloc_size (default_params false 8) ∣
        (enqueue_block (default_params false 8) (construct (default_params false 8) 1 : queue Nat)
          (List.range 33)).m_capacity :=
  ⟨by decide, by decide,
    reachable_from.enqueue_block (List.range 33) reachable_from.start (by decide),
    (capacity_granularity (default_params false 8) (by decide) 1 (by decide) _
      (reachable_from.enqueue_block (List.range 33) reachable_from.start (by decide))).1⟩

/-! ## Constructed slots on the element-wise path -/

theorem getElem?_shift_each_ge (current n idx j : Nat) (store : List (Option α))
    (hc : idx + n ≤ current) (h : idx + n ≤ j) :
    (shift_each current n idx store)[j]? =
      if current + idx ≤ j ∧ j < current + idx + n then
        (if j < store.length then some none else none)
      else store[j]? := by
  induction n generalizing idx store with
  | zero =>
    rw [if_neg (by omega)]
    rfl
  | succ n ih =>
    simp only [shift_each]
    rw [ih (idx + 1) _ (by omega) (by omega), List.length_set, List.length_set]
    by_cases h1 : j = current + idx
    · subst h1
      have h3 : ¬ (current + (idx + 1) ≤ current + idx ∧
          current + idx < current + (idx + 1) + n) := by omega
      have h4 : current + idx ≤ current + idx ∧ current + idx < current + idx + (n + 1) := by
        omega
      rw [if_neg h3, if_pos h4, List.getElem?_set, if_pos rfl, List.length_set]
    · by_cases h2 : current + (idx + 1) ≤ j ∧ j < current + (idx + 1) + n
      · have h3 : current + idx ≤ j ∧ j < current + idx + (n + 1) := by omega
        rw [if_pos h2, if_pos h3]
      · have h3 : ¬ (current + idx ≤ j ∧ j < current + idx + (n + 1)) := by omega
        have h4 : ¬ current + idx = j := by omega
        have h5 : ¬ idx = j := by omega
        rw [if_neg h2, if_neg h3, List.getElem?_set, if_neg h4, List.getElem?_set, if_neg h5]

theorem getElem?_dequeue_each_lt (block : List α) (store : List (Option α)) (source j : Nat)
    (h : j < source) :
    (dequeue_each store source block).1[j]? = store[j]? := by
  induction block generalizing store source with
  | nil => rfl
  | cons entry rest ih =>
    simp only [dequeue_each]
    rw [ih _ _ (by omega), List.getElem?_set, if_neg (by omega)]

theorem getElem?_dequeue_each_mid (block : List α) (store : List (Option α)) (source j : Nat)
    (h1 : source ≤ j) (h2 : j < source + block.length) :
    (dequeue_each store source block).1[j]? = if j < store.length then some none else none := by
  induction block generalizing store source with
  | nil => simp only [List.length_nil] at h2; omega
  | cons entry rest ih =>
    simp only [dequeue_each]
    simp only [List.length_cons] at h2
    by_cases hj : j = source
    · subst hj
      rw [getElem?_dequeue_each_lt _ _ _ _ (by omega), List.getElem?_set, if_pos rfl]
    · rw [ih _ _ (by omega) (by omega), List.length_set]

theorem resize_dead (P : params) (htc : P.trivially_copyable = false) (q : queue α)
    (elements : Nat) : dead_outside_live (resize P q elements) := by
  intro i v hi
  rw [resize_current, resize_size]
  refine ⟨Nat.zero_le _, ?_⟩
  by_contra hge
  rw [resize_store] at hi
  unfold transfer at hi
  rw [htc] at hi
  simp only [Bool.false_eq_true, if_false] at hi
  rw [getElem?_transfer_each_ge _ _ _ _ _ _ (by omega)] at hi
  unfold allocate at hi
  rw [List.getElem?_replicate] at hi
  split at hi <;> cases hi

theorem shift_down_dead (P : params) (htc : P.trivially_copyable = false) {q : queue α}
    (hd : dead_outside_live q) (hle : q.m_size ≤ q.m_current) :
    dead_outside_live (shift_down P q) := by
  intro i v hi
  rw [shift_down_current, shift_down_size]
  refine ⟨Nat.zero_le _, ?_⟩
  by_contra hge
  unfold shift_down shift_down_impl dequeue_pointer at hi
  rw [htc] at hi
  simp only [Bool.false_eq_true, if_false] at hi
  rw [getElem?_shift_each_ge _ _ _ _ _ (by omega) (by omega)] at hi
  split at hi
  · split at hi <;> cases hi
  · next hn =>
    have := hd i v hi
    omega

theorem push_dead (q : queue α) (block : List α) (hd : dead_outside_live q) :
    dead_outside_live ({ q with
        m_backingStore := write_slots q.m_backingStore (q.m_current + q.m_size) (block.map some),
        m_size := q.m_size + block.length } : queue α) := by
  intro i v hi
  show q.m_current ≤ i ∧ i < q.m_current + (q.m_size + block.length)
  have hi2 : (write_slots q.m_backingStore (q.m_current + q.m_size) (block.map some))[i]? =
      some (some v) := hi
  rw [getElem?_write_slots, List.length_map] at hi2
  split at hi2
  · omega
  · have := hd i v hi2
    omega

theorem pop_dead (q : queue α) (n : Nat) (store : List (Option α)) (hd : dead_outside_live q)
    (hn : n ≤ q.m_size)
    (hs : ∀ i v, store[i]? = some (some v) →
      q.m_current + n ≤ i ∧ q.m_backingStore[i]? = some (some v)) :
    dead_outside_live ({ m_capacity := q.m_capacity, m_current := q.m_current + n,
                         m_size := q.m_size - n, m_backingStore := store } : queue α) := by
  intro i v hi
  show q.m_current + n ≤ i ∧ i < q.m_current + n + (q.m_size - n)
  obtain ⟨h1, h2⟩ := hs i v hi
  have := hd i v h2
  omega

theorem enqueue_decomp (P : params) {q : queue α} (hq : counters_ok q) (element : α)
    (hpos : 0 < alloc_size P)
    (hfit : q.m_current + q.m_size = q.m_capacity → q.m_capacity + alloc_size P < size_mod) :
    ∃ q1 : queue α, (q1 = q ∨ ∃ elements, q1 = resize P q elements) ∧
      do_enqueue P q element = { q1 with
        m_backingStore :=
          write_slots q1.m_backingStore (q1.m_current + q1.m_size) ([element].map some),
        m_size := q1.m_size + [element].length } := by
  have hb := hq.bounds
  have hcap := hq.capacity_lt
  have hav := available_eq hq
  by_cases hfull : q.m_current + q.m_size = q.m_capacity
  · have hfit := hfit hfull
    have h1 : (if q.available = 0 then resize P q (sz_add q.m_capacity (alloc_size P)) else q)
        = resize P q (q.m_capacity + alloc_size P) := by
      rw [if_pos (by omega), sz_add_eq (by omega)]
    exact ⟨_, Or.inr ⟨_, rfl⟩,
      do_enqueue_eq_push P q element _ h1 (by rw [resize_size]; omega)⟩
  · have h1 : (if q.available = 0 then resize P q (sz_add q.m_capacity (alloc_size P)) else q)
        = q := by
      rw [if_neg (by omega)]
    exact ⟨_, Or.inl rfl, do_enqueue_eq_push P q element _ h1 (by omega)⟩

theorem enqueue_block_decomp (P : params) {q : queue α} (hq : counters_ok q) (block : List α)
    (hpos : 0 < alloc_size P) (hfit : fits P q block.length) :
    ∃ q1 : queue α, (q1 = q ∨ ∃ elements, q1 = resize P q elements) ∧
      do_enqueue_block P q block = { q1 with
        m_backingStore :=
          write_slots q1.m_backingStore (q1.m_current + q1.m_size) (block.map some),
        m_size := q1.m_size + block.length } := by
  have hb := hq.bounds
  have hcap := hq.capacity_lt
  have hav := available_eq hq
  unfold fits at hfit
  by_cases hgrow : block.length ≥ q.m_capacity - q.m_current - q.m_size
  · obtain ⟨g1, g2, g3⟩ :=
      growth_arith block.length (q.m_capacity - q.m_current - q.m_size) (alloc_size P) hpos
    have h1 : (if block.length ≥ q.available then
        resize P q (sz_add q.m_capacity
          (sz_mul (sz_add (sz_sub block.length q.available / alloc_size P) 1) (alloc_size P)))
        else q) = resize P q (q.m_capacity +
          ((block.length - (q.m_capacity - q.m_current - q.m_size)) / alloc_size P + 1) *
            alloc_size P) := by
      have hk := Nat.div_le_self (block.length - (q.m_capacity - q.m_current - q.m_size))
        (alloc_size P)
      have e1 : sz_sub block.length (q.m_capacity - q.m_current - q.m_size) =
          block.length - (q.m_capacity - q.m_current - q.m_size) := sz_sub_eq hgrow (by omega)
      have e2 : sz_add ((block.length - (q.m_capacity - q.m_current - q.m_size)) / alloc_size P) 1
          = (block.length - (q.m_capacity - q.m_current - q.m_size)) / alloc_size P + 1 :=
        sz_add_eq (by omega)
      have e3 : sz_mul ((block.length - (q.m_capacity - q.m_current - q.m_size)) / alloc_size P + 1)
          (alloc_size P) =
          ((block.length - (q.m_capacity - q.m_current - q.m_size)) / alloc_size P + 1) *
            alloc_size P := sz_mul_eq (by omega)
      rw [hav, if_pos hgrow, e1, e2, e3, sz_add_eq (by omega)]
    exact ⟨_, Or.inr ⟨_, rfl⟩,
      do_enqueue_block_eq_push P q block _ h1 (by rw [resize_size]; omega)⟩
  · have h1 : (if block.length ≥ q.available then
        resize P q (sz_add q.m_capacity
          (sz_mul (sz_add (sz_sub block.length q.available / alloc_size P) 1) (alloc_size P)))
        else q) = q := by
      rw [hav, if_neg hgrow]
    exact ⟨_, Or.inl rfl, do_enqueue_block_eq_push P q block _ h1 (by omega)⟩

theorem do_enqueue_dead (P : params) (htc : P.trivially_copyable = false) {q : queue α}
    (hq : counters_ok q) (hd : dead_outside_live q) (element : α) (hpos : 0 < alloc_size P)
    (hfit : q.m_current + q.m_size = q.m_capacity → q.m_capacity + alloc_size P < size_mod) :
    dead_outside_live (do_enqueue P q element) := by
  obtain ⟨q1, h1, he⟩ := enqueue_decomp P hq element hpos hfit
  rw [he]
  apply push_dead
  rcases h1 with rfl | ⟨e, rfl⟩
  · exact hd
  · exact resize_dead P htc q e

theorem do_enqueue_block_dead (P : params) (htc : P.trivially_copyable = false) {q : queue α}
    (hq : counters_ok q) (hd : dead_outside_live q) (block : List α) (hpos : 0 < alloc_size P)
    (hfit : fits P q block.length) : dead_outside_live (do_enqueue_block P q block) := by
  obtain ⟨q1, h1, he⟩ := enqueue_block_decomp P hq block hpos hfit
  rw [he]
  apply push_dead
  rcases h1 with rfl | ⟨e, rfl⟩
  · exact hd
  · exact resize_dead P htc q e

theorem maybe_shift_dead (P : params) (htc : P.trivially_copyable = false) {q : queue α}
    (hq : counters_ok q) (hd : dead_outside_live q) :
    dead_outside_live (if q.m_current > q.m_capacity / 2 then shift_down P q else q) := by
  have hb := hq.bounds
  split
  · exact shift_down_dead P htc hd (by omega)
  · exact hd

theorem do_dequeue_dead (P : params) (htc : P.trivially_copyable = false) {q : queue α}
    (hq : counters_ok q) (hd : dead_outside_live q) (target : α) (hn : 0 < q.m_size) :
    dead_outside_live (do_dequeue P q target).1 := by
  have hb := hq.bounds
  have hq2 : counters_ok ({
      m_capacity := q.m_capacity, m_current := q.m_current + 1,
      m_size := q.m_size - 1,
      m_backingStore := q.m_backingStore.set q.m_current none } : queue α) :=
    ⟨by show q.m_current + 1 + (q.m_size - 1) ≤ q.m_capacity; omega, hq.capacity_lt⟩
  have hd2 := pop_dead q 1 (q.m_backingStore.set q.m_current none) hd hn (by
    intro i v hi
    rw [List.getElem?_set] at hi
    split at hi
    · split at hi <;> cases hi
    · next hne => exact ⟨by have := (hd i v hi).1; omega, hi⟩)
  rw [do_dequeue_eq P hq target hn]
  exact maybe_shift_dead P htc hq2 hd2

theorem do_dequeue_block_dead (P : params) (htc : P.trivially_copyable = false)
    {q : queue α} (hq : counters_ok q) (hd : dead_outside_live q) (block : List α)
    (hn : block.length ≤ q.m_size) : dead_outside_live (do_dequeue_block P q block).1 := by
  have hb := hq.bounds
  have hq2 : counters_ok ({
      m_capacity := q.m_capacity, m_current := q.m_current + block.length,
      m_size := q.m_size - block.length,
      m_backingStore := (do_dequeue_block_impl P q block).1.m_backingStore } : queue α) :=
    ⟨by show q.m_current + block.length + (q.m_size - block.length) ≤ q.m_capacity; omega,
      hq.capacity_lt⟩
  have hstore : (do_dequeue_block_impl P q block).1.m_backingStore =
      (dequeue_each q.m_backingStore q.m_current block).1 := by
    unfold do_dequeue_block_impl dequeue_pointer
    rw [htc]
    rfl
  have hd2 := pop_dead q block.length (do_dequeue_block_impl P q block).1.m_backingStore hd hn
    (by
      intro i v hi
      rw [hstore] at hi
      by_cases h1 : i < q.m_current
      · rw [getElem?_dequeue_each_lt _ _ _ _ h1] at hi
        have := (hd i v hi).1
        omega
      · by_cases h2 : i < q.m_current + block.length
        · rw [getElem?_dequeue_each_mid _ _ _ _ (by omega) h2] at hi
          split at hi <;> cases hi
        · rw [getElem?_dequeue_each_ge _ _ _ _ (by omega)] at hi
          exact ⟨by omega, hi⟩)
  rw [do_dequeue_block_eq P hq block hn]
  exact maybe_shift_dead P htc hq2 hd2

theorem construct_dead (P : params) (n : Nat) : dead_outside_live (construct P n : queue α) := by
  intro i v hi
  exact absurd hi (getElem?_allocate P _ i v)

theorem reachable_from_dead (P : params) (htc : P.trivially_copyable = false)
    (hpos : 0 < alloc_size P) {q0 q : queue α} (h0 : counters_ok q0)
    (hd0 : dead_outside_live q0) (h : reachable_from P false q0 q) :
    dead_outside_live q := by
  induction h with
  | start => exact hd0
  | enqueue elem hr hfit ih =>
    exact do_enqueue_dead P htc (reachable_from_counters P hpos h0 hr) ih elem hpos
      (fun _ => by unfold fits at hfit; omega)
  | enqueue_block block hr hfit ih =>
    exact do_enqueue_block_dead P htc (reachable_from_counters P hpos h0 hr) ih block hpos hfit
  | dequeue target out hr hd ih =>
    unfold dequeue at hd
    split at hd
    · next hs =>
      have := do_dequeue_dead P htc (reachable_from_counters P hpos h0 hr) ih target hs
      rw [Option.some.inj hd] at this
      exact this
    · cases hd
  | dequeue_block block out hr hd ih =>
    unfold dequeue_block at hd
    split at hd
    · next hs =>
      have := do_dequeue_block_dead P htc (reachable_from_counters P hpos h0 hr) ih block hs
      rw [Option.some.inj hd] at this
      exact this
    · cases hd
  | try_dequeue target hr ih =>
    unfold try_dequeue
    split
    · exact ih
    · exact do_dequeue_dead P htc (reachable_from_counters P hpos h0 hr) ih target (by omega)
  | try_dequeue_block block hr ih =>
    unfold try_dequeue_block
    split
    · exact ih
    · exact do_dequeue_block_dead P htc (reachable_from_counters P hpos h0 hr) ih block
        (by omega)
  | clear hc _ _ => cases hc

/-- On the element-wise path, in every state reachable from `construct` by public operations
other than `clear`, no slot outside the live range holds an object; and when the byte count
of the store is below `2 ^ 64` (`bytes_fit`), exactly the slots of the live range hold an
object. -/
theorem constructed_exactly_live_without_clear (P : params)
    (htc : P.trivially_copyable = false) (hpos : 0 < alloc_size P) (nofInitialGroups : Nat)
    (q : queue α) (h : reachable_from P false (construct P nofInitialGroups) q) :
    dead_outside_live q ∧ (bytes_fit P q.m_capacity → constructed_exactly_live q) := by
  have hd := reachable_from_dead P htc hpos (construct_counters P nofInitialGroups)
    (construct_dead P nofInitialGroups) h
  refine ⟨hd, fun hbytes => ?_⟩
  obtain ⟨k, hk⟩ := reachable_from_capacity P hpos (construct_counters P nofInitialGroups) h
  have hw := reachable_from_well_formed P hpos
    (construct_well_formed P nofInitialGroups (bytes_fit_mono P (by rw [hk]; omega) hbytes))
    h hbytes
  intro i _
  exact ⟨fun ⟨v, hv⟩ => hd i v hv, fun ⟨h1, h2⟩ => hw.live i h1 h2⟩

/-! ## Capacity, guards and index safety -/

/-- C22 (code at the failing input): a queue of a non-trivially-copyable element type that
holds 1, 2, 3 is destroyed. The implicit destructor releases the store while the slots 0, 1, 2
still hold their objects (no element destructor runs), whereas the old store that the
element-wise `transfer` leaves behind for `resize` to release has these slots destroyed. In
general the implicit destructor releases the store exactly as it is. -/
theorem implicit_destructor_leaves_elements :
    (enqueue_block (default_params false 8) (construct (default_params false 8) 1)
        [1, 2, 3] : queue Nat).m_size = 3 ∧
      (implicit_destructor (enqueue_block (default_params false 8)
        (construct (default_params false 8) 1) [1, 2, 3] : queue Nat)).take 3 =
        [some 1, some 2, some 3] ∧
      ((transfer_each 0 3 0
        (enqueue_block (default_params false 8) (construct (default_params false 8) 1)
          [1, 2, 3] : queue Nat).m_backingStore (allocate (default_params false 8) 64)).1).take
          3 =
        [none, none, none] ∧
      ∀ q : queue Nat, implicit_destructor q = q.m_backingStore :=
  ⟨by decide, by decide, by decide, fun _ => rfl⟩

theorem getElem?_transfer_of_bounds (P : params) (q : queue α)
    (hlen : q.m_backingStore.length = q.m_capacity)
    (hb : q.m_current + q.m_size ≤ q.m_capacity)
    (target : List (Option α)) (j : Nat) (h1 : j < q.m_size) (h2 : j < target.length) :
    (transfer P q target)[j]? = q.m_backingStore[q.m_current + j]? := by
  have e : some (q.m_backingStore.getD (q.m_current + j) none) = q.m_backingStore[q.m_current + j]? :=
    some_getD_eq_getElem? _ _ (by omega)
  unfold transfer dequeue_pointer
  split
  · rw [getElem?_memcpy _ _ _ _ _ h1, if_pos h2, e]
  · rw [getElem?_transfer_each _ _ _ _ _ _ (Nat.zero_le _) (by omega), if_pos h2, e]

/-- C26, as stated, fails: for an element type of 8 bytes, `resize(2 ^ 61)` on a store of four
slots with two live elements requests `8 * 2 ^ 61` bytes, a product that wraps to 0. The new
store has no slot, so its slots `[0, 2)` do not hold the two live elements, while
`m_capacity` is set to `2 ^ 61`. -/
theorem resize_postcondition_counterexample :
    ({ m_capacity := 4, m_current := 1, m_size := 2,
       m_backingStore := [none, some 5, some 6, none] } : queue Nat).m_backingStore.length = 4 ∧
      (resize (default_params false 8)
        ({ m_capacity := 4, m_current := 1, m_size := 2,
           m_backingStore := [none, some 5, some 6, none] } : queue Nat)
        2305843009213693952).m_capacity = 2305843009213693952 ∧
      (resize (default_params false 8)
        ({ m_capacity := 4, m_current := 1, m_size := 2,
           m_backingStore := [none, some 5, some 6, none] } : queue Nat)
        2305843009213693952).m_backingStore = [] ∧
      (resize (default_params false 8)
        ({ m_capacity := 4, m_current := 1, m_size := 2,
           m_backingStore := [none, some 5, some 6, none] } : queue Nat)
        2305843009213693952).m_backingStore.take 2 ≠ [some 5, some 6] := by
  decide

/-- C26, amended (`resize` postcondition): for every state whose store has `m_capacity` slots
and whose live range fits (`m_current + m_size <= m_capacity`), and every `elements >= m_size`
whose byte count `element_size * elements` is below `2 ^ 64` (`bytes_fit`),
`resize(elements)` yields a store of `elements` slots whose slots `[0, m_size)` hold the
previously live elements in the same order, `m_current = 0`, `m_capacity = elements` and an
unchanged `m_size`; the three counters are set so for every `elements`. -/
theorem resize_postcondition (P : params) (q : queue α) (elements : Nat)
    (hlen : q.m_backingStore.length = q.m_capacity)
    (hb : q.m_current + q.m_size ≤ q.m_capacity) (he : q.m_size ≤ elements)
    (hbytes : bytes_fit P elements) :
    (resize P q elements).m_backingStore.take q.m_size =
        (q.m_backingStore.drop q.m_current).take q.m_size ∧
      (resize P q elements).m_backingStore.length = elements ∧
      (resize P q elements).m_current = 0 ∧
      (resize P q elements).m_capacity = elements ∧
      (resize P q elements).m_size = q.m_size ∧
      contents (resize P q elements) = contents q ∧
      (∀ n : Nat, (resize P q n).m_current = 0 ∧ (resize P q n).m_capacity = n ∧
        (resize P q n).m_size = q.m_size) := by
  have hlen2 : (allocate P elements : List (Option α)).length = elements :=
    length_allocate P hbytes
  have hc : contents (resize P q elements) = contents q := by
    unfold contents
    rw [resize_size, resize_current, resize_store]
    apply take_drop_eq_of_getElem?
    intro j hj
    rw [Nat.zero_add]
    exact getElem?_transfer_of_bounds P q hlen hb _ j hj (by rw [hlen2]; omega)
  refine ⟨?_, ?_, rfl, rfl, rfl, hc, fun _ => ⟨rfl, rfl, rfl⟩⟩
  · have h := hc
    unfold contents at h
    rw [resize_size, resize_current, List.drop_zero] at h
    exact h
  · rw [resize_store, length_transfer, hlen2]

/-- Witness of `resize_postcondition`: a store of four slots with two live elements behind
the cursor is moved into a store of six slots. -/
theorem resize_postcondition_witness :
    bytes_fit (default_params false 8) 6 ∧
    (resize (default_params false 8)
        ({ m_capacity := 4, m_current := 1, m_size := 2,
           m_backingStore := [none, some 5, some 6, none] } : queue Nat) 6).m_backingStore.take 2 =
      [some 5, some 6] ∧
    (resize (default_params false 8)
        ({ m_capacity := 4, m_current := 1, m_size := 2,
           m_backingStore := [none, some 5, some 6, none] } : queue Nat) 6).m_capacity = 6 :=
  ⟨by decide,
    (resize_postcondition (default_params false 8)
      ({ m_capacity := 4, m_current := 1, m_size := 2,
         m_backingStore := [none, some 5, some 6, none] } : queue Nat) 6 rfl (by decide)
      (by decide) (by decide)).1,
    (resize_postcondition (default_params false 8)
      ({ m_capacity := 4, m_current := 1, m_size := 2,
         m_backingStore := [none, some 5, some 6, none] } : queue Nat) 6 rfl (by decide)
      (by decide) (by decide)).2.2.2.1⟩

/-- A slot index below `m_capacity` need not lie inside the store: with the default
parameters and an element type of 8 bytes, `construct(2 ^ 58)` sets `m_capacity = 2 ^ 63` and
requests `8 * 2 ^ 63` bytes, a product that wraps to 0. The state is reachable and has free
slots by its counters, so `enqueue` does not resize and writes slot `enqueue_pointer = 0`,
which is below `m_capacity` and not below the length of the store. -/
theorem slot_below_capacity_outside_store :
    0 < alloc_size (default_params true 8) ∧
      reachable (default_params true 8)
        (construct (default_params true 8) 288230376151711744 : queue Nat) ∧
      fits (default_params true 8)
        (construct (default_params true 8) 288230376151711744 : queue Nat) 1 ∧
      (construct (default_params true 8) 288230376151711744 : queue Nat).available ≠ 0 ∧
      (construct (default_params true 8) 288230376151711744 : queue Nat).enqueue_pointer <
        (construct (default_params true 8) 288230376151711744 : queue Nat).m_capacity ∧
      (construct (default_params true 8) 288230376151711744 : queue Nat).m_backingStore = [] ∧
      ¬ (construct (default_params true 8) 288230376151711744 : queue Nat).enqueue_pointer <
        (construct (default_params true 8)
          288230376151711744 : queue Nat).m_backingStore.length ∧
      (enqueue (default_params true 8)
        (construct (default_params true 8) 288230376151711744 : queue Nat) 7).m_backingStore.length
        ≠ (enqueue (default_params true 8)
        (construct (default_params true 8) 288230376151711744 : queue Nat) 7).m_capacity :=
  ⟨by decide, reachable.construct 288230376151711744, by decide, by decide, by decide,
    by decide, by decide, by decide⟩

end queue_lemmas
end queue

/-! ## Binary literals and the MSC data group generator -/

namespace literals

theorem two_to_eq (k : Nat) (hk : k < 64) : impl.two_to k = 2 ^ k := by
  induction k with
  | zero => rfl
  | succ n ih =>
    have h1 := ih (by omega)
    have h2 : 2 ^ (n + 1) ≤ 2 ^ 63 := Nat.pow_le_pow_right (by decide) (by omega)
    have h3 : 2 ^ (n + 1) = 2 * 2 ^ n := by rw [Nat.pow_succ]; omega
    show (2 * impl.two_to n) % ull_mod = 2 ^ (n + 1)
    rw [h1, ← h3]
    unfold ull_mod
    exact Nat.mod_eq_of_lt (by omega)

theorem binary_value_lt (digits : List Char) : binary_value digits < 2 ^ digits.length := by
  induction digits with
  | nil => decide
  | cons c rest ih =>
    have h3 : 2 ^ (rest.length + 1) = 2 * 2 ^ rest.length := by rw [Nat.pow_succ]; omega
    show (if c = '1' then 1 else 0) * 2 ^ rest.length + binary_value rest
      < 2 ^ (rest.length + 1)
    rw [h3]
    split <;> omega

theorem foldl_binary (digits : List Char) (acc : Nat) :
    digits.foldl (fun value c => 2 * value + (if c = '1' then 1 else 0)) acc =
      acc * 2 ^ digits.length + binary_value digits := by
  induction digits generalizing acc with
  | nil => simp [binary_value]
  | cons c rest ih =>
    rw [List.foldl_cons, ih]
    show _ = acc * 2 ^ (rest.length + 1) +
      ((if c = '1' then 1 else 0) * 2 ^ rest.length + binary_value rest)
    rw [Nat.pow_succ]
    ring

theorem binary_value_sum (digits : List Char) :
    binary_value digits =
      ((List.range digits.length).map
        (fun i => (if digits.reverse.getD i '0' = '1' then 1 else 0) * 2 ^ i)).sum := by
  induction digits with
  | nil => rfl
  | cons c rest ih =>
    have hlast : (c :: rest).reverse.getD rest.length '0' = c := by
      simp [List.getD, List.getElem?_append_right]
    have hmap : (List.range rest.length).map
        (fun i => (if (c :: rest).reverse.getD i '0' = '1' then 1 else 0) * 2 ^ i) =
        (List.range rest.length).map
        (fun i => (if rest.reverse.getD i '0' = '1' then 1 else 0) * 2 ^ i) := by
      apply List.map_congr_left
      intro i hi
      have hi1 : i < rest.length := List.mem_range.mp hi
      have : (c :: rest).reverse.getD i '0' = rest.reverse.getD i '0' := by
        simp [List.getD, List.getElem?_append_left, hi1]
      rw [this]
    show (if c = '1' then 1 else 0) * 2 ^ rest.length + binary_value rest = _
    rw [List.length_cons, List.range_succ, List.map_append, List.sum_append, hmap, ← ih,
      List.map_singleton, List.sum_singleton, hlast]
    omega

theorem parse_binary_eq (digits : List Char) (hd : binary_digits digits)
    (hn : digits.length ≤ 64) : impl.parse_binary digits = some (binary_value digits) := by
  induction digits with
  | nil => rfl
  | cons c rest ih =>
    have hrest : binary_digits rest := fun x hx => hd x (List.mem_cons_of_mem c hx)
    have hlen : rest.length < 64 := by simpa using Nat.lt_of_succ_le hn
    have ih1 := ih hrest (by omega)
    have hc := hd c (List.mem_cons_self c rest)
    have hlt := binary_value_lt rest
    have h2 : 2 ^ rest.length ≤ 2 ^ 63 := Nat.pow_le_pow_right (by decide) (by omega)
    rcases hc with hc | hc
    · subst hc
      show (if '0' = '0' then impl.parse_binary rest else _) = _
      rw [if_pos rfl, ih1]
      show _ = some ((if '0' = '1' then 1 else 0) * 2 ^ rest.length + binary_value rest)
      rw [if_neg (by decide)]
      simp
    · subst hc
      show (if '1' = '0' then _ else if '1' = '1' then
        (impl.parse_binary rest).map
          (fun value => (impl.two_to rest.length + value) % ull_mod) else none) = _
      rw [if_neg (by decide), if_pos rfl, ih1, two_to_eq rest.length hlen]
      show some ((2 ^ rest.length + binary_value rest) % ull_mod) =
        some ((if '1' = '1' then 1 else 0) * 2 ^ rest.length + binary_value rest)
      rw [if_pos rfl, Nat.one_mul]
      unfold ull_mod
      rw [Nat.mod_eq_of_lt (by omega)]

/-- C25 (binary literal value): for every digit string over `'0'`, `'1'` of at most 64 digits
the literal `_b` (the value of `parse_binary`) is the number whose binary representation is
the string, that is the sum of `d_i * 2 ^ i` (`binary_value`, equal to the left-to-right
doubling fold), and it is below `2 ^ n`; a leading zero does not change the value, the empty
string parses to 0, and `two_to k = 2 ^ k` for `k < 64`. -/
theorem binary_literal_value (digits : List Char) (hd : binary_digits digits)
    (hn : digits.length ≤ 64) :
    _b digits = some (binary_value digits) ∧
    binary_value digits =
      digits.foldl (fun value c => 2 * value + (if c = '1' then 1 else 0)) 0 ∧
    binary_value digits =
      ((List.range digits.length).map
        (fun i => (if digits.reverse.getD i '0' = '1' then 1 else 0) * 2 ^ i)).sum ∧
    binary_value digits < 2 ^ digits.length ∧
    _b ('0' :: digits) = _b digits ∧
    _b ([] : List Char) = some 0 ∧
    (∀ k, k < 64 → impl.two_to k = 2 ^ k) := by
  refine ⟨parse_binary_eq digits hd hn, ?_, ?_, binary_value_lt digits, ?_, rfl, two_to_eq⟩
  · rw [foldl_binary]; simp
  · exact binary_value_sum digits
  · show impl.parse_binary ('0' :: digits) = impl.parse_binary digits
    rw [impl.parse_binary, if_pos rfl]

/-- Witness of `binary_literal_value`: `0101_b` is 5. -/
theorem binary_literal_value_witness :
    binary_digits ['0', '1', '0', '1'] ∧ ['0', '1', '0', '1'].length ≤ 64 ∧
      _b ['0', '1', '0', '1'] = some 5 :=
  ⟨by unfold binary_digits; decide, by decide,
    (binary_literal_value ['0', '1', '0', '1'] (by unfold binary_digits; decide)
      (by decide)).1⟩

end literals

namespace msc_data_group_generator

theorem to_index_lt_16 (E : msc_declarations) (hbits : 4 ≤ E.index_bits) (x : Nat)
    (hx : x < 16) : to_index E x = x := by
  have h : 2 ^ 4 ≤ 2 ^ E.index_bits := Nat.pow_le_pow_right (by decide) hbits
  unfold to_index
  exact Nat.mod_eq_of_lt (by omega)

/-- C30 (MSC data group index update rule): for an index type of at least 4 bits, every
generator state and every datagram `d`: `build(d)` with `d` different from the last built
datagram sets `m_continuity_index` to `(old + 1) % 16` and `m_repetition_index` to 0;
`build(d)` with `d` equal to the last datagram leaves `m_continuity_index` unchanged and sets
`m_repetition_index` to `max(old - 1, 0)`; in both cases `m_last_ip_datagram` becomes `d`, and
a continuity index below 16 stays below 16. -/
theorem build_index_update (E : msc_declarations) (hbits : 4 ≤ E.index_bits)
    (g : msc_data_group_generator) (d : List Nat) :
    (d ≠ g.m_last_ip_datagram →
      (build E g d).1.m_continuity_index = (g.m_continuity_index + 1) % 16 ∧
      (build E g d).1.m_repetition_index = 0 ∧
      (build E g d).1.m_continuity_index < 16) ∧
    (d = g.m_last_ip_datagram →
      (build E g d).1.m_continuity_index = g.m_continuity_index ∧
      (build E g d).1.m_repetition_index = g.m_repetition_index - 1 ∧
      ((build E g d).1.m_repetition_index : Int) = max ((g.m_repetition_index : Int) - 1) 0) ∧
    (build E g d).1.m_last_ip_datagram = d ∧
    (g.m_continuity_index < 16 → (build E g d).1.m_continuity_index < 16) := by
  have h16 : (g.m_continuity_index + 1) % 16 < 16 := Nat.mod_lt _ (by decide)
  have hc := to_index_lt_16 E hbits _ h16
  have h0 : to_index E 0 = 0 := by unfold to_index; exact Nat.zero_mod _
  by_cases hd : d = g.m_last_ip_datagram
  · have hrep : (build E g d).1.m_repetition_index = g.m_repetition_index - 1 := by
      unfold build
      dsimp only
      rw [if_neg (by simpa using hd)]
      dsimp only
      split
      · rfl
      · rw [h0]; omega
    have hcont : (build E g d).1.m_continuity_index = g.m_continuity_index := by
      unfold build
      dsimp only
      rw [if_neg (by simpa using hd)]
    refine ⟨fun hne => absurd hd hne, fun _ => ⟨hcont, hrep, ?_⟩, rfl, fun h => ?_⟩
    · rw [hrep]; omega
    · rw [hcont]; exact h
  · have hrep : (build E g d).1.m_repetition_index = 0 := by
      unfold build
      dsimp only
      rw [if_pos hd]
      exact h0
    have hcont : (build E g d).1.m_continuity_index = (g.m_continuity_index + 1) % 16 := by
      unfold build
      dsimp only
      rw [if_pos hd]
      exact hc
    refine ⟨fun _ => ⟨hcont, hrep, ?_⟩, fun he => absurd he hd, rfl, fun _ => ?_⟩
    · rw [hcont]; exact h16
    · rw [hcont]; exact h16

/-- Witness of `build_index_update`: with 8-bit indices, building a new datagram in the state
with continuity index 15 and repetition index 3 wraps the continuity index to 0. -/
theorem build_index_update_witness :
    4 ≤ (msc_declarations.mk 8 0 (fun a b => (a ++ b, b)) (fun _ => [0, 0])).index_bits ∧
      (build (msc_declarations.mk 8 0 (fun a b => (a ++ b, b)) (fun _ => [0, 0]))
        (msc_data_group_generator.mk 15 3 [1, 2]) [7]).1.m_continuity_index = 0 :=
  ⟨by decide,
    ((build_index_update (msc_declarations.mk 8 0 (fun a b => (a ++ b, b)) (fun _ => [0, 0]))
      (by decide) (msc_data_group_generator.mk 15 3 [1, 2]) [7]).1 (by decide)).1⟩

end msc_data_group_generator

namespace msc_data_group_generator

theorem to_byte_or (a b : Nat) : to_byte (to_byte a ||| b) = to_byte (a ||| b) := by
  unfold to_byte
  have e : (256 : Nat) = 2 ^ 8 := by decide
  rw [e]
  apply Nat.eq_of_testBit_eq
  intro i
  simp only [Nat.testBit_mod_two_pow, Nat.testBit_or]
  cases decide (i < 8) <;> simp

theorem to_byte_or_or (a b c : Nat) :
    to_byte (to_byte a ||| b ||| c) = to_byte (a ||| b ||| c) := by
  unfold to_byte
  have e : (256 : Nat) = 2 ^ 8 := by decide
  rw [e]
  apply Nat.eq_of_testBit_eq
  intro i
  simp only [Nat.testBit_mod_two_pow, Nat.testBit_or]
  cases decide (i < 8) <;> simp

theorem build_header_eq (E : msc_declarations) (g : msc_data_group_generator) :
    build_header E g =
      [64, (E.kDataGroupTypes_0 ||| (g.m_continuity_index <<< 4) ||| g.m_repetition_index)
        % 256] := by
  unfold build_header
  dsimp only
  have h0 : to_byte (to_byte (to_byte (to_byte (0 <<< 7) ||| (1 <<< 6)) ||| (0 <<< 5)) |||
      (0 <<< 4)) = 64 := by decide
  rw [h0, to_byte_or, to_byte_or_or]
  rfl

/-- C31 (MSC data group layout): with `concat_vectors_inplace(a, b)` appending `b` to `a`
and leaving `b` as it is, for every generator state and datagram `d`, `build(d)` returns
`H ++ d ++ genCRC16(H ++ d)` where `H` is the result of `build_header()` on the updated
indices: `H` has exactly 2 bytes, `H[0] = 0x40` (bit 6, the CRC flag, set; bits 7, 5 and 4,
the extension, segmentation and user access flags, clear) and `H[1]` is the byte
`data_group_type | (continuity_index << 4) | repetition_index`, which is that value itself
when the data group type is a byte, the continuity index is below 16 and the repetition
index is a byte; the bytes of `d` stand unmodified at offset 2 and `d` is unchanged. -/
theorem build_layout (E : msc_declarations)
    (hconcat : ∀ a b, E.concat_vectors_inplace a b = (a ++ b, b))
    (g : msc_data_group_generator) (d : List Nat) :
    (build E g d).2.1 =
      build_header E (build E g d).1 ++ d ++
        E.genCRC16 (build_header E (build E g d).1 ++ d) ∧
    (build_header E (build E g d).1).length = 2 ∧
    (build_header E (build E g d).1)[0]? = some 0x40 ∧
    (Nat.testBit 0x40 7 = false ∧ Nat.testBit 0x40 6 = true ∧ Nat.testBit 0x40 5 = false ∧
      Nat.testBit 0x40 4 = false) ∧
    (build_header E (build E g d).1)[1]? =
      some ((E.kDataGroupTypes_0 ||| ((build E g d).1.m_continuity_index <<< 4) |||
        (build E g d).1.m_repetition_index) % 256) ∧
    (E.kDataGroupTypes_0 < 256 → (build E g d).1.m_continuity_index < 16 →
      (build E g d).1.m_repetition_index < 256 →
      (build_header E (build E g d).1)[1]? =
        some (E.kDataGroupTypes_0 ||| ((build E g d).1.m_continuity_index <<< 4) |||
          (build E g d).1.m_repetition_index)) ∧
    ((build E g d).2.1.drop 2).take d.length = d ∧
    (build E g d).2.2 = d := by
  have hout : (build E g d).2.1 =
      build_header E (build E g d).1 ++ d ++
        E.genCRC16 (build_header E (build E g d).1 ++ d) := by
    unfold build
    simp only [hconcat]
  have hin : (build E g d).2.2 = d := by
    unfold build
    simp only [hconcat]
  have hH := build_header_eq E (build E g d).1
  refine ⟨hout, ?_, ?_, ⟨by decide, by decide, by decide, by decide⟩, ?_, ?_, ?_, hin⟩
  · rw [hH]; rfl
  · rw [hH]; rfl
  · rw [hH]; rfl
  · intro ht hc hr
    rw [hH]
    have h4 : (build E g d).1.m_continuity_index <<< 4 < 2 ^ 8 := by
      rw [Nat.shiftLeft_eq]; omega
    have h5 : E.kDataGroupTypes_0 ||| ((build E g d).1.m_continuity_index <<< 4) < 2 ^ 8 :=
      Nat.or_lt_two_pow (by omega) h4
    have h6 : E.kDataGroupTypes_0 ||| ((build E g d).1.m_continuity_index <<< 4) |||
        (build E g d).1.m_repetition_index < 2 ^ 8 :=
      Nat.or_lt_two_pow h5 (by omega)
    have h7 : E.kDataGroupTypes_0 ||| ((build E g d).1.m_continuity_index <<< 4) |||
        (build E g d).1.m_repetition_index < 256 := h6
    rw [Nat.mod_eq_of_lt h7]
    rfl
  · rw [hout, hH]
    simp

/-- Witness of `build_layout`: with appending helpers, a data group type 0 and a checksum
helper that returns two zero bytes, the first build of the datagram 7, 8, 9 in the state with
continuity index 4 yields the header bytes 0x40, 0x50, the datagram and the checksum. -/
theorem build_layout_witness :
    (∀ a b, (msc_declarations.mk 8 0 (fun a b => (a ++ b, b))
        (fun _ => [0, 0])).concat_vectors_inplace a b = (a ++ b, b)) ∧
      (build (msc_declarations.mk 8 0 (fun a b => (a ++ b, b)) (fun _ => [0, 0]))
        (msc_data_group_generator.mk 4 0 []) [7, 8, 9]).2.1 = [0x40, 0x50, 7, 8, 9, 0, 0] :=
  ⟨fun _ _ => rfl,
    (build_layout (msc_declarations.mk 8 0 (fun a b => (a ++ b, b)) (fun _ => [0, 0]))
      (fun _ _ => rfl) (msc_data_group_generator.mk 4 0 []) [7, 8, 9]).1⟩

end msc_data_group_generator

/-! ## Transmission modes -/

theorem kTransmissionMode1_eq : kTransmissionMode1 =
    some ⟨1, 1536, 75, 3, 12, 4, 196608, 504, 2048, 2656, 2552, 72, 768, 2304, 3072, 2048⟩ := by
  decide

theorem kTransmissionMode2_eq : kTransmissionMode2 =
    some ⟨2, 384, 75, 3, 3, 1, 49152, 126, 512, 664, 638, 72, 768, 2304, 768, 512⟩ := by
  decide

theorem kTransmissionMode3_eq : kTransmissionMode3 =
    some ⟨3, 192, 152, 8, 4, 1, 49152, 63, 256, 345, 319, 144, 1024, 3072, 384, 256⟩ := by
  decide

theorem kTransmissionMode4_eq : kTransmissionMode4 =
    some ⟨4, 768, 75, 3, 6, 2, 98304, 252, 1024, 1328, 1276, 72, 768, 2304, 1536, 1024⟩ := by
  decide

/-- C32 (transmission mode timing consistency): each of the four descriptors
`kTransmissionMode1` to `kTransmissionMode4`, listed with the symbol count supplied to its
constructor, is constructed, stores `frame_symbols` as the supplied count minus 1, and
satisfies `frame_duration = null_duration + (frame_symbols + 1) * symbol_duration` with
`symbol_duration = useful_duration + guard_duration` and `fft_length = useful_duration`; the
four values of `fft_length` are 2048, 512, 256, 1024. -/
theorem transmission_mode_timing :
    (∀ p ∈ [(76, kTransmissionMode1), (76, kTransmissionMode2), (153, kTransmissionMode3),
        (76, kTransmissionMode4)],
      ∃ m : types.transmission_mode, p.2 = some m ∧
        (m.frame_symbols : Int) = (p.1 : Int) - 1 ∧
        m.symbol_duration = m.useful_duration + m.guard_duration ∧
        m.frame_duration = m.null_duration + (m.frame_symbols + 1) * m.symbol_duration ∧
        m.fft_length = m.useful_duration) ∧
    [kTransmissionMode1, kTransmissionMode2, kTransmissionMode3, kTransmissionMode4].map
        (Option.map (fun m => m.fft_length)) = [some 2048, some 512, some 256, some 1024] := by
  refine ⟨?_, ?_⟩
  · intro p hp
    simp only [List.mem_cons, List.mem_singleton, List.not_mem_nil, or_false] at hp
    rcases hp with rfl | rfl | rfl | rfl
    · exact ⟨_, kTransmissionMode1_eq, by decide, by decide, by decide, by decide⟩
    · exact ⟨_, kTransmissionMode2_eq, by decide, by decide, by decide, by decide⟩
    · exact ⟨_, kTransmissionMode3_eq, by decide, by decide, by decide, by decide⟩
    · exact ⟨_, kTransmissionMode4_eq, by decide, by decide, by decide, by decide⟩
  · rw [kTransmissionMode1_eq, kTransmissionMode2_eq, kTransmissionMode3_eq,
      kTransmissionMode4_eq]
    rfl

/-- C33 (transmission mode derived fields are exact): for each of the four descriptors,
listed with the symbol count supplied to its constructor, the stored members are the exact
integer values of their formulas, without wrap-around or truncation:
`frame_symbols = supplied - 1`, `msc_symbols = frame_symbols - fic_symbols`,
`fib_codeword_bits = frame_fibs * 256 / frame_cifs` with remainder 0,
`punctured_codeword_size = 3 * fib_codeword_bits`, `symbol_bits = 2 * carriers`; the 8-bit
members are below 256 and the 16-bit members below 65536. The values of `msc_symbols` are
72, 72, 144, 72 and those of `fib_codeword_bits` are 768, 768, 1024, 768. -/
theorem transmission_mode_derived_exact :
    (∀ p ∈ [(76, kTransmissionMode1), (76, kTransmissionMode2), (153, kTransmissionMode3),
        (76, kTransmissionMode4)],
      ∃ m : types.transmission_mode, p.2 = some m ∧
        (m.frame_symbols : Int) = (p.1 : Int) - 1 ∧
        (m.msc_symbols : Int) = (m.frame_symbols : Int) - (m.fic_symbols : Int) ∧
        m.frame_cifs ≠ 0 ∧
        m.fib_codeword_bits * m.frame_cifs = m.frame_fibs * 256 ∧
        m.fib_codeword_bits = m.frame_fibs * 256 / m.frame_cifs ∧
        (m.frame_fibs * 256) % m.frame_cifs = 0 ∧
        m.punctured_codeword_size = 3 * m.fib_codeword_bits ∧
        m.symbol_bits = 2 * m.carriers ∧
        m.frame_symbols < 256 ∧ m.msc_symbols < 256 ∧ m.fib_codeword_bits < 65536 ∧
        m.punctured_codeword_size < 65536 ∧ m.symbol_bits < 65536) ∧
    [kTransmissionMode1, kTransmissionMode2, kTransmissionMode3, kTransmissionMode4].map
        (Option.map (fun m => (m.msc_symbols, m.fib_codeword_bits))) =
      [some (72, 768), some (72, 768), some (144, 1024), some (72, 768)] := by
  refine ⟨?_, ?_⟩
  · intro p hp
    simp only [List.mem_cons, List.mem_singleton, List.not_mem_nil, or_false] at hp
    rcases hp with rfl | rfl | rfl | rfl
    · exact ⟨_, kTransmissionMode1_eq, by decide, by decide, by decide, by decide, by decide,
        by decide, by decide, by decide, by decide, by decide, by decide, by decide, by decide⟩
    · exact ⟨_, kTransmissionMode2_eq, by decide, by decide, by decide, by decide, by decide,
        by decide, by decide, by decide, by decide, by decide, by decide, by decide, by decide⟩
    · exact ⟨_, kTransmissionMode3_eq, by decide, by decide, by decide, by decide, by decide,
        by decide, by decide, by decide, by decide, by decide, by decide, by decide, by decide⟩
    · exact ⟨_, kTransmissionMode4_eq, by decide, by decide, by decide, by decide, by decide,
        by decide, by decide, by decide, by decide, by decide, by decide, by decide, by decide⟩
  · rw [kTransmissionMode1_eq, kTransmissionMode2_eq, kTransmissionMode3_eq,
      kTransmissionMode4_eq]
    rfl

namespace types
namespace impl

theorem next_power_of_two_from (value : Nat) :
    ∀ (n i calls : Nat), (∀ j, j < n → 2 ^ (i + j) ≤ value) → value < 2 ^ (i + n) →
      i + n ≤ 63 →
      next_power_of_two calls value (2 ^ i) =
        if n ≤ calls then some (2 ^ (i + n)) else none := by
  intro n
  induction n with
  | zero =>
    intro i calls _ hlt _
    have hgt : 2 ^ i > value := hlt
    cases calls with
    | zero => rw [next_power_of_two, if_pos hgt, if_pos (Nat.le_refl _)]; rfl
    | succ c => rw [next_power_of_two, if_pos hgt, if_pos (Nat.zero_le _)]; rfl
  | succ n ih =>
    intro i calls hle hlt hi
    have h0 : 2 ^ i ≤ value := hle 0 (Nat.succ_pos n)
    have hng : ¬ 2 ^ i > value := by omega
    cases calls with
    | zero => rw [next_power_of_two, if_neg hng, if_neg (by omega)]
    | succ c =>
      have hpow : 2 ^ (i + 1) ≤ 2 ^ 63 := Nat.pow_le_pow_right (by decide) (by omega)
      have hstep : sz_mul (2 ^ i) 2 = 2 ^ (i + 1) := by
        unfold sz_mul
        rw [← Nat.pow_succ, size_mod_eq]
        exact Nat.mod_eq_of_lt (by omega)
      have e : i + 1 + n = i + (n + 1) := by omega
      rw [next_power_of_two, if_neg hng, hstep,
        ih (i + 1) c (fun j hj => by
          have := hle (j + 1) (by omega)
          rwa [show i + 1 + j = i + (j + 1) by omega]) (by rw [e]; exact hlt) (by omega), e]
      by_cases hc : n ≤ c
      · rw [if_pos hc, if_pos (by omega)]
      · rw [if_neg hc, if_neg (by omega)]

/-- C34 (`next_power_of_two`): for every `value < 2 ^ 63` (`std::size_t` has 64 bits) the
call `next_power_of_two(value)` with the default `start = 1` returns: there is a number
`depth <= 63` of recursive calls it makes (with fewer allowed the evaluation does not finish,
with `depth` or more, in particular 64, it returns), the result is `2 ^ depth`, the smallest
power of two strictly greater than `value`; `depth` is 0 for `value = 0` (the result is 1)
and `floor(log2(value)) + 1` for `value >= 1`, and a power of two maps to its double. -/
theorem next_power_of_two_spec (value : Nat) (hv : value < 2 ^ 63) :
    ∃ depth, depth ≤ 63 ∧
      (∀ calls, depth ≤ calls → next_power_of_two calls value 1 = some (2 ^ depth)) ∧
      (∀ calls, calls < depth → next_power_of_two calls value 1 = none) ∧
      next_power_of_two 64 value 1 = some (2 ^ depth) ∧
      value < 2 ^ depth ∧
      (∀ j, value < 2 ^ j → 2 ^ depth ≤ 2 ^ j) ∧
      (value = 0 → depth = 0 ∧ 2 ^ depth = 1) ∧
      (1 ≤ value → depth = Nat.log 2 value + 1) ∧
      (∀ i, value = 2 ^ i → 2 ^ depth = 2 * value) := by
  have key : ∀ depth, depth ≤ 63 → (∀ j, j < depth → 2 ^ j ≤ value) → value < 2 ^ depth →
      (∀ calls, depth ≤ calls → next_power_of_two calls value 1 = some (2 ^ depth)) ∧
      (∀ calls, calls < depth → next_power_of_two calls value 1 = none) ∧
      next_power_of_two 64 value 1 = some (2 ^ depth) ∧
      value < 2 ^ depth ∧
      (∀ j, value < 2 ^ j → 2 ^ depth ≤ 2 ^ j) ∧
      (∀ i, value = 2 ^ i → 2 ^ depth = 2 * value) := by
    intro depth hd hle hlt
    have hfrom := fun calls => next_power_of_two_from value depth 0 calls
      (fun j hj => by rw [Nat.zero_add]; exact hle j hj) (by rw [Nat.zero_add]; exact hlt)
      (by omega)
    simp only [Nat.zero_add, Nat.pow_zero] at hfrom
    have hmin : ∀ j, value < 2 ^ j → depth ≤ j := by
      intro j hj
      by_contra hcon
      have := hle j (by omega)
      omega
    refine ⟨fun calls hc => by rw [hfrom calls, if_pos hc],
      fun calls hc => by rw [hfrom calls, if_neg (by omega)],
      by rw [hfrom 64, if_pos (by omega)], hlt,
      fun j hj => Nat.pow_le_pow_right (by decide) (hmin j hj), ?_⟩
    intro i hi
    have h1 : i < depth := by
      by_contra hcon
      have : 2 ^ depth ≤ 2 ^ i := Nat.pow_le_pow_right (by decide) (by omega)
      omega
    have hpos : 0 < 2 ^ i := Nat.two_pow_pos i
    have hdouble : value < 2 ^ (i + 1) := by
      rw [Nat.pow_succ, hi]
      omega
    have h2 : depth ≤ i + 1 := hmin (i + 1) hdouble
    have h3 : depth = i + 1 := by omega
    rw [h3, Nat.pow_succ, hi]
    omega
  by_cases h0 : value = 0
  · obtain ⟨k1, k2, k3, k4, k5, k6⟩ :=
      key 0 (by decide) (fun j hj => absurd hj (Nat.not_lt_zero j)) (by rw [h0]; decide)
    exact ⟨0, by decide, k1, k2, k3, k4, k5, fun _ => ⟨rfl, rfl⟩, fun h => by omega, k6⟩
  · have hlog : Nat.log 2 value < 63 := Nat.log_lt_of_lt_pow h0 hv
    obtain ⟨k1, k2, k3, k4, k5, k6⟩ :=
      key (Nat.log 2 value + 1) (by omega)
        (fun j hj => Nat.le_trans (Nat.pow_le_pow_right (by decide) (by omega))
          (Nat.pow_log_le_self 2 h0))
        (Nat.lt_pow_succ_log_self (by decide) value)
    exact ⟨Nat.log 2 value + 1, by omega, k1, k2, k3, k4, k5, fun h => absurd h h0,
      fun _ => rfl, k6⟩

/-- Witness of `next_power_of_two_spec`: the number of carriers of transmission mode 1. -/
theorem next_power_of_two_spec_witness :
    1536 < 2 ^ 63 ∧
      ∃ depth, depth ≤ 63 ∧ next_power_of_two 64 1536 1 = some (2 ^ depth) ∧
        1536 < 2 ^ depth ∧ (∀ j, 1536 < 2 ^ j → 2 ^ depth ≤ 2 ^ j) :=
  ⟨by decide,
    match next_power_of_two_spec 1536 (by decide) with
    | ⟨depth, h1, _, _, h4, h5, h6, _⟩ => ⟨depth, h1, h4, h5, h6⟩⟩

end impl
end types

end dab
